import Mathlib

/-!
Voicemail drop detector: the analyser of `audioAnalyzer.js`

A shallow embedding of `AudioAnalyzer.analyzeAudio` and the properties its
specification states about it.

Modelling conventions.

* In the first part JavaScript numbers are modelled by exact rationals (`ℚ`),
  without the rounding of IEEE doubles: times are the nominal times
  `i / sampleRate`.  The section "The analysis in double precision" repeats
  the analysis with every operation rounded; the properties that depend on
  rounding, and the batch handler `handleAnalyze`, are stated on it.  Array
  indices and sizes are integers (`ℤ`).
* `getEnergy` and `getFrequencyInfo` involve `Math.sqrt`, `Math.cos` and
  `Math.sin`; `analyzeAudio` is parameterised by the two functions, so every
  theorem holds whatever values they return.
* `Math.sqrt(variance) < 15` is modelled by `variance < 15 ^ 2`; the lemma
  `sqrt_lt_fifteen_iff` shows the two agree over the reals.
* The `for` loop over the frames takes a fuel argument: it returns `none`
  when the fuel runs out before the loop condition becomes false.
* `console.log` calls and the `details` string (built with `toFixed`) are
  left out: neither is read back by the analysis.
-/

namespace AudioAnalyzer

/-! ## Data model -/

/-- An entry of `allChunks`: `{ time, freq, purity, energy }`. -/
structure Chunk where
  time : ℚ
  freq : ℚ
  purity : ℚ
  energy : ℚ
  deriving DecidableEq

/-- An entry of `silences`: `{ start, dur }`. -/
structure Silence where
  start : ℚ
  dur : ℚ
  deriving DecidableEq

/-- An entry of `beeps`: `{ start, end, frequency, duration, purity }`
(`end` is a keyword, hence `end_`). -/
structure Beep where
  start : ℚ
  end_ : ℚ
  frequency : ℚ
  duration : ℚ
  purity : ℚ
  deriving DecidableEq

/-- The values of `triggerType`: the initial `''`, the four triggers that
`analyzeAudio` assigns, and `'error'`, which only the caller assigns. -/
inductive TriggerType where
  | empty
  | beep
  | silence
  | speech_end
  | fallback
  | error
  deriving DecidableEq

/-- The object returned by `analyzeAudio` (without `details`). -/
structure Result where
  beeps : List Beep
  silences : List Silence
  speechEnd : ℚ
  dropTimestamp : ℚ
  triggerType : TriggerType
  confidence : ℚ
  deriving DecidableEq

/-- The object returned by `getFrequencyInfo`: `{ freq, purity }`. -/
structure FreqInfo where
  freq : ℚ
  purity : ℚ
  deriving DecidableEq

/-! ## The frame loop -/

/-- How `slice` resolves one relative index against an array of length `len`:
a negative index counts from the end, and the result is clamped to
`[0, len]`. -/
def sliceIndex (len k : ℤ) : ℤ :=
  if k < 0 then max (len + k) 0 else min k len

/-- The method `samples.slice(s, e)` of a typed array. -/
def slice (xs : List ℚ) (s e : ℤ) : List ℚ :=
  let a := sliceIndex xs.length s
  let b := sliceIndex xs.length e
  (xs.drop a.toNat).take (b - a).toNat

/-- The mutable variables of the frame loop. -/
structure LoopState where
  allChunks : List Chunk
  lastSpeechTime : ℚ
  silences : List Silence
  inSilence : Bool
  silenceStart : ℚ
  deriving DecidableEq

/-- The values of the loop variables before the first iteration. -/
def LoopState.init : LoopState :=
  { allChunks := [], lastSpeechTime := 0, silences := [], inSilence := false,
    silenceStart := 0 }

/-- What one iteration of the frame loop computes from the samples: the time
of the frame, its energy, and the result of `getFrequencyInfo` on it (which
the loop reads only when `energy > 0.01`). -/
structure Frame where
  time : ℚ
  energy : ℚ
  freq : ℚ
  purity : ℚ
  deriving DecidableEq

/-- The block "Silence tracking" of the loop body. -/
def trackSilence (time energy : ℚ) (st : LoopState) : LoopState :=
  if energy < 0.01 then
    if !st.inSilence then
      { st with inSilence := true, silenceStart := time }
    else st
  else
    { st with
      silences :=
        if st.inSilence && decide (time - st.silenceStart ≥ 0.5) then
          st.silences ++ [{ start := st.silenceStart, dur := time - st.silenceStart }]
        else st.silences
      inSilence := false }

/-- The block "Speech tracking" of the loop body. -/
def trackSpeech (time energy : ℚ) (st : LoopState) : LoopState :=
  if energy > 0.015 then { st with lastSpeechTime := time } else st

/-- The block "Look for ANY tonal content" of the loop body. -/
def trackTonal (fr : Frame) (st : LoopState) : LoopState :=
  if fr.energy > 0.01 then
    if fr.freq ≥ 600 ∧ fr.freq ≤ 1100 ∧ fr.purity > 0.04 then
      { st with
        allChunks := st.allChunks ++
          [{ time := fr.time, freq := fr.freq, purity := fr.purity, energy := fr.energy }] }
    else st
  else st

/-- The body of the frame loop, after `chunk`, `time` and `energy` have been
computed. -/
def processFrame (fr : Frame) (st : LoopState) : LoopState :=
  trackTonal fr (trackSpeech fr.time fr.energy (trackSilence fr.time fr.energy st))

/-- The first lines of the loop body at offset `i`: the chunk
`samples.slice(i, i + chunkSize)`, `time = i / sampleRate`, its energy and
its frequency information. -/
def frameAt (getEnergy : List ℚ → ℚ) (getFrequencyInfo : List ℚ → ℚ → FreqInfo)
    (samples : List ℚ) (sampleRate : ℚ) (chunkSize i : ℤ) : Frame :=
  let chunk := slice samples i (i + chunkSize)
  let info := getFrequencyInfo chunk sampleRate
  { time := (i : ℚ) / sampleRate, energy := getEnergy chunk,
    freq := info.freq, purity := info.purity }

/-- The loop
`for (let i = 0; i < samples.length - chunkSize; i += hopSize) { ... }`,
started at `i` in state `st`.  `none` means that the fuel was used up while
the loop condition still held. -/
def frameLoop (getEnergy : List ℚ → ℚ) (getFrequencyInfo : List ℚ → ℚ → FreqInfo)
    (samples : List ℚ) (sampleRate : ℚ) (chunkSize hopSize : ℤ) :
    Nat → ℤ → LoopState → Option LoopState
  | 0, i, st => if i < (samples.length : ℤ) - chunkSize then none else some st
  | fuel + 1, i, st =>
    if i < (samples.length : ℤ) - chunkSize then
      frameLoop getEnergy getFrequencyInfo samples sampleRate chunkSize hopSize fuel
        (i + hopSize)
        (processFrame (frameAt getEnergy getFrequencyInfo samples sampleRate chunkSize i) st)
    else some st

/-! ## Grouping tonal chunks into beeps -/

/-- The variables `groupStart`, `groupFreqs`, `groupPurities` and `lastTime`
that hold the open group. -/
structure Group where
  groupStart : ℚ
  groupFreqs : List ℚ
  groupPurities : List ℚ
  lastTime : ℚ
  deriving DecidableEq

/-- The call `xs.reduce((a, b) => a + b)`: the fold starts from the first
element.  (On an empty array JavaScript throws; `evaluateGroup` calls it only
on a group of two or more members.) -/
def reduceAdd : List ℚ → ℚ
  | [] => 0
  | x :: xs => xs.foldl (fun a b => a + b) x

/-- The call `Math.max(...xs)`, on a non-empty array. -/
def maxOf : List ℚ → ℚ
  | [] => 0
  | x :: xs => xs.foldl max x

/-- The closure `evaluateGroup`: the beep it pushes, if any. -/
def evaluateGroup (hopSize : ℤ) (sampleRate : ℚ) (g : Group) : Option Beep :=
  let dur := g.lastTime - g.groupStart + (hopSize : ℚ) / sampleRate
  if g.groupFreqs.length ≥ 2 ∧ dur ≥ 0.10 then
    let avgFreq := reduceAdd g.groupFreqs / g.groupFreqs.length
    let avgPurity := reduceAdd g.groupPurities / g.groupPurities.length
    let maxPurity := maxOf g.groupPurities
    let variance :=
      g.groupFreqs.foldl (fun s f => s + (f - avgFreq) ^ 2) 0 / g.groupFreqs.length
    let isStableFreq := decide (variance < 15 ^ 2)
    let hasGoodPurity := decide (avgPurity > 0.20) || decide (maxPurity > 0.30)
    let hasExcellentPurity := decide (maxPurity > 0.50)
    let hasEnoughChunks :=
      decide (g.groupFreqs.length ≥ 8) ||
        (decide (g.groupFreqs.length ≥ 4) && decide (maxPurity > 0.40))
    let isRealBeep :=
      (isStableFreq && hasGoodPurity && hasEnoughChunks) ||
        (hasExcellentPurity && decide (g.groupFreqs.length ≥ 4))
    if isRealBeep then
      some { start := g.groupStart, end_ := g.lastTime + (hopSize : ℚ) / sampleRate,
             frequency := avgFreq, duration := dur, purity := avgPurity }
    else none
  else none

/-- The state of the grouping scan: the open group and the beeps pushed so
far. -/
structure ScanState where
  group : Group
  beeps : List Beep
  deriving DecidableEq

/-- The group that holds the single chunk `c`. -/
def Group.single (c : Chunk) : Group :=
  { groupStart := c.time, groupFreqs := [c.freq], groupPurities := [c.purity],
    lastTime := c.time }

/-- The open group after `c` has been pushed to it. -/
def Group.push (g : Group) (c : Chunk) : Group :=
  { g with groupFreqs := g.groupFreqs ++ [c.freq],
           groupPurities := g.groupPurities ++ [c.purity], lastTime := c.time }

/-- The test `timeDiff < 0.25 && freqDiff < 100` of the grouping loop. -/
def Group.accepts (g : Group) (c : Chunk) : Bool :=
  let timeDiff := c.time - g.lastTime
  let freqDiff := |c.freq - g.groupFreqs.getLastD 0|
  decide (timeDiff < 0.25) && decide (freqDiff < 100)

/-- The body of the loop `for (let i = 1; i < allChunks.length; i++)`. -/
def groupStep (hopSize : ℤ) (sampleRate : ℚ) (s : ScanState) (c : Chunk) : ScanState :=
  if s.group.accepts c then
    { s with group := s.group.push c }
  else
    { group := Group.single c,
      beeps := s.beeps ++ (evaluateGroup hopSize sampleRate s.group).toList }

/-- The order `allChunks.sort((a, b) => a.time - b.time)` sorts by. -/
def timeLe (a b : Chunk) : Prop := a.time ≤ b.time

instance : DecidableRel timeLe := fun a b => inferInstanceAs (Decidable (a.time ≤ b.time))

/-- The block "Group chunks into beep candidates": the list `beeps`. -/
def detectBeeps (hopSize : ℤ) (sampleRate : ℚ) (allChunks : List Chunk) : List Beep :=
  if allChunks.length ≥ 2 then
    match allChunks.insertionSort timeLe with
    | [] => []
    | c0 :: rest =>
      let s := rest.foldl (groupStep hopSize sampleRate)
        { group := Group.single c0, beeps := [] }
      s.beeps ++ (evaluateGroup hopSize sampleRate s.group).toList
  else []

/-! ## The decision cascade -/

/-- The last part of `analyzeAudio`, from `const result = ...` on. -/
def decideDrop (beeps : List Beep) (silences : List Silence) (lastSpeechTime duration : ℚ) :
    Result :=
  let result : Result :=
    { beeps := beeps, silences := silences, speechEnd := lastSpeechTime,
      dropTimestamp := 0, triggerType := TriggerType.empty, confidence := 0 }
  let lateBeeps := beeps.filter (fun b => decide (b.start > 3.0))
  match lateBeeps.getLast? with
  | some beep =>
    { result with dropTimestamp := beep.end_, triggerType := TriggerType.beep,
                  confidence := 0.95 }
  | none =>
    let lateSilences := silences.filter (fun s => decide (s.start > 3.0) && decide (s.dur ≥ 0.8))
    match lateSilences.head? with
    | some s0 =>
      { result with dropTimestamp := s0.start + 0.2, triggerType := TriggerType.silence,
                    confidence := 0.75 }
    | none =>
      if lastSpeechTime > 3.0 then
        { result with dropTimestamp := lastSpeechTime + 0.4,
                      triggerType := TriggerType.speech_end, confidence := 0.60 }
      else
        { result with dropTimestamp := max 0 (duration - 0.5),
                      triggerType := TriggerType.fallback, confidence := 0.40 }

/-- The size `chunkSize = Math.floor(sampleRate * chunkMs / 1000)` with
`chunkMs = 50`. -/
def chunkSizeOf (sampleRate : ℚ) : ℤ := ⌊sampleRate * 50 / 1000⌋

/-- The size `hopSize = Math.floor(chunkSize / 2)`. -/
def hopSizeOf (chunkSize : ℤ) : ℤ := ⌊(chunkSize : ℚ) / 2⌋

/-- The function `analyzeAudio(samples, sampleRate, duration)`.  The result is
`none` when the frame loop does not finish within `fuel` iterations. -/
def analyzeAudio (getEnergy : List ℚ → ℚ) (getFrequencyInfo : List ℚ → ℚ → FreqInfo)
    (fuel : Nat) (samples : List ℚ) (sampleRate duration : ℚ) : Option Result :=
  let chunkSize := chunkSizeOf sampleRate
  let hopSize := hopSizeOf chunkSize
  (frameLoop getEnergy getFrequencyInfo samples sampleRate chunkSize hopSize fuel 0
      LoopState.init).map
    fun st =>
      decideDrop (detectBeeps hopSize sampleRate st.allChunks) st.silences
        st.lastSpeechTime duration

/-! ## The frames the loop analyses -/

/-- The loop body applied to a list of frames, in order. -/
def runFrames (frs : List Frame) (st : LoopState) : LoopState :=
  frs.foldl (fun s f => processFrame f s) st

/-- The number of offsets `0, hopSize, 2 * hopSize, ...` below
`len - chunkSize`, for a positive `hopSize`. -/
def frameCount (len chunkSize hopSize : ℤ) : ℕ :=
  if hopSize ≤ 0 then 0 else ((len - chunkSize + hopSize - 1) / hopSize).toNat

/-- The frames of a terminating run of the frame loop, in order. -/
def analysedFrames (getEnergy : List ℚ → ℚ) (getFrequencyInfo : List ℚ → ℚ → FreqInfo)
    (samples : List ℚ) (sampleRate : ℚ) : List Frame :=
  let chunkSize := chunkSizeOf sampleRate
  let hopSize := hopSizeOf chunkSize
  (List.range (frameCount samples.length chunkSize hopSize)).map fun (k : ℕ) =>
    frameAt getEnergy getFrequencyInfo samples sampleRate chunkSize ((k : ℤ) * hopSize)

/-- The entry that the block "Look for ANY tonal content" pushes for a frame,
if it pushes one. -/
def toChunk (fr : Frame) : Option Chunk :=
  if fr.energy > 0.01 ∧ fr.freq ≥ 600 ∧ fr.freq ≤ 1100 ∧ fr.purity > 0.04 then
    some { time := fr.time, freq := fr.freq, purity := fr.purity, energy := fr.energy }
  else none

/-- The invariant of the silence tracker after a frame of time `T`: emitted
intervals are disjoint and in order, last at least half a second, end no
later than `T`, and lie before the start of the open run. -/
structure SilInv (st : LoopState) (T : ℚ) : Prop where
  ordered : st.silences.Pairwise (fun a b => a.start + a.dur < b.start)
  closed : ∀ s ∈ st.silences, 0.5 ≤ s.dur ∧ s.start + s.dur ≤ T
  opened : st.inSilence = true →
    st.silenceStart ≤ T ∧ ∀ s ∈ st.silences, s.start + s.dur < st.silenceStart

/-- The open group whose members are the chunks `l`, in order (`l` is not
empty while a group is open). -/
def Group.ofChunks (l : List Chunk) : Group :=
  { groupStart := (l.head?.map Chunk.time).getD 0,
    groupFreqs := l.map Chunk.freq,
    groupPurities := l.map Chunk.purity,
    lastTime := (l.getLast?.map Chunk.time).getD 0 }

/-- One step of the grouping scan on lists of members: the closed groups and
the open group. -/
def segStep (acc : List (List Chunk) × List Chunk) (c : Chunk) :
    List (List Chunk) × List Chunk :=
  if (Group.ofChunks acc.2).accepts c then (acc.1, acc.2 ++ [c])
  else (acc.1 ++ [acc.2], [c])

/-- The groups that the grouping scan forms from the time-ordered chunks `cs`,
each as the list of its members: the closed groups followed by the group that
is open when the scan ends. -/
def tonalGroups (cs : List Chunk) : List (List Chunk) :=
  match cs with
  | [] => []
  | c0 :: rest =>
    let a := rest.foldl segStep ([], [c0])
    a.1 ++ [a.2]

/-- The arithmetic mean of a list of numbers. -/
def mean (l : List ℚ) : ℚ := l.sum / l.length

/-- The population variance of a list of numbers: the mean of the squared
deviations from the mean. -/
def popVariance (l : List ℚ) : ℚ := (l.map fun f => (f - mean l) ^ 2).sum / l.length

/-! ## Example inputs -/

/-- An energy function for examples: the value of the first sample of the
chunk. -/
def headEnergy (chunk : List ℚ) : ℚ := chunk.headD 0

/-- A frequency function for examples: a pure 950 Hz tone where the chunk
starts with the sample 1, and a 200 Hz component of purity 0 elsewhere. -/
def headTone (chunk : List ℚ) (_sampleRate : ℚ) : FreqInfo :=
  if chunk.headD 0 = 1 then { freq := 950, purity := 0.6 } else { freq := 200, purity := 0 }

/-- A recording at 40 Hz: speech until 3.05 s, silence until 3.95 s, then a
tone. -/
def speechSilenceTone : List ℚ :=
  List.replicate 122 (1 / 2) ++ List.replicate 36 0 ++ List.replicate 8 1

/-- A recording at 40 Hz: speech until 3.05 s, silence until 3.95 s, then
speech again. -/
def speechSilenceSpeech : List ℚ :=
  List.replicate 122 (1 / 2) ++ List.replicate 36 0 ++ List.replicate 8 (1 / 2)

/-- A recording at 40 Hz: 3.25 s of speech. -/
def speechOnly : List ℚ := List.replicate 130 (1 / 2)

/-- A recording at 40 Hz: 5 s of low-level noise. -/
def noiseOnly : List ℚ := List.replicate 200 (3 / 250)

/-- The result of `analyzeAudio` on `speechSilenceTone`. -/
def speechSilenceToneResult : Result :=
  { beeps := [{ start := 79 / 20, end_ := 41 / 10, frequency := 950, duration := 3 / 20,
                purity := 3 / 5 }],
    silences := [{ start := 61 / 20, dur := 9 / 10 }],
    speechEnd := 163 / 40, dropTimestamp := 41 / 10, triggerType := TriggerType.beep,
    confidence := 19 / 20 }

/-- The result of `analyzeAudio` on `speechSilenceSpeech`. -/
def speechSilenceSpeechResult : Result :=
  { beeps := [], silences := [{ start := 61 / 20, dur := 9 / 10 }],
    speechEnd := 163 / 40, dropTimestamp := 13 / 4, triggerType := TriggerType.silence,
    confidence := 3 / 4 }

/-- The result of `analyzeAudio` on `speechOnly`. -/
def speechOnlyResult : Result :=
  { beeps := [], silences := [], speechEnd := 127 / 40, dropTimestamp := 143 / 40,
    triggerType := TriggerType.speech_end, confidence := 3 / 5 }

/-- The result of `analyzeAudio` on `noiseOnly`. -/
def noiseOnlyResult : Result :=
  { beeps := [], silences := [], speechEnd := 0, dropTimestamp := 9 / 2,
    triggerType := TriggerType.fallback, confidence := 2 / 5 }

/-! ## The silence intervals, stated on runs of quiet frames -/

/-- The silence intervals of a sequence of frames `(time, energy)`, as the
specification words them: every maximal run of consecutive frames with
`energy < 0.01` that is followed by a frame with `energy >= 0.01` gives, with
`s` the time of the first frame of the run and `t` the time of the frame that
ends it, the interval `{start: s, dur: t - s}` if and only if `t - s >= 0.5`.
A run that lasts until the end of the sequence gives nothing. -/
def silenceRunsSpec : List (ℚ × ℚ) → List Silence
  | [] => []
  | (s, e) :: rest =>
    if e < 0.01 then
      match h : rest.dropWhile (fun f => decide (f.2 < 0.01)) with
      | [] => []
      | (t, _) :: rest' =>
        (if t - s ≥ 0.5 then [{ start := s, dur := t - s }] else []) ++ silenceRunsSpec rest'
    else silenceRunsSpec rest
termination_by l => l.length
decreasing_by
  · have h1 := (List.dropWhile_sublist (l := rest) (fun f : ℚ × ℚ => decide (f.2 < 0.01))).length_le
    rw [h] at h1
    simp only [List.length_cons] at h1 ⊢
    omega
  · simp

/-- The intervals that follow once a run of quiet frames has started at time
`s`: the rest of the run is skipped, the frame that ends it decides whether
the run is emitted, and the frames after it are scanned for further runs. -/
def closeRunSpec (s : ℚ) (rest : List (ℚ × ℚ)) : List Silence :=
  match rest.dropWhile (fun f => decide (f.2 < 0.01)) with
  | [] => []
  | (t, _) :: rest' =>
    (if t - s ≥ 0.5 then [{ start := s, dur := t - s }] else []) ++ silenceRunsSpec rest'

/-- The continuity test of the grouping scan between the member most recently
added to the open group and the next chunk `c`: the time gap is below 0.25 s
and the frequencies differ by less than 100 Hz. -/
def continues (last c : Chunk) : Prop :=
  c.time - last.time < 0.25 ∧ |c.freq - last.freq| < 100

instance (last c : Chunk) : Decidable (continues last c) :=
  inferInstanceAs (Decidable (_ ∧ _))

/-- A tonal chunk of purity 0.6 and energy 1 at the given time and
frequency. -/
def toneAt (time freq : ℚ) : Chunk :=
  { time := time, freq := freq, purity := 0.6, energy := 1 }

/-- Five consecutive tonal chunks at 40 Hz (hop 1), from 3.5 s on, as an open
group. -/
def fiveToneGroup : Group :=
  Group.ofChunks
    [toneAt (7 / 2) 950, toneAt (141 / 40) 955, toneAt (142 / 40) 945, toneAt (143 / 40) 950,
      toneAt (144 / 40) 950]

/-- A recording at 8000 Hz whose five frames all hold the tone: 1201 samples
of value 1. -/
def toneOnly : List ℚ := List.replicate 1201 1

/-- The loop variables after the frame loop has run on `toneOnly`. -/
def toneOnlyState : LoopState :=
  { allChunks := [toneAt 0 950, toneAt (1 / 40) 950, toneAt (2 / 40) 950, toneAt (3 / 40) 950,
      toneAt (4 / 40) 950],
    lastSpeechTime := 1 / 10, silences := [], inSilence := false, silenceStart := 0 }

/-- The fallback result for a recording without beeps, silences or speech. -/
def fallbackResult (duration : ℚ) : Result :=
  { beeps := [], silences := [], speechEnd := 0, dropTimestamp := max 0 (duration - 0.5),
    triggerType := TriggerType.fallback, confidence := 0.40 }

/-- A recording at 40 Hz: 5 s of digital silence. -/
def silenceOnly : List ℚ := List.replicate 200 0

/-! ## `loadAudio` -/

/-- The decoded `AudioBuffer`, as far as `loadAudio` reads it: `sampleRate`,
`duration`, and the data of each channel (`numberOfChannels` is the number of
channels; all channels of an `AudioBuffer` have the same length). -/
structure AudioBuffer where
  sampleRate : ℚ
  duration : ℚ
  channels : List (List ℚ)

/-- The loop that mixes a stereo file to mono:
`rawSamples[i] = (left[i] + right[i]) / 2` for `i < left.length`.  (An index
beyond the end of `right` reads `undefined` in JavaScript; it reads 0 here and
does not occur for the channels of an `AudioBuffer`.) -/
def mixStereo (left right : List ℚ) : List ℚ :=
  (List.range left.length).map fun i => (left.getD i 0 + right.getD i 0) / 2

/-- The block "Get audio samples" of `loadAudio`: `rawSamples`, from the
channel data.  With one channel it is channel 0; otherwise it is the mix of
channels 0 and 1.  Without any channel `getChannelData(0)` throws. -/
def rawSamplesOf (channels : List (List ℚ)) : Option (List ℚ) :=
  match channels with
  | [] => none
  | [mono] => some mono
  | left :: right :: _ => some (mixStereo left right)

/-- The loop "Find max amplitude" of `loadAudio`. -/
def maxAmplitude (rawSamples : List ℚ) : ℚ :=
  rawSamples.foldl (fun maxAmp x => if |x| > maxAmp then |x| else maxAmp) 0

/-- The outcome of the normalization step: the samples, and the divisors of
the divisions it performed. -/
structure Normalized where
  samples : List ℚ
  divisors : List ℚ
  deriving DecidableEq

/-- The block "Always normalize for consistent analysis" of `loadAudio`: with
`maxAmp > 0.001` every sample is multiplied by `scale = 1.0 / maxAmp`;
otherwise `samples = rawSamples`. -/
def normalize (rawSamples : List ℚ) : Normalized :=
  let maxAmp := maxAmplitude rawSamples
  if maxAmp > 0.001 then
    let scale := 1.0 / maxAmp
    { samples := rawSamples.map fun x => x * scale, divisors := [maxAmp] }
  else
    { samples := rawSamples, divisors := [] }

/-- The object `{ samples, sampleRate, duration }` that `loadAudio` returns. -/
structure LoadedAudio where
  samples : List ℚ
  sampleRate : ℚ
  duration : ℚ
  deriving DecidableEq

/-- The function `loadAudio`, from the decoded buffer on. -/
def loadAudio (audioBuffer : AudioBuffer) : Option LoadedAudio :=
  (rawSamplesOf audioBuffer.channels).map fun rawSamples =>
    { samples := (normalize rawSamples).samples, sampleRate := audioBuffer.sampleRate,
      duration := audioBuffer.duration }

/-- The number `p` is the peak absolute amplitude of the signal `l`: the
greatest of the absolute values of its samples, and 0 for an empty signal. -/
def IsPeak (l : List ℚ) (p : ℚ) : Prop :=
  (l = [] ∧ p = 0) ∨ ((∃ x ∈ l, |x| = p) ∧ ∀ x ∈ l, |x| ≤ p)

/-- The arithmetic mean, at sample index `i`, of the samples of all
channels. -/
def channelMean (channels : List (List ℚ)) (i : ℕ) : ℚ :=
  (channels.map fun c => c.getD i 0).sum / channels.length

/-! ## `getFrequencyInfo` -/

/-- The first bin of the scan: `minK = Math.max(1, Math.floor(400 * n / sampleRate))`. -/
def minK (n : ℕ) (sampleRate : ℚ) : ℤ := max 1 ⌊400 * (n : ℚ) / sampleRate⌋

/-- The last bin of the scan:
`maxK = Math.min(Math.ceil(1500 * n / sampleRate), Math.floor(n / 2))`. -/
def maxK (n : ℕ) (sampleRate : ℚ) : ℤ := min ⌈1500 * (n : ℚ) / sampleRate⌉ ⌊(n : ℚ) / 2⌋

/-- The values of `k` in `for (let k = minK; k <= maxK; k++)`, in order. -/
def scannedBins (n : ℕ) (sampleRate : ℚ) : List ℤ :=
  (List.range (maxK n sampleRate - minK n sampleRate + 1).toNat).map fun (j : ℕ) =>
    minK n sampleRate + (j : ℤ)

/-- The variables `maxMag`, `maxFreq` and `totalMag` of the scan. -/
structure BinState where
  maxMag : ℚ
  maxFreq : ℚ
  totalMag : ℚ
  deriving DecidableEq

/-- The body of the loop over the bins, once the magnitude `mag` of bin `k`
has been computed. -/
def binStep (mag : ℤ → ℚ) (n : ℕ) (sampleRate : ℚ) (s : BinState) (k : ℤ) : BinState :=
  if mag k > s.maxMag then
    { maxMag := mag k, maxFreq := (k : ℚ) * sampleRate / (n : ℚ),
      totalMag := s.totalMag + mag k }
  else
    { s with totalMag := s.totalMag + mag k }

/-- The state of the scan after the loop over the bins. -/
def scanBins (mag : ℤ → ℚ) (n : ℕ) (sampleRate : ℚ) : BinState :=
  (scannedBins n sampleRate).foldl (binStep mag n sampleRate)
    { maxMag := 0, maxFreq := 0, totalMag := 0 }

/-- The function `getFrequencyInfo(samples, sampleRate)`.  The magnitude
`Math.sqrt(re * re + im * im)` of the correlation of the samples with bin `k`
is the parameter `magnitude samples k`. -/
def getFrequencyInfo (magnitude : List ℚ → ℤ → ℚ) (samples : List ℚ) (sampleRate : ℚ) :
    FreqInfo :=
  let s := scanBins (magnitude samples) samples.length sampleRate
  { freq := s.maxFreq, purity := if s.totalMag > 0 then s.maxMag / s.totalMag else 0 }

/-- A magnitude function for examples: bin 20 has magnitude 3, every other
bin magnitude 1. -/
def peakAtBin20 (_samples : List ℚ) (k : ℤ) : ℚ := if k = 20 then 3 else 1

/-- A recording at 40 Hz: three tones of 0.2 s separated by two silences of
0.75 s. -/
def tonesAndSilences : List ℚ :=
  List.replicate 8 1 ++ List.replicate 30 0 ++ List.replicate 8 1 ++ List.replicate 30 0 ++
    List.replicate 8 1
/-! ## The files, the entries of the results list and `handleExport` -/

/-- A file handed to `handleAnalyze`: its name, and the outcome of
`file.arrayBuffer()` and `decodeAudioData`, which is the decoded buffer or the
message of the error thrown. -/
structure AudioFile where
  name : String
  decoded : Except String AudioBuffer

/-- An entry of `newResults`: the object pushed after a successful analysis
(`fileName`, `duration`, `samples`, `sampleRate` and the fields of the
analysis), or the object pushed by the `catch` block. -/
inductive ResultEntry where
  | analysed (fileName : String) (duration : ℚ) (samples : List ℚ) (sampleRate : ℚ)
      (analysis : Result)
  | failed (fileName : String) (dropTimestamp : ℚ) (triggerType : TriggerType)
      (confidence : ℚ) (details : String) (beeps : List Beep)
  deriving DecidableEq

/-- The field `triggerType` of an entry. -/
def ResultEntry.triggerType : ResultEntry → TriggerType
  | ResultEntry.analysed _ _ _ _ analysis => analysis.triggerType
  | ResultEntry.failed _ _ triggerType _ _ _ => triggerType

/-- The field `dropTimestamp` of an entry. -/
def ResultEntry.dropTimestamp : ResultEntry → ℚ
  | ResultEntry.analysed _ _ _ _ analysis => analysis.dropTimestamp
  | ResultEntry.failed _ dropTimestamp _ _ _ _ => dropTimestamp

/-- The field `confidence` of an entry. -/
def ResultEntry.confidence : ResultEntry → ℚ
  | ResultEntry.analysed _ _ _ _ analysis => analysis.confidence
  | ResultEntry.failed _ _ _ confidence _ _ => confidence

/-- The message of the error that `AudioAnalyzer.loadAudio(file)` throws, if
it throws: the decoding error, or the error of `getChannelData(0)` on a buffer
without channels, whose message is `channelError`. -/
def loadError (channelError : String) (file : AudioFile) : Option String :=
  match file.decoded with
  | Except.error message => some message
  | Except.ok audioBuffer =>
    match loadAudio audioBuffer with
    | none => some channelError
    | some _ => none

/-- The object that the `catch` block pushes for the file named `fileName`
when the error thrown has the message `message`. -/
def errorEntry (fileName message : String) : ResultEntry :=
  ResultEntry.failed fileName 0 TriggerType.error 0 ("Error: " ++ message) []

/-- The state of `App` that `handleAnalyze` reads and writes. -/
structure AppState where
  files : List AudioFile
  results : List ResultEntry

/-- The handler `handleFilesChange`. -/
def handleFilesChange (_st : AppState) (newFiles : List AudioFile) : AppState :=
  { files := newFiles, results := [] }

/-- The function `Math.round`: the nearest integer, a half rounded up. -/
def mathRound (x : ℚ) : ℤ := ⌊x + 1 / 2⌋

/-- The field `confidence` of a row of the export of `handleExport` in
`components.jsx`: `confidence: r.confidence`. -/
def exportConfidence (r : ResultEntry) : ℚ := r.confidence

/-- The field `confidence` of a row of the export of `handleExport` in
`App.jsx`: `confidence: Math.round(result.confidence * 100)`. -/
def exportConfidenceRounded (confidence : ℚ) : ℤ := mathRound (confidence * 100)
/-- An energy function for examples: every chunk has energy 1/2. -/
def steadyEnergy (_chunk : List ℚ) : ℚ := 1 / 2

/-- A frequency function for examples: every chunk has a 200 Hz component of
purity 0, so that no chunk is tonal. -/
def noTone (_chunk : List ℚ) (_sampleRate : ℚ) : FreqInfo := { freq := 200, purity := 0 }

/-- A recording of 4 s at 48000 Hz: 192000 samples of value 1/2. -/
def fourSeconds : List ℚ := List.replicate 192000 (1 / 2)

/-! ## The analysis in double precision

The definitions above compute with exact rationals.  The namespace `Double`
repeats `analyzeAudio` with every arithmetic operation rounded as JavaScript
rounds it: numbers are IEEE 754 binary64 values, each `+`, `-`, `*`, `/`
returns the double nearest to the exact result (ties to even), and a decimal
literal such as `0.10` is the double nearest to it.  A double is represented
by the rational it equals.  Overflow to `Infinity` and `NaN` are not
represented (a division by zero gives 0 here).  `Math.sqrt` is a parameter, as
`getEnergy` and `getFrequencyInfo` are.  The spread call
`Math.max(...groupPurities)` passes every purity as an argument of its own,
and an engine throws a `RangeError` when there are more arguments than it
accepts: the limit `maxArgs` and the message `rangeError` of that error are
parameters too, and a function that can throw returns an `Except`. -/

deriving instance DecidableEq for Except

namespace Double

/-- The power `2 ^ e` for an integer exponent. -/
def pow2 (e : ℤ) : ℚ :=
  if 0 ≤ e then ((2 ^ e.toNat : ℕ) : ℚ) else 1 / ((2 ^ (-e).toNat : ℕ) : ℚ)

/-- The number of halvings that bring `n` below 2, at most `fuel` of them:
the binary logarithm of `n`, rounded down, when `fuel` is at least `n`. -/
def halvings : ℕ → ℕ → ℕ
  | 0, _ => 0
  | fuel + 1, n => if 2 ≤ n then halvings fuel (n / 2) + 1 else 0

/-- The exponent `e` with `2 ^ e <= a < 2 ^ (e + 1)`, for a positive `a`. -/
def exponentOf (a : ℚ) : ℤ :=
  let e0 : ℤ := (halvings a.num.toNat a.num.toNat : ℤ) - (halvings a.den a.den : ℤ)
  if pow2 e0 ≤ a then e0 else e0 - 1

/-- The integer nearest to `m`, a tie going to the even one. -/
def roundHalfEven (m : ℚ) : ℤ :=
  let f := ⌊m⌋
  let r := m - (f : ℚ)
  if r < 1 / 2 then f
  else if r > 1 / 2 then f + 1
  else if f % 2 = 0 then f else f + 1

/-- The double nearest to `x` (round to nearest, ties to even): 53 significant
bits, with the fixed spacing `2 ^ (-1074)` below `2 ^ (-1022)`. -/
def roundDouble (x : ℚ) : ℚ :=
  if x = 0 then 0
  else
    let a := |x|
    let e := max (exponentOf a) (-1022)
    let q := pow2 (e - 52)
    let m := roundHalfEven (a / q)
    (if x < 0 then -1 else 1) * (m : ℚ) * q

/-- The sum `a + b` of two doubles. -/
def fadd (a b : ℚ) : ℚ := roundDouble (a + b)

/-- The difference `a - b` of two doubles. -/
def fsub (a b : ℚ) : ℚ := roundDouble (a - b)

/-- The product `a * b` of two doubles. -/
def fmul (a b : ℚ) : ℚ := roundDouble (a * b)

/-- The quotient `a / b` of two doubles. -/
def fdiv (a b : ℚ) : ℚ := roundDouble (a / b)

/-- The value of a decimal literal of the source. -/
def lit (x : ℚ) : ℚ := roundDouble x

/-- The size `chunkSize = Math.floor(sampleRate * chunkMs / 1000)`. -/
def chunkSizeOf (sampleRate : ℚ) : ℤ := ⌊fdiv (fmul sampleRate 50) 1000⌋

/-- The size `hopSize = Math.floor(chunkSize / 2)`. -/
def hopSizeOf (chunkSize : ℤ) : ℤ := ⌊fdiv (chunkSize : ℚ) 2⌋

/-- The block "Silence tracking" of the loop body. -/
def trackSilence (time energy : ℚ) (st : LoopState) : LoopState :=
  if energy < lit 0.01 then
    if !st.inSilence then
      { st with inSilence := true, silenceStart := time }
    else st
  else
    { st with
      silences :=
        if st.inSilence && decide (fsub time st.silenceStart ≥ 0.5) then
          st.silences ++ [{ start := st.silenceStart, dur := fsub time st.silenceStart }]
        else st.silences
      inSilence := false }

/-- The block "Speech tracking" of the loop body. -/
def trackSpeech (time energy : ℚ) (st : LoopState) : LoopState :=
  if energy > lit 0.015 then { st with lastSpeechTime := time } else st

/-- The block "Look for ANY tonal content" of the loop body. -/
def trackTonal (fr : Frame) (st : LoopState) : LoopState :=
  if fr.energy > lit 0.01 then
    if fr.freq ≥ 600 ∧ fr.freq ≤ 1100 ∧ fr.purity > lit 0.04 then
      { st with
        allChunks := st.allChunks ++
          [{ time := fr.time, freq := fr.freq, purity := fr.purity, energy := fr.energy }] }
    else st
  else st

/-- The body of the frame loop. -/
def processFrame (fr : Frame) (st : LoopState) : LoopState :=
  trackTonal fr (trackSpeech fr.time fr.energy (trackSilence fr.time fr.energy st))

/-- The first lines of the loop body at offset `i`, with
`time = i / sampleRate` rounded. -/
def frameAt (getEnergy : List ℚ → ℚ) (getFrequencyInfo : List ℚ → ℚ → FreqInfo)
    (samples : List ℚ) (sampleRate : ℚ) (chunkSize i : ℤ) : Frame :=
  let chunk := slice samples i (i + chunkSize)
  let info := getFrequencyInfo chunk sampleRate
  { time := fdiv (i : ℚ) sampleRate, energy := getEnergy chunk,
    freq := info.freq, purity := info.purity }

/-- The frame loop, with fuel. -/
def frameLoop (getEnergy : List ℚ → ℚ) (getFrequencyInfo : List ℚ → ℚ → FreqInfo)
    (samples : List ℚ) (sampleRate : ℚ) (chunkSize hopSize : ℤ) :
    Nat → ℤ → LoopState → Option LoopState
  | 0, i, st => if i < (samples.length : ℤ) - chunkSize then none else some st
  | fuel + 1, i, st =>
    if i < (samples.length : ℤ) - chunkSize then
      frameLoop getEnergy getFrequencyInfo samples sampleRate chunkSize hopSize fuel
        (i + hopSize)
        (processFrame (frameAt getEnergy getFrequencyInfo samples sampleRate chunkSize i) st)
    else some st

/-- The call `xs.reduce((a, b) => a + b)`, every sum rounded. -/
def reduceAdd : List ℚ → ℚ
  | [] => 0
  | x :: xs => xs.foldl fadd x

/-- The duration `dur = lastTime - groupStart + hopSize / sampleRate` of the
open group. -/
def groupDuration (hopSize : ℤ) (sampleRate : ℚ) (g : Group) : ℚ :=
  fadd (fsub g.lastTime g.groupStart) (fdiv (hopSize : ℚ) sampleRate)

/-- The body of the `if` of `evaluateGroup`, from `avgFreq` on, when the call
of `Math.max` returns: the beep pushed, if any.  The square
`(f - avgFreq) ** 2` is the rounded product. -/
def groupBeep (sqrt : ℚ → ℚ) (hopSize : ℤ) (sampleRate : ℚ) (g : Group) : Option Beep :=
  let dur := groupDuration hopSize sampleRate g
  let avgFreq := fdiv (reduceAdd g.groupFreqs) g.groupFreqs.length
  let avgPurity := fdiv (reduceAdd g.groupPurities) g.groupPurities.length
  let maxPurity := maxOf g.groupPurities
  let variance :=
    fdiv (g.groupFreqs.foldl (fun s f => fadd s (fmul (fsub f avgFreq) (fsub f avgFreq))) 0)
      g.groupFreqs.length
  let stdDev := sqrt variance
  let isStableFreq := decide (stdDev < 15)
  let hasGoodPurity := decide (avgPurity > lit 0.20) || decide (maxPurity > lit 0.30)
  let hasExcellentPurity := decide (maxPurity > lit 0.50)
  let hasEnoughChunks :=
    decide (g.groupFreqs.length ≥ 8) ||
      (decide (g.groupFreqs.length ≥ 4) && decide (maxPurity > lit 0.40))
  let isRealBeep :=
    (isStableFreq && hasGoodPurity && hasEnoughChunks) ||
      (hasExcellentPurity && decide (g.groupFreqs.length ≥ 4))
  if isRealBeep then
    some { start := g.groupStart,
           end_ := fadd g.lastTime (fdiv (hopSize : ℚ) sampleRate),
           frequency := avgFreq, duration := dur, purity := avgPurity }
  else none

/-- The closure `evaluateGroup`: the beep it pushes, if any, or the
`RangeError` that `Math.max(...groupPurities)` throws on a group of more than
`maxArgs` members. -/
def evaluateGroup (sqrt : ℚ → ℚ) (maxArgs : ℕ) (rangeError : String) (hopSize : ℤ)
    (sampleRate : ℚ) (g : Group) : Except String (Option Beep) :=
  let dur := groupDuration hopSize sampleRate g
  if g.groupFreqs.length ≥ 2 ∧ dur ≥ lit 0.10 then
    if g.groupPurities.length > maxArgs then Except.error rangeError
    else Except.ok (groupBeep sqrt hopSize sampleRate g)
  else Except.ok none

/-- The difference `timeDiff = c.time - lastTime` of the grouping loop. -/
def timeDiff (g : Group) (c : Chunk) : ℚ := fsub c.time g.lastTime

/-- The test `timeDiff < 0.25 && freqDiff < 100` of the grouping loop. -/
def accepts (g : Group) (c : Chunk) : Bool :=
  let freqDiff := |fsub c.freq (g.groupFreqs.getLastD 0)|
  decide (timeDiff g c < 0.25) && decide (freqDiff < 100)

/-- The body of the loop `for (let i = 1; i < allChunks.length; i++)`. -/
def groupStep (sqrt : ℚ → ℚ) (maxArgs : ℕ) (rangeError : String) (hopSize : ℤ)
    (sampleRate : ℚ) (s : ScanState) (c : Chunk) : Except String ScanState :=
  if accepts s.group c then
    Except.ok { s with group := s.group.push c }
  else
    match evaluateGroup sqrt maxArgs rangeError hopSize sampleRate s.group with
    | Except.error message => Except.error message
    | Except.ok pushed =>
      Except.ok { group := Group.single c, beeps := s.beeps ++ pushed.toList }

/-- The loop `for (let i = 1; i < allChunks.length; i++)` on the chunks that
remain, from the state `s`. -/
def groupLoop (sqrt : ℚ → ℚ) (maxArgs : ℕ) (rangeError : String) (hopSize : ℤ)
    (sampleRate : ℚ) : List Chunk → ScanState → Except String ScanState
  | [], s => Except.ok s
  | c :: rest, s =>
    match groupStep sqrt maxArgs rangeError hopSize sampleRate s c with
    | Except.error message => Except.error message
    | Except.ok next => groupLoop sqrt maxArgs rangeError hopSize sampleRate rest next

/-- The block "Group chunks into beep candidates": the list `beeps`. -/
def detectBeeps (sqrt : ℚ → ℚ) (maxArgs : ℕ) (rangeError : String) (hopSize : ℤ)
    (sampleRate : ℚ) (allChunks : List Chunk) : Except String (List Beep) :=
  if allChunks.length ≥ 2 then
    match allChunks.insertionSort timeLe with
    | [] => Except.ok []
    | c0 :: rest =>
      match groupLoop sqrt maxArgs rangeError hopSize sampleRate rest
          { group := Group.single c0, beeps := [] } with
      | Except.error message => Except.error message
      | Except.ok s =>
        match evaluateGroup sqrt maxArgs rangeError hopSize sampleRate s.group with
        | Except.error message => Except.error message
        | Except.ok pushed => Except.ok (s.beeps ++ pushed.toList)
  else Except.ok []

/-- The last part of `analyzeAudio`, from `const result = ...` on. -/
def decideDrop (beeps : List Beep) (silences : List Silence) (lastSpeechTime duration : ℚ) :
    Result :=
  let result : Result :=
    { beeps := beeps, silences := silences, speechEnd := lastSpeechTime,
      dropTimestamp := 0, triggerType := TriggerType.empty, confidence := 0 }
  let lateBeeps := beeps.filter (fun b => decide (b.start > 3.0))
  match lateBeeps.getLast? with
  | some beep =>
    { result with dropTimestamp := beep.end_, triggerType := TriggerType.beep,
                  confidence := lit 0.95 }
  | none =>
    let lateSilences :=
      silences.filter (fun s => decide (s.start > 3.0) && decide (s.dur ≥ lit 0.8))
    match lateSilences.head? with
    | some s0 =>
      { result with dropTimestamp := fadd s0.start (lit 0.2),
                    triggerType := TriggerType.silence, confidence := lit 0.75 }
    | none =>
      if lastSpeechTime > 3.0 then
        { result with dropTimestamp := fadd lastSpeechTime (lit 0.4),
                      triggerType := TriggerType.speech_end, confidence := lit 0.60 }
      else
        { result with dropTimestamp := max 0 (fsub duration 0.5),
                      triggerType := TriggerType.fallback, confidence := lit 0.40 }

/-- The function `analyzeAudio(samples, sampleRate, duration)` in double
precision: the result returned or the error thrown.  The value is `none` when
the frame loop does not finish within `fuel` iterations. -/
def analyzeAudio (sqrt : ℚ → ℚ) (maxArgs : ℕ) (rangeError : String) (getEnergy : List ℚ → ℚ)
    (getFrequencyInfo : List ℚ → ℚ → FreqInfo) (fuel : Nat) (samples : List ℚ)
    (sampleRate duration : ℚ) : Option (Except String Result) :=
  let chunkSize := chunkSizeOf sampleRate
  let hopSize := hopSizeOf chunkSize
  (frameLoop getEnergy getFrequencyInfo samples sampleRate chunkSize hopSize fuel 0
      LoopState.init).map
    fun st =>
      match detectBeeps sqrt maxArgs rangeError hopSize sampleRate st.allChunks with
      | Except.error message => Except.error message
      | Except.ok beeps =>
        Except.ok (decideDrop beeps st.silences st.lastSpeechTime duration)

/-! ### The square root -/

/-- The integer square root of `n`, found bit by bit from bit `k - 1` down:
the greatest `r` below `2 ^ k` with `r * r <= n`. -/
def isqrtBits : ℕ → ℕ → ℕ → ℕ
  | 0, _, r => r
  | k + 1, n, r =>
    if (r + 2 ^ k) * (r + 2 ^ k) ≤ n then isqrtBits k n (r + 2 ^ k) else isqrtBits k n r

/-- The function `Math.sqrt` as the engines compute it: the double nearest to
the square root.  (Of a negative number `Math.sqrt` is `NaN`, which is not
represented; a variance is never negative.) -/
def sqrt (x : ℚ) : ℚ :=
  if x ≤ 0 then 0
  else
    let h := exponentOf x / 2
    let q := pow2 (h - 52)
    let r := x / (q * q)
    let m0 := isqrtBits 54 ⌊r⌋.toNat 0
    let m := if r < ((m0 : ℚ) + 1 / 2) * ((m0 : ℚ) + 1 / 2) then m0 else m0 + 1
    (m : ℚ) * q

/-! ### The frames, the chunks and the groups of a run -/

/-- The loop body applied to a list of frames, in order. -/
def runFrames (frs : List Frame) (st : LoopState) : LoopState :=
  frs.foldl (fun s f => processFrame f s) st

/-- The frames of a terminating run of the frame loop, in order. -/
def analysedFrames (getEnergy : List ℚ → ℚ) (getFrequencyInfo : List ℚ → ℚ → FreqInfo)
    (samples : List ℚ) (sampleRate : ℚ) : List Frame :=
  let chunkSize := chunkSizeOf sampleRate
  let hopSize := hopSizeOf chunkSize
  (List.range (frameCount samples.length chunkSize hopSize)).map fun (k : ℕ) =>
    frameAt getEnergy getFrequencyInfo samples sampleRate chunkSize ((k : ℤ) * hopSize)

/-- The entry that the block "Look for ANY tonal content" pushes for a frame,
if it pushes one. -/
def toChunk (fr : Frame) : Option Chunk :=
  if fr.energy > lit 0.01 ∧ fr.freq ≥ 600 ∧ fr.freq ≤ 1100 ∧ fr.purity > lit 0.04 then
    some { time := fr.time, freq := fr.freq, purity := fr.purity, energy := fr.energy }
  else none

/-- The tonal chunks of a run, in the order of the frames: the array
`allChunks` when the frame loop has ended. -/
def tonalChunks (getEnergy : List ℚ → ℚ) (getFrequencyInfo : List ℚ → ℚ → FreqInfo)
    (samples : List ℚ) (sampleRate : ℚ) : List Chunk :=
  (analysedFrames getEnergy getFrequencyInfo samples sampleRate).filterMap toChunk

/-- One step of the grouping loop on lists of members: the closed groups and
the open group. -/
def segStep (acc : List (List Chunk) × List Chunk) (c : Chunk) :
    List (List Chunk) × List Chunk :=
  if accepts (Group.ofChunks acc.2) c then (acc.1, acc.2 ++ [c])
  else (acc.1 ++ [acc.2], [c])

/-- The groups that the grouping loop forms from the time-ordered chunks `cs`,
each as the list of its members: the closed groups followed by the group that
is open when the loop ends. -/
def tonalGroups (cs : List Chunk) : List (List Chunk) :=
  match cs with
  | [] => []
  | c0 :: rest =>
    let a := rest.foldl segStep ([], [c0])
    a.1 ++ [a.2]

/-- The beep that a call of `evaluateGroup` which returns pushes for the
group `g`, if any. -/
def beepOf (sqrt : ℚ → ℚ) (hopSize : ℤ) (sampleRate : ℚ) (g : Group) : Option Beep :=
  if g.groupFreqs.length ≥ 2 ∧ groupDuration hopSize sampleRate g ≥ lit 0.10 then
    groupBeep sqrt hopSize sampleRate g
  else none

/-- The invariant of the silence tracker after a frame of time `T`: emitted
intervals last at least half a second, are disjoint and in order, end no
later than `T` up to the rounding of `dur`, and lie before the start of the
open run. -/
structure SilenceOrder (st : LoopState) (T : ℚ) : Prop where
  ordered : st.silences.Pairwise (fun a b => a.start + a.dur < b.start)
  closed : ∀ s ∈ st.silences, 0.5 ≤ s.dur ∧ s.start + s.dur ≤ T * (1 + 1 / 2 ^ 53)
  opened : st.inSilence = true →
    0 ≤ st.silenceStart ∧ st.silenceStart ≤ T ∧
      ∀ s ∈ st.silences, s.start + s.dur < st.silenceStart

/-! ### Example recordings -/

/-- A frequency function for examples: a 950 Hz tone where the chunk starts
with the sample 1 and a 1080 Hz tone where it starts with the sample 0.75,
both of purity 0.6, and a 200 Hz component of purity 0 elsewhere. -/
def headTone (chunk : List ℚ) (_sampleRate : ℚ) : FreqInfo :=
  if chunk.headD 0 = 1 then { freq := 950, purity := lit 0.6 }
  else if chunk.headD 0 = 3 / 4 then { freq := 1080, purity := lit 0.6 }
  else { freq := 200, purity := 0 }

/-- A recording made of blocks of `size` samples, the samples of block `k`
all having the value `vals[k]`.  With blocks of one hop, frame `k` starts with
block `k`. -/
def blocks (size : ℕ) (vals : List ℚ) : List ℚ := vals.flatMap fun v => List.replicate size v

/-- The block values of a recording: speech in frames 0 to 2, silence in
frames 3 to 22, speech again from frame 23 on.  At 48000 Hz, in blocks of
1200 samples, frame 3 is at 0.075 s and frame 23 at 0.575 s. -/
def halfSecondQuiet : List ℚ :=
  List.replicate 3 (1 / 2) ++ List.replicate 20 0 ++ List.replicate 3 (1 / 2)

/-- The block values of a recording: a 950 Hz tone in frames 1 to 4 and again
in frames 14 to 17, silence elsewhere. -/
def tonesQuarterSecondApart : List ℚ :=
  [0] ++ List.replicate 4 1 ++ List.replicate 9 0 ++ List.replicate 4 1 ++ List.replicate 3 0

/-- The block values of a recording: a 950 Hz tone in frames 4 to 7, silence
elsewhere. -/
def fourHopsFromFrame4 : List ℚ :=
  List.replicate 4 0 ++ List.replicate 4 1 ++ List.replicate 3 0

/-- The block values of a recording: a 950 Hz tone in frames 0 to 3, then
silence. -/
def fourHopsFromFrame0 : List ℚ := List.replicate 4 1 ++ List.replicate 3 0

/-- The block values of a recording: speech in frames 0 to 157, a 950 Hz
tone in frames 158 to 163, a 1080 Hz tone in frames 164 to 169.  It is also
a recording at 40 Hz (chunk 2, hop 1) with the same frames. -/
def adjacentTones : List ℚ :=
  List.replicate 158 (1 / 2) ++ List.replicate 6 1 ++ List.replicate 6 (3 / 4) ++ [0, 0]

/-- The tonal chunk of a 950 Hz tone of purity 0.6 at frame `k` of a
recording of hop `hopSize` and rate `sampleRate`. -/
def toneChunk (hopSize : ℕ) (sampleRate : ℚ) (k : ℕ) : Chunk :=
  { time := fdiv (((k * hopSize : ℕ) : ℤ) : ℚ) sampleRate, freq := 950, purity := lit 0.6,
    energy := 1 }

/-- The open group whose members are the chunks of a 950 Hz tone in the
frames `first`, ..., `first + count - 1`. -/
def toneGroup (hopSize : ℕ) (sampleRate : ℚ) (first count : ℕ) : Group :=
  Group.ofChunks ((List.range count).map fun (k : ℕ) => toneChunk hopSize sampleRate (first + k))

end Double
namespace Double

/-- The result of `analyzeAudio` on `speechSilenceTone` at 40 Hz: the beep
has duration 0.15, start 3.95 and end 4.1000000000000005. -/
def speechSilenceToneResult : Result :=
  { beeps := [{ start := lit 3.95, end_ := lit 4.1000000000000005, frequency := 950,
                duration := lit 0.15, purity := lit 0.6 }],
    silences := [{ start := lit 3.05, dur := lit 0.9000000000000004 }],
    speechEnd := lit 4.075, dropTimestamp := lit 4.1000000000000005,
    triggerType := TriggerType.beep, confidence := lit 0.95 }

/-- The result of `analyzeAudio` on the recording of block values
`adjacentTones`: the first beep ends at 4.1000000000000005, the second one
starts at 4.1. -/
def adjacentTonesResult : Result :=
  { beeps := [{ start := lit 3.95, end_ := lit 4.1000000000000005, frequency := 950,
                duration := lit 0.15, purity := lit 0.6 },
              { start := lit 4.1, end_ := lit 4.25, frequency := 1080, duration := lit 0.15,
                purity := lit 0.6 }],
    silences := [], speechEnd := lit 4.225, dropTimestamp := lit 4.25,
    triggerType := TriggerType.beep, confidence := lit 0.95 }

/-- The result of `analyzeAudio` on `tonesAndSilences` at 40 Hz. -/
def tonesAndSilencesResult : Result :=
  { beeps :=
      [{ start := 0, end_ := lit 0.19999999999999998, frequency := 950,
         duration := lit 0.19999999999999998, purity := lit 0.6 },
        { start := lit 0.95, end_ := lit 1.15, frequency := 950,
          duration := lit 0.20000000000000004, purity := lit 0.6 },
        { start := lit 1.9, end_ := lit 2.05, frequency := 950, duration := lit 0.15,
          purity := lit 0.6 }],
    silences := [{ start := lit 0.2, dur := lit 0.75 }, { start := lit 1.15, dur := lit 0.75 }],
    speechEnd := lit 2.025, dropTimestamp := lit 1.6, triggerType := TriggerType.fallback,
    confidence := lit 0.4 }

/-- The result of `analyzeAudio` on the recording of block values
`halfSecondQuiet`: no silence and the fallback. -/
def halfSecondQuietResult : Result :=
  { beeps := [], silences := [], speechEnd := lit 0.575,
    dropTimestamp := lit 0.15000000000000002, triggerType := TriggerType.fallback,
    confidence := lit 0.4 }

/-- The result of `analyzeAudio` on the recording of block values
`tonesQuarterSecondApart`: one beep from 0.025 s to 0.45 s. -/
def tonesQuarterSecondApartResult : Result :=
  { beeps := [{ start := lit 0.025, end_ := lit 0.45, frequency := 950, duration := lit 0.425,
                purity := lit 0.6 }],
    silences := [], speechEnd := lit 0.425, dropTimestamp := lit 0.025000000000000022,
    triggerType := TriggerType.fallback, confidence := lit 0.4 }

/-- The result of `analyzeAudio` on the recording of block values
`fourHopsFromFrame4`: no beep and the fallback. -/
def fourHopsFromFrame4Result : Result :=
  { beeps := [], silences := [], speechEnd := lit 0.175, dropTimestamp := 0,
    triggerType := TriggerType.fallback, confidence := lit 0.4 }

/-- The result of `analyzeAudio` on the recording of block values
`fourHopsFromFrame0`: one beep from 0 s to 0.1 s. -/
def fourHopsFromFrame0Result : Result :=
  { beeps := [{ start := 0, end_ := lit 0.1, frequency := 950, duration := lit 0.1,
                purity := lit 0.6 }],
    silences := [], speechEnd := lit 0.075, dropTimestamp := 0,
    triggerType := TriggerType.fallback, confidence := lit 0.4 }

end Double
/-! ## The batch of files: `handleAnalyze`

The analysis of each file runs in double precision, inside the `try` block of
the loop: an error thrown by `loadAudio` or by `analyzeAudio` is caught and
gives the error entry of the file. -/

/-- The field `fileName` of an entry. -/
def ResultEntry.fileName : ResultEntry → String
  | ResultEntry.analysed fileName _ _ _ _ => fileName
  | ResultEntry.failed fileName _ _ _ _ _ => fileName

/-- The message of the error that `AudioAnalyzer.analyzeAudio(samples,
sampleRate, duration)` throws on the audio loaded from `file`, if loading
succeeds and the analysis throws. -/
def analysisError (sqrt : ℚ → ℚ) (maxArgs : ℕ) (rangeError : String) (getEnergy : List ℚ → ℚ)
    (getFrequencyInfo : List ℚ → ℚ → FreqInfo) (fuel : Nat) (file : AudioFile) :
    Option String :=
  match file.decoded with
  | Except.error _ => none
  | Except.ok audioBuffer =>
    match loadAudio audioBuffer with
    | none => none
    | some loaded =>
      match Double.analyzeAudio sqrt maxArgs rangeError getEnergy getFrequencyInfo fuel
          loaded.samples loaded.sampleRate loaded.duration with
      | some (Except.error message) => some message
      | _ => none

/-- The body of the loop of `handleAnalyze` for one file: the entry pushed,
by the `try` block when `loadAudio` and `analyzeAudio` return and by the
`catch` block when one of them throws.  The value is `none` when
`analyzeAudio` does not come to an end within the fuel. -/
def analyzeFile (sqrt : ℚ → ℚ) (maxArgs : ℕ) (rangeError : String) (getEnergy : List ℚ → ℚ)
    (getFrequencyInfo : List ℚ → ℚ → FreqInfo) (fuel : Nat) (channelError : String)
    (file : AudioFile) : Option ResultEntry :=
  match file.decoded with
  | Except.error message => some (errorEntry file.name message)
  | Except.ok audioBuffer =>
    match loadAudio audioBuffer with
    | none => some (errorEntry file.name channelError)
    | some loaded =>
      match Double.analyzeAudio sqrt maxArgs rangeError getEnergy getFrequencyInfo fuel
          loaded.samples loaded.sampleRate loaded.duration with
      | none => none
      | some (Except.error message) => some (errorEntry file.name message)
      | some (Except.ok analysis) =>
        some (ResultEntry.analysed file.name loaded.duration loaded.samples loaded.sampleRate
          analysis)

/-- The loop `for (let i = 0; i < files.length; i++)` of `handleAnalyze`, on
the files that remain, with the entries pushed so far. -/
def analyzeLoop (sqrt : ℚ → ℚ) (maxArgs : ℕ) (rangeError : String) (getEnergy : List ℚ → ℚ)
    (getFrequencyInfo : List ℚ → ℚ → FreqInfo) (fuel : Nat) (channelError : String) :
    List AudioFile → List ResultEntry → Option (List ResultEntry)
  | [], newResults => some newResults
  | file :: rest, newResults =>
    match analyzeFile sqrt maxArgs rangeError getEnergy getFrequencyInfo fuel channelError
        file with
    | none => none
    | some entry =>
      analyzeLoop sqrt maxArgs rangeError getEnergy getFrequencyInfo fuel channelError rest
        (newResults ++ [entry])

/-- The handler `handleAnalyze` of `components.jsx`. -/
def handleAnalyze (sqrt : ℚ → ℚ) (maxArgs : ℕ) (rangeError : String) (getEnergy : List ℚ → ℚ)
    (getFrequencyInfo : List ℚ → ℚ → FreqInfo) (fuel : Nat) (channelError : String)
    (st : AppState) : Option AppState :=
  if st.files.length = 0 then some st
  else
    (analyzeLoop sqrt maxArgs rangeError getEnergy getFrequencyInfo fuel channelError
        st.files []).map
      fun newResults => { st with results := newResults }

/-- A buffer of three silent samples at 40 Hz, in one channel. -/
def shortBuffer : AudioBuffer := { sampleRate := 40, duration := 3 / 40, channels := [[0, 0, 0]] }

/-- A buffer of seven samples of a 950 Hz tone at 40 Hz, in one channel: its
five frames form one group of five chunks. -/
def toneBuffer : AudioBuffer :=
  { sampleRate := 40, duration := 7 / 40, channels := [[1, 1, 1, 1, 1, 1, 1]] }

/-- The result of `analyzeAudio` on the samples of `shortBuffer`: the
fallback. -/
def shortBufferResult : Result :=
  { beeps := [], silences := [], speechEnd := 0, dropTimestamp := 0,
    triggerType := TriggerType.fallback, confidence := Double.lit 0.4 }

/-- A batch of four files: the second cannot be decoded, and the analysis of
the third throws on an engine that accepts at most four arguments. -/
def batchOfFour : List AudioFile :=
  [{ name := "a.wav", decoded := Except.ok shortBuffer },
    { name := "b.wav", decoded := Except.error "Unable to decode audio data" },
    { name := "c.wav", decoded := Except.ok toneBuffer },
    { name := "d.wav", decoded := Except.ok shortBuffer }]

/-- The results of `handleAnalyze` on `batchOfFour`, on an engine that accepts
at most four arguments. -/
def batchOfFourResults : List ResultEntry :=
  [ResultEntry.analysed "a.wav" (3 / 40) [0, 0, 0] 40 shortBufferResult,
    errorEntry "b.wav" "Unable to decode audio data",
    errorEntry "c.wav" "Maximum call stack size exceeded",
    ResultEntry.analysed "d.wav" (3 / 40) [0, 0, 0] 40 shortBufferResult]

/-! ## The frame loop as a fold over the analysed frames -/

theorem runFrames_append (a b : List Frame) (st : LoopState) :
    runFrames (a ++ b) st = runFrames b (runFrames a st) := by
  simp [runFrames, List.foldl_append]

theorem frameLoop_some {E : List ℚ → ℚ} {F : List ℚ → ℚ → FreqInfo} {samples : List ℚ}
    {sr : ℚ} {chunk hop : ℤ} :
    ∀ (fuel : ℕ) (i : ℤ) (st st' : LoopState),
      frameLoop E F samples sr chunk hop fuel i st = some st' →
      ∃ n : ℕ, n ≤ fuel ∧
        st' = runFrames ((List.range n).map fun (k : ℕ) => frameAt E F samples sr chunk (i + (k : ℤ) * hop)) st ∧
        (∀ k : ℕ, k < n → i + (k : ℤ) * hop < (samples.length : ℤ) - chunk) ∧
        ¬ (i + (n : ℤ) * hop < (samples.length : ℤ) - chunk) := by
  intro fuel
  induction fuel with
  | zero =>
    intro i st st' h
    simp only [frameLoop] at h
    split at h
    · exact absurd h (by simp)
    · rename_i hc
      refine ⟨0, le_refl _, ?_, ?_, ?_⟩
      · simpa [runFrames] using (Option.some.inj h).symm
      · intro k hk; exact absurd hk (Nat.not_lt_zero _)
      · simpa using hc
  | succ fuel ih =>
    intro i st st' h
    simp only [frameLoop] at h
    split at h
    · rename_i hc
      obtain ⟨n, hn, hst, hlt, hge⟩ := ih _ _ _ h
      refine ⟨n + 1, Nat.succ_le_succ hn, ?_, ?_, ?_⟩
      · rw [hst, List.range_succ_eq_map, List.map_cons, List.map_map]
        simp only [runFrames, List.foldl_cons, Nat.cast_zero, zero_mul, add_zero]
        congr 1
        apply List.map_congr_left
        intro k _
        simp only [Function.comp, Nat.cast_succ]
        congr 1
        ring
      · intro k hk
        cases k with
        | zero => simpa using hc
        | succ k =>
          have := hlt k (Nat.lt_of_succ_lt_succ hk)
          have e : i + ((k + 1 : ℕ) : ℤ) * hop = i + hop + (k : ℤ) * hop := by push_cast; ring
          rw [e]; exact this
      · have e : i + ((n + 1 : ℕ) : ℤ) * hop = i + hop + (n : ℤ) * hop := by push_cast; ring
        rw [e]; exact hge
    · rename_i hc
      refine ⟨0, Nat.zero_le _, ?_, ?_, ?_⟩
      · simpa [runFrames] using (Option.some.inj h).symm
      · intro k hk; exact absurd hk (Nat.not_lt_zero _)
      · simpa using hc

theorem frameCount_unique {B hop : ℤ} {n : ℕ} (len chunk : ℤ) (hB : B = len - chunk)
    (hlt : ∀ k : ℕ, k < n → (k : ℤ) * hop < B) (hge : ¬ ((n : ℤ) * hop < B)) :
    n = frameCount len chunk hop ∧ (n ≠ 0 → 1 ≤ hop) := by
  subst hB
  have hge' : len - chunk ≤ (n : ℤ) * hop := not_lt.mp hge
  by_cases hn : n = 0
  · subst hn
    refine ⟨?_, fun h => absurd rfl h⟩
    simp only [frameCount]
    split
    · rfl
    · rename_i hh
      have hh' : 0 < hop := not_le.mp hh
      have : (len - chunk + hop - 1) / hop ≤ 0 := by
        have : (len - chunk + hop - 1) / hop < 1 := by
          apply Int.ediv_lt_of_lt_mul hh'
          simp at hge'; omega
        omega
      simp [Int.toNat_eq_zero.mpr this]
  · have hpos : 0 < n := Nat.pos_of_ne_zero hn
    have h0 := hlt 0 hpos
    simp only [Nat.cast_zero, zero_mul] at h0
    have hhop : 1 ≤ hop := by
      by_contra hc
      have : hop ≤ 0 := by omega
      have : (n : ℤ) * hop ≤ 0 := mul_nonpos_of_nonneg_of_nonpos (by positivity) this
      omega
    refine ⟨?_, fun _ => hhop⟩
    have hhop' : 0 < hop := by omega
    simp only [frameCount, if_neg (not_le.mpr hhop')]
    have hprev := hlt (n - 1) (by omega)
    have hcast : ((n - 1 : ℕ) : ℤ) = (n : ℤ) - 1 := by
      rw [Nat.cast_sub hpos]; simp
    rw [hcast] at hprev
    have hq : (len - chunk + hop - 1) / hop = n := by
      apply le_antisymm
      · have : (len - chunk + hop - 1) / hop < (n : ℤ) + 1 := by
          apply Int.ediv_lt_of_lt_mul hhop'
          nlinarith
        omega
      · apply Int.le_ediv_of_mul_le hhop'
        nlinarith
    rw [hq]; simp

/-! ## What the loop body does to each group of variables -/

theorem processFrame_allChunks (f : Frame) (st : LoopState) :
    (processFrame f st).allChunks = st.allChunks ++ (toChunk f).toList := by
  unfold processFrame trackTonal trackSpeech trackSilence toChunk
  by_cases h1 : f.energy > 0.01 <;> by_cases h2 : f.freq ≥ 600 ∧ f.freq ≤ 1100 ∧ f.purity > 0.04
    <;> simp only [h1, h2, if_true, if_false, true_and, false_and, and_self]
    <;> (repeat' split) <;> simp

theorem runFrames_allChunks (frs : List Frame) (st : LoopState) :
    (runFrames frs st).allChunks = st.allChunks ++ frs.filterMap toChunk := by
  induction frs generalizing st with
  | nil => simp [runFrames]
  | cons f frs ih =>
    have : runFrames (f :: frs) st = runFrames frs (processFrame f st) := rfl
    rw [this, ih, processFrame_allChunks]
    cases h : toChunk f <;> simp [List.filterMap_cons, h]

theorem processFrame_silence (f : Frame) (st : LoopState) :
    (processFrame f st).silences = (trackSilence f.time f.energy st).silences ∧
    (processFrame f st).inSilence = (trackSilence f.time f.energy st).inSilence ∧
    (processFrame f st).silenceStart = (trackSilence f.time f.energy st).silenceStart := by
  unfold processFrame trackTonal trackSpeech
  (repeat' split) <;> simp

theorem processFrame_lastSpeechTime (f : Frame) (st : LoopState) :
    (processFrame f st).lastSpeechTime =
      if f.energy > 0.015 then f.time else st.lastSpeechTime := by
  unfold processFrame trackTonal trackSpeech trackSilence
  (repeat' split) <;> simp_all

theorem toChunk_time {f : Frame} {c : Chunk} (h : toChunk f = some c) : c.time = f.time := by
  unfold toChunk at h
  split at h
  · cases h; rfl
  · cases h

/-! ## Frame times increase -/

theorem hopSizeOf_pos_imp {sr : ℚ} (h : 1 ≤ hopSizeOf (chunkSizeOf sr)) : 40 ≤ sr := by
  unfold hopSizeOf at h
  have h1 : ((1 : ℤ) : ℚ) ≤ (chunkSizeOf sr : ℚ) / 2 := Int.le_floor.mp h
  have h2 : (2 : ℚ) ≤ (chunkSizeOf sr : ℚ) := by push_cast at h1; linarith
  have h3 : (2 : ℤ) ≤ chunkSizeOf sr := by exact_mod_cast h2
  unfold chunkSizeOf at h3
  have h4 : ((2 : ℤ) : ℚ) ≤ sr * 50 / 1000 := Int.le_floor.mp h3
  push_cast at h4
  linarith

theorem frameCount_pos_imp {len chunk hop : ℤ} (h : frameCount len chunk hop ≠ 0) : 1 ≤ hop := by
  unfold frameCount at h
  split at h
  · exact absurd rfl h
  · omega

theorem analysedFrames_sorted (E : List ℚ → ℚ) (F : List ℚ → ℚ → FreqInfo) (samples : List ℚ)
    (sr : ℚ) : (analysedFrames E F samples sr).Pairwise (fun a b => a.time < b.time) := by
  unfold analysedFrames
  simp only
  by_cases hc : frameCount samples.length (chunkSizeOf sr) (hopSizeOf (chunkSizeOf sr)) = 0
  · rw [hc]; simp
  · have hhop := frameCount_pos_imp hc
    have hsr := hopSizeOf_pos_imp hhop
    rw [List.pairwise_map]
    refine List.Pairwise.imp ?_ (List.pairwise_lt_range _)
    intro a b hab
    simp only [frameAt]
    have hsr' : (0 : ℚ) < sr := by linarith
    apply div_lt_div_of_pos_right _ hsr'
    have : (a : ℤ) * hopSizeOf (chunkSizeOf sr) < (b : ℤ) * hopSizeOf (chunkSizeOf sr) := by
      apply mul_lt_mul_of_pos_right _ (by omega)
      exact_mod_cast hab
    exact_mod_cast this

theorem analyzeAudio_some {E : List ℚ → ℚ} {F : List ℚ → ℚ → FreqInfo} {fuel : ℕ}
    {samples : List ℚ} {sr dur : ℚ} {r : Result}
    (h : analyzeAudio E F fuel samples sr dur = some r) :
    frameLoop E F samples sr (chunkSizeOf sr) (hopSizeOf (chunkSizeOf sr)) fuel 0 LoopState.init =
        some (runFrames (analysedFrames E F samples sr) LoopState.init) ∧
      r = decideDrop
        (detectBeeps (hopSizeOf (chunkSizeOf sr)) sr
          (runFrames (analysedFrames E F samples sr) LoopState.init).allChunks)
        (runFrames (analysedFrames E F samples sr) LoopState.init).silences
        (runFrames (analysedFrames E F samples sr) LoopState.init).lastSpeechTime dur := by
  unfold analyzeAudio at h
  simp only [Option.map_eq_some'] at h
  obtain ⟨st, hst, hr⟩ := h
  obtain ⟨n, _, hrun, hlt, hge⟩ := frameLoop_some _ _ _ _ hst
  simp only [zero_add] at hrun hlt hge
  obtain ⟨hn, _⟩ := frameCount_unique (samples.length : ℤ) (chunkSizeOf sr) rfl hlt hge
  have hfr : runFrames (analysedFrames E F samples sr) LoopState.init = st := by
    rw [hrun]; unfold analysedFrames; simp only [← hn]
  rw [hfr]
  exact ⟨hst, hr.symm⟩

/-! ## The silence tracker: ordering of the emitted intervals -/

theorem SilInv.init (T : ℚ) : SilInv LoopState.init T := by
  constructor <;> simp [LoopState.init]

theorem SilInv.step {st : LoopState} {T : ℚ} (hinv : SilInv st T) (f : Frame)
    (hT : T < f.time) : SilInv (processFrame f st) f.time := by
  obtain ⟨h1, h2, h3⟩ := processFrame_silence f st
  obtain ⟨ho, hc, hop⟩ := hinv
  constructor
  · rw [h1]; unfold trackSilence
    by_cases he : f.energy < 0.01
    · simp only [he, if_true]; split <;> exact ho
    · simp only [he, if_false]
      by_cases hs : (st.inSilence && decide (f.time - st.silenceStart ≥ 0.5)) = true
      · simp only [hs, if_true]
        rw [List.pairwise_append]
        refine ⟨ho, List.pairwise_singleton _ _, ?_⟩
        intro a ha b hb
        simp only [List.mem_singleton] at hb
        subst hb
        simp only [Bool.and_eq_true] at hs
        exact (hop hs.1).2 a ha
      · simp only [hs]; exact ho
  · rw [h1]; unfold trackSilence
    by_cases he : f.energy < 0.01
    · simp only [he, if_true]
      have : ∀ s ∈ st.silences, 0.5 ≤ s.dur ∧ s.start + s.dur ≤ f.time :=
        fun s hs => ⟨(hc s hs).1, le_trans (hc s hs).2 (le_of_lt hT)⟩
      split <;> exact this
    · simp only [he, if_false]
      by_cases hs : (st.inSilence && decide (f.time - st.silenceStart ≥ 0.5)) = true
      · simp only [hs, if_true]
        intro s hsm
        rw [List.mem_append, List.mem_singleton] at hsm
        rcases hsm with hsm | hsm
        · exact ⟨(hc s hsm).1, le_trans (hc s hsm).2 (le_of_lt hT)⟩
        · subst hsm
          simp only [Bool.and_eq_true, decide_eq_true_eq] at hs
          refine ⟨hs.2, ?_⟩
          simp
      · simp only [hs]
        intro s hsm
        exact ⟨(hc s hsm).1, le_trans (hc s hsm).2 (le_of_lt hT)⟩
  · rw [h1, h2, h3]; unfold trackSilence
    by_cases he : f.energy < 0.01
    · simp only [he, if_true]
      by_cases hin : st.inSilence = true
      · simp only [hin, Bool.not_true, if_false]
        intro _
        exact ⟨le_trans (hop hin).1 (le_of_lt hT), (hop hin).2⟩
      · simp only [Bool.not_eq_true] at hin
        simp only [hin, Bool.not_false, if_true]
        intro _
        exact ⟨le_refl _, fun s hs => lt_of_le_of_lt (hc s hs).2 hT⟩
    · simp only [he, if_false]
      intro hcontra
      exact absurd hcontra (by simp)

theorem SilInv.run (frs : List Frame) (hs : frs.Pairwise (fun a b => a.time < b.time)) :
    ∀ (st : LoopState) (T : ℚ), SilInv st T → (∀ f ∈ frs, T < f.time) →
      ∃ T', SilInv (runFrames frs st) T' := by
  induction frs with
  | nil => intro st T h _; exact ⟨T, h⟩
  | cons f frs ih =>
    intro st T h hT
    rw [List.pairwise_cons] at hs
    have : runFrames (f :: frs) st = runFrames frs (processFrame f st) := rfl
    rw [this]
    exact ih hs.2 _ f.time (h.step f (hT f (List.mem_cons_self _ _))) hs.1

theorem silences_ordered (E : List ℚ → ℚ) (F : List ℚ → ℚ → FreqInfo) (samples : List ℚ)
    (sr : ℚ) :
    (runFrames (analysedFrames E F samples sr) LoopState.init).silences.Pairwise
        (fun a b => a.start + a.dur < b.start) ∧
      ∀ s ∈ (runFrames (analysedFrames E F samples sr) LoopState.init).silences, 0.5 ≤ s.dur := by
  have hs := analysedFrames_sorted E F samples sr
  cases hfr : analysedFrames E F samples sr with
  | nil => simp [runFrames, LoopState.init]
  | cons f frs =>
    rw [hfr] at hs
    obtain ⟨T', hT'⟩ := SilInv.run (f :: frs) hs LoopState.init (f.time - 1)
      (SilInv.init _) (by
        intro g hg
        rw [List.mem_cons] at hg
        rcases hg with hg | hg
        · subst hg; linarith
        · have := (List.pairwise_cons.mp hs).1 g hg; linarith)
    exact ⟨hT'.ordered, fun s hs => (hT'.closed s hs).1⟩

/-! ## The grouping scan in terms of member lists -/

theorem Group.single_eq_ofChunks (c : Chunk) : Group.single c = Group.ofChunks [c] := by
  simp [Group.single, Group.ofChunks]

theorem Group.push_ofChunks (l : List Chunk) (hl : l ≠ []) (c : Chunk) :
    (Group.ofChunks l).push c = Group.ofChunks (l ++ [c]) := by
  simp [Group.push, Group.ofChunks, List.getLast?_append, List.head?_append_of_ne_nil _ hl]

theorem scan_eq_segScan (hop : ℤ) (sr : ℚ) (rest : List Chunk) :
    ∀ (closed : List (List Chunk)) (opn : List Chunk), opn ≠ [] →
      rest.foldl (groupStep hop sr)
          { group := Group.ofChunks opn,
            beeps := closed.filterMap fun l => evaluateGroup hop sr (Group.ofChunks l) } =
        { group := Group.ofChunks (rest.foldl segStep (closed, opn)).2,
          beeps := (rest.foldl segStep (closed, opn)).1.filterMap
            fun l => evaluateGroup hop sr (Group.ofChunks l) } ∧
      (rest.foldl segStep (closed, opn)).2 ≠ [] := by
  induction rest with
  | nil => intro closed opn h; exact ⟨rfl, h⟩
  | cons c rest ih =>
    intro closed opn hopn
    simp only [List.foldl_cons]
    by_cases hacc : (Group.ofChunks opn).accepts c = true
    · have e1 : groupStep hop sr
          { group := Group.ofChunks opn,
            beeps := closed.filterMap fun l => evaluateGroup hop sr (Group.ofChunks l) } c =
          { group := Group.ofChunks (opn ++ [c]),
            beeps := closed.filterMap fun l => evaluateGroup hop sr (Group.ofChunks l) } := by
        simp [groupStep, hacc, Group.push_ofChunks opn hopn]
      have e2 : segStep (closed, opn) c = (closed, opn ++ [c]) := by
        simp [segStep, hacc]
      rw [e1, e2]
      exact ih closed (opn ++ [c]) (by simp)
    · have e1 : groupStep hop sr
          { group := Group.ofChunks opn,
            beeps := closed.filterMap fun l => evaluateGroup hop sr (Group.ofChunks l) } c =
          { group := Group.ofChunks [c],
            beeps := (closed ++ [opn]).filterMap
              fun l => evaluateGroup hop sr (Group.ofChunks l) } := by
        simp only [groupStep, hacc, Group.single_eq_ofChunks, List.filterMap_append]
        simp only [Bool.false_eq_true, if_false, ScanState.mk.injEq, true_and]
        congr 1
      have e2 : segStep (closed, opn) c = (closed ++ [opn], [c]) := by
        simp [segStep, hacc]
      rw [e1, e2]
      exact ih (closed ++ [opn]) [c] (by simp)

theorem segScan_join (rest : List Chunk) :
    ∀ (closed : List (List Chunk)) (opn : List Chunk), opn ≠ [] → (∀ l ∈ closed, l ≠ []) →
      ((rest.foldl segStep (closed, opn)).1 ++ [(rest.foldl segStep (closed, opn)).2]).flatten =
          (closed ++ [opn]).flatten ++ rest ∧
        ∀ l ∈ (rest.foldl segStep (closed, opn)).1 ++ [(rest.foldl segStep (closed, opn)).2],
          l ≠ [] := by
  induction rest with
  | nil =>
    intro closed opn h hc
    refine ⟨by simp, ?_⟩
    intro l hl
    simp only [List.foldl_nil, List.mem_append, List.mem_singleton] at hl
    rcases hl with hl | hl
    · exact hc l hl
    · subst hl; exact h
  | cons c rest ih =>
    intro closed opn hopn hcl
    simp only [List.foldl_cons]
    by_cases hacc : (Group.ofChunks opn).accepts c = true
    · have e2 : segStep (closed, opn) c = (closed, opn ++ [c]) := by simp [segStep, hacc]
      rw [e2]
      obtain ⟨h1, h2⟩ := ih closed (opn ++ [c]) (by simp) hcl
      refine ⟨?_, h2⟩
      rw [h1]; simp
    · have e2 : segStep (closed, opn) c = (closed ++ [opn], [c]) := by simp [segStep, hacc]
      rw [e2]
      obtain ⟨h1, h2⟩ := ih (closed ++ [opn]) [c] (by simp) (by
        intro l hl
        rw [List.mem_append, List.mem_singleton] at hl
        rcases hl with hl | hl
        · exact hcl l hl
        · subst hl; exact hopn)
      refine ⟨?_, h2⟩
      rw [h1]; simp

theorem tonalGroups_join (cs : List Chunk) :
    (tonalGroups cs).flatten = cs ∧ ∀ l ∈ tonalGroups cs, l ≠ [] := by
  cases cs with
  | nil => simp [tonalGroups]
  | cons c0 rest =>
    obtain ⟨h1, h2⟩ := segScan_join rest [] [c0] (by simp) (by simp)
    simp only [tonalGroups]
    exact ⟨by rw [h1]; simp, h2⟩

theorem detectBeeps_eq (hop : ℤ) (sr : ℚ) (cs : List Chunk) :
    detectBeeps hop sr cs =
      if cs.length ≥ 2 then
        (tonalGroups (cs.insertionSort timeLe)).filterMap
          fun l => evaluateGroup hop sr (Group.ofChunks l)
      else [] := by
  unfold detectBeeps
  split
  · cases hs : cs.insertionSort timeLe with
    | nil => simp [tonalGroups]
    | cons c0 rest =>
      simp only [tonalGroups]
      have := (scan_eq_segScan hop sr rest [] [c0] (by simp)).1
      simp only [List.filterMap_nil, ← Group.single_eq_ofChunks] at this
      rw [this]
      simp only [List.filterMap_append]
      congr 1
  · rfl

/-! ## `evaluateGroup` -/

theorem foldl_add_eq (l : List ℚ) (x : ℚ) : l.foldl (fun a b => a + b) x = x + l.sum := by
  induction l generalizing x with
  | nil => simp
  | cons y l ih => simp [ih, add_assoc]

theorem reduceAdd_eq_sum (l : List ℚ) : reduceAdd l = l.sum := by
  cases l with
  | nil => rfl
  | cons x l => simp [reduceAdd, foldl_add_eq]

theorem foldl_sq_eq (l : List ℚ) (m x : ℚ) :
    l.foldl (fun s f => s + (f - m) ^ 2) x = x + (l.map fun f => (f - m) ^ 2).sum := by
  induction l generalizing x with
  | nil => simp
  | cons y l ih => simp [ih, add_assoc]

theorem foldl_max_ge (l : List ℚ) (x : ℚ) :
    x ≤ l.foldl max x ∧ (∀ y ∈ l, y ≤ l.foldl max x) ∧ (l.foldl max x = x ∨ l.foldl max x ∈ l) := by
  induction l generalizing x with
  | nil => simp
  | cons y l ih =>
    obtain ⟨h1, h2, h3⟩ := ih (max x y)
    simp only [List.foldl_cons, List.mem_cons]
    refine ⟨le_trans (le_max_left _ _) h1, ?_, ?_⟩
    · intro z hz
      rcases hz with hz | hz
      · subst hz; exact le_trans (le_max_right _ _) h1
      · exact h2 z hz
    · rcases h3 with h3 | h3
      · rw [h3]
        rcases max_choice x y with hm | hm
        · left; exact hm
        · right; left; exact hm
      · right; right; exact h3

/-- The value `maxOf l` is the greatest element of a non-empty list `l`. -/
theorem maxOf_spec (l : List ℚ) (hl : l ≠ []) : maxOf l ∈ l ∧ ∀ y ∈ l, y ≤ maxOf l := by
  cases l with
  | nil => exact absurd rfl hl
  | cons x l =>
    obtain ⟨h1, h2, h3⟩ := foldl_max_ge l x
    simp only [maxOf, List.mem_cons]
    refine ⟨?_, ?_⟩
    · rcases h3 with h3 | h3
      · left; exact h3
      · right; exact h3
    · intro y hy
      rcases hy with hy | hy
      · subst hy; exact h1
      · exact h2 y hy

/-- The test on the standard deviation, `Math.sqrt(variance) < 15`, is the
test `variance < 15 ^ 2` of the model. -/
theorem sqrt_lt_fifteen_iff (v : ℚ) : Real.sqrt (v : ℝ) < 15 ↔ v < 15 ^ 2 := by
  rw [Real.sqrt_lt' (by norm_num : (0 : ℝ) < 15)]
  exact_mod_cast Iff.rfl

theorem evaluateGroup_some {hop : ℤ} {sr : ℚ} {g : Group} {b : Beep}
    (h : evaluateGroup hop sr g = some b) :
    b.start = g.groupStart ∧ b.end_ = g.lastTime + (hop : ℚ) / sr ∧
      b.frequency = mean g.groupFreqs ∧ b.purity = mean g.groupPurities ∧
      b.duration = b.end_ - b.start ∧ 2 ≤ g.groupFreqs.length ∧ 0.10 ≤ b.duration := by
  unfold evaluateGroup at h
  simp only at h
  split at h
  · rename_i hc
    split at h
    · cases h
      refine ⟨rfl, rfl, ?_, ?_, ?_, hc.1, hc.2⟩
      · simp [mean, reduceAdd_eq_sum]
      · simp [mean, reduceAdd_eq_sum]
      · simp only; ring
    · cases h
  · cases h

/-! ## Ordering of the tonal chunks and of the beeps -/

theorem allChunks_sorted (E : List ℚ → ℚ) (F : List ℚ → ℚ → FreqInfo) (samples : List ℚ)
    (sr : ℚ) :
    (runFrames (analysedFrames E F samples sr) LoopState.init).allChunks.Pairwise
      (fun a b => a.time < b.time) := by
  rw [runFrames_allChunks]
  simp only [LoopState.init, List.nil_append]
  refine List.Pairwise.filterMap toChunk ?_ (analysedFrames_sorted E F samples sr)
  intro a a' haa b hb b' hb'
  rw [toChunk_time (Option.mem_def.mp hb), toChunk_time (Option.mem_def.mp hb')]
  exact haa

theorem insertionSort_of_pairwise_lt {cs : List Chunk}
    (h : cs.Pairwise (fun a b => a.time < b.time)) : cs.insertionSort timeLe = cs := by
  apply List.Sorted.insertionSort_eq
  exact List.Pairwise.imp (fun hab => le_of_lt hab) h

theorem tonalGroups_separated {cs : List Chunk} (h : cs.Pairwise (fun a b => a.time < b.time)) :
    (tonalGroups cs).Pairwise
      (fun l₁ l₂ => l₁ ≠ [] ∧ l₂ ≠ [] ∧ ∀ x ∈ l₁, ∀ y ∈ l₂, x.time < y.time) := by
  obtain ⟨hj, hne⟩ := tonalGroups_join cs
  rw [← hj, List.pairwise_flatten] at h
  refine List.Pairwise.imp_of_mem ?_ h.2
  intro a b ha hb hab
  exact ⟨hne a ha, hne b hb, hab⟩

theorem ofChunks_groupStart (a : Chunk) (l : List Chunk) :
    (Group.ofChunks (a :: l)).groupStart = a.time := by
  simp [Group.ofChunks]

theorem detectBeeps_ordered (hop : ℤ) (sr : ℚ) {cs : List Chunk}
    (h : cs.Pairwise (fun a b => a.time < b.time)) :
    (detectBeeps hop sr cs).Pairwise (fun a b => a.start < b.start) := by
  rw [detectBeeps_eq]
  split
  · rw [insertionSort_of_pairwise_lt h]
    refine List.Pairwise.filterMap _ ?_ (tonalGroups_separated h)
    intro l₁ l₂ hl b hb b' hb'
    obtain ⟨h1, h2, h3⟩ := hl
    cases l₁ with
    | nil => exact absurd rfl h1
    | cons a₁ t₁ =>
      cases l₂ with
      | nil => exact absurd rfl h2
      | cons a₂ t₂ =>
        rw [(evaluateGroup_some (Option.mem_def.mp hb)).1,
          (evaluateGroup_some (Option.mem_def.mp hb')).1, ofChunks_groupStart,
          ofChunks_groupStart]
        exact h3 a₁ (List.mem_cons_self _ _) a₂ (List.mem_cons_self _ _)
  · exact List.Pairwise.nil

theorem pairwise_getLast? {α : Type} {R : α → α → Prop} {l : List α} {x : α}
    (h : l.Pairwise R) (hx : l.getLast? = some x) : ∀ y ∈ l, y = x ∨ R y x := by
  have e := List.dropLast_append_getLast? x (Option.mem_def.mpr hx)
  rw [← e, List.pairwise_append] at h
  intro y hy
  rw [← e, List.mem_append, List.mem_singleton] at hy
  rcases hy with hy | hy
  · right; exact h.2.2 y hy x (List.mem_singleton_self x)
  · left; exact hy

theorem pairwise_head? {α : Type} {R : α → α → Prop} {l : List α} {x : α}
    (h : l.Pairwise R) (hx : l.head? = some x) : ∀ y ∈ l, y = x ∨ R x y := by
  cases l with
  | nil => simp at hx
  | cons a t =>
    simp only [List.head?_cons, Option.some.injEq] at hx
    subst hx
    intro y hy
    rw [List.mem_cons] at hy
    rcases hy with hy | hy
    · left; exact hy
    · right; exact (List.pairwise_cons.mp h).1 y hy

/-! ## The decision cascade -/

theorem decideDrop_fields (beeps : List Beep) (silences : List Silence) (lst dur : ℚ) :
    (decideDrop beeps silences lst dur).beeps = beeps ∧
      (decideDrop beeps silences lst dur).silences = silences ∧
      (decideDrop beeps silences lst dur).speechEnd = lst := by
  unfold decideDrop
  simp only
  (repeat' split) <;> simp

theorem decideDrop_beep {beeps : List Beep} (silences : List Silence) (lst dur : ℚ) {b : Beep}
    (h : (beeps.filter fun b => decide (b.start > 3.0)).getLast? = some b) :
    (decideDrop beeps silences lst dur).triggerType = TriggerType.beep ∧
      (decideDrop beeps silences lst dur).confidence = 0.95 ∧
      (decideDrop beeps silences lst dur).dropTimestamp = b.end_ := by
  unfold decideDrop
  simp only [h]
  simp

theorem decideDrop_silence {beeps : List Beep} {silences : List Silence} (lst dur : ℚ)
    {s : Silence} (hb : ∀ b ∈ beeps, ¬ b.start > 3.0)
    (h : (silences.filter fun s => decide (s.start > 3.0) && decide (s.dur ≥ 0.8)).head? =
      some s) :
    (decideDrop beeps silences lst dur).triggerType = TriggerType.silence ∧
      (decideDrop beeps silences lst dur).confidence = 0.75 ∧
      (decideDrop beeps silences lst dur).dropTimestamp = s.start + 0.2 := by
  have hnone : (beeps.filter fun b => decide (b.start > 3.0)).getLast? = none := by
    rw [List.getLast?_eq_none_iff, List.filter_eq_nil_iff]
    intro b hbm
    simpa using hb b hbm
  unfold decideDrop
  simp only [hnone, h]
  simp

theorem decideDrop_rest {beeps : List Beep} {silences : List Silence} (lst dur : ℚ)
    (hb : ∀ b ∈ beeps, ¬ b.start > 3.0)
    (hs : ∀ s ∈ silences, ¬ (s.start > 3.0 ∧ s.dur ≥ 0.8)) :
    decideDrop beeps silences lst dur =
      if lst > 3.0 then
        { beeps := beeps, silences := silences, speechEnd := lst,
          dropTimestamp := lst + 0.4, triggerType := TriggerType.speech_end,
          confidence := 0.60 }
      else
        { beeps := beeps, silences := silences, speechEnd := lst,
          dropTimestamp := max 0 (dur - 0.5), triggerType := TriggerType.fallback,
          confidence := 0.40 } := by
  have hnone : (beeps.filter fun b => decide (b.start > 3.0)).getLast? = none := by
    rw [List.getLast?_eq_none_iff, List.filter_eq_nil_iff]
    intro b hbm
    simpa using hb b hbm
  have hnone' : (silences.filter fun s => decide (s.start > 3.0) && decide (s.dur ≥ 0.8)).head? =
      none := by
    rw [List.head?_eq_none_iff, List.filter_eq_nil_iff]
    intro s hsm
    have := hs s hsm
    simpa using this
  unfold decideDrop
  simp only [hnone, hnone']

/-! ## The silence tracker computes the runs of quiet frames -/

theorem silenceRunsSpec_cons (s e : ℚ) (rest : List (ℚ × ℚ)) :
    silenceRunsSpec ((s, e) :: rest) =
      if e < 0.01 then closeRunSpec s rest else silenceRunsSpec rest := by
  rw [silenceRunsSpec]
  unfold closeRunSpec
  split
  · split <;> rename_i heq <;> simp [heq]
  · rfl

theorem closeRunSpec_cons (s t e : ℚ) (rest : List (ℚ × ℚ)) :
    closeRunSpec s ((t, e) :: rest) =
      if e < 0.01 then closeRunSpec s rest
      else (if t - s ≥ 0.5 then [{ start := s, dur := t - s }] else []) ++
        silenceRunsSpec rest := by
  unfold closeRunSpec
  by_cases he : e < 0.01
  · simp [List.dropWhile_cons, he]
  · simp [List.dropWhile_cons, he]

theorem runFrames_silences (frs : List Frame) :
    ∀ st : LoopState,
      (st.inSilence = false →
        (runFrames frs st).silences =
          st.silences ++ silenceRunsSpec (frs.map fun f => (f.time, f.energy))) ∧
      (st.inSilence = true →
        (runFrames frs st).silences =
          st.silences ++ closeRunSpec st.silenceStart (frs.map fun f => (f.time, f.energy))) := by
  induction frs with
  | nil =>
    intro st
    simp [runFrames, silenceRunsSpec, closeRunSpec]
  | cons f frs ih =>
    intro st
    have hrun : runFrames (f :: frs) st = runFrames frs (processFrame f st) := rfl
    obtain ⟨h1, h2, h3⟩ := processFrame_silence f st
    rw [hrun, List.map_cons, silenceRunsSpec_cons, closeRunSpec_cons]
    constructor
    · intro hin
      by_cases he : f.energy < 0.01
      · have e2 : (processFrame f st).inSilence = true := by
          rw [h2]; simp [trackSilence, he, hin]
        have e1 : (processFrame f st).silences = st.silences := by
          rw [h1]; simp [trackSilence, he, hin]
        have e3 : (processFrame f st).silenceStart = f.time := by
          rw [h3]; simp [trackSilence, he, hin]
        rw [((ih (processFrame f st)).2 e2), e1, e3, if_pos he]
      · have e2 : (processFrame f st).inSilence = false := by
          rw [h2]; simp [trackSilence, he]
        have e1 : (processFrame f st).silences = st.silences := by
          rw [h1]; simp [trackSilence, he, hin]
        rw [((ih (processFrame f st)).1 e2), e1, if_neg he]
    · intro hin
      by_cases he : f.energy < 0.01
      · have e2 : (processFrame f st).inSilence = true := by
          rw [h2]; simp [trackSilence, he, hin]
        have e1 : (processFrame f st).silences = st.silences := by
          rw [h1]; simp [trackSilence, he, hin]
        have e3 : (processFrame f st).silenceStart = st.silenceStart := by
          rw [h3]; simp [trackSilence, he, hin]
        rw [((ih (processFrame f st)).2 e2), e1, e3, if_pos he]
      · have e2 : (processFrame f st).inSilence = false := by
          rw [h2]; simp [trackSilence, he]
        have e1 : (processFrame f st).silences =
            st.silences ++
              (if f.time - st.silenceStart ≥ 0.5 then
                [{ start := st.silenceStart, dur := f.time - st.silenceStart }]
              else []) := by
          rw [h1]
          by_cases hd : f.time - st.silenceStart ≥ 0.5
          · simp [trackSilence, he, hin, hd]
          · simp [trackSilence, he, hin, hd]
        rw [((ih (processFrame f st)).1 e2), e1, if_neg he, List.append_assoc]

/-! ## The continuity test of the grouping scan -/

theorem accepts_ofChunks (members : List Chunk) (last c : Chunk) :
    (Group.ofChunks (members ++ [last])).accepts c = true ↔ continues last c := by
  simp [Group.accepts, Group.ofChunks, continues, List.getLastD_eq_getLast?,
    List.getLast?_append]

theorem segScan_of_chain (rest : List Chunk) :
    ∀ (closed : List (List Chunk)) (members : List Chunk) (last : Chunk),
      List.Chain continues last rest →
        rest.foldl segStep (closed, members ++ [last]) = (closed, members ++ [last] ++ rest) := by
  induction rest with
  | nil => intro closed members last _; simp
  | cons c rest ih =>
    intro closed members last hch
    rw [List.chain_cons] at hch
    have hacc := (accepts_ofChunks members last c).mpr hch.1
    have e2 : segStep (closed, members ++ [last]) c = (closed, members ++ [last] ++ [c]) := by
      simp [segStep, hacc]
    rw [List.foldl_cons, e2, ih closed (members ++ [last]) c hch.2]
    simp

theorem tonalGroups_of_chain (c0 : Chunk) (rest : List Chunk)
    (h : List.Chain continues c0 rest) : tonalGroups (c0 :: rest) = [c0 :: rest] := by
  have := segScan_of_chain rest [] [] c0 h
  simp only [List.nil_append] at this
  simp [tonalGroups, this]

/-! ## When `evaluateGroup` emits -/

theorem maxOf_eq {l : List ℚ} {xp : ℚ} (hxp : xp ∈ l) (hmax : ∀ p ∈ l, p ≤ xp) :
    maxOf l = xp := by
  have hne : l ≠ [] := List.ne_nil_of_mem hxp
  obtain ⟨h1, h2⟩ := maxOf_spec l hne
  exact le_antisymm (hmax _ h1) (h2 _ hxp)

theorem evaluateGroup_isSome (hop : ℤ) (sr : ℚ) (g : Group) :
    (evaluateGroup hop sr g).isSome = true ↔
      (g.groupFreqs.length ≥ 2 ∧ g.lastTime - g.groupStart + (hop : ℚ) / sr ≥ 0.10 ∧
        ((popVariance g.groupFreqs < 15 ^ 2 ∧
            (mean g.groupPurities > 0.20 ∨ maxOf g.groupPurities > 0.30) ∧
            (g.groupFreqs.length ≥ 8 ∨
              (g.groupFreqs.length ≥ 4 ∧ maxOf g.groupPurities > 0.40))) ∨
          (maxOf g.groupPurities > 0.50 ∧ g.groupFreqs.length ≥ 4))) := by
  have hvar : g.groupFreqs.foldl
      (fun s f => s + (f - reduceAdd g.groupFreqs / (g.groupFreqs.length : ℚ)) ^ 2) 0 /
        (g.groupFreqs.length : ℚ) = popVariance g.groupFreqs := by
    rw [foldl_sq_eq, reduceAdd_eq_sum, zero_add]
    rfl
  have hmean : reduceAdd g.groupPurities / (g.groupPurities.length : ℚ) =
      mean g.groupPurities := by
    rw [reduceAdd_eq_sum]; rfl
  unfold evaluateGroup
  simp only [hvar, hmean]
  by_cases hc : g.groupFreqs.length ≥ 2 ∧ g.lastTime - g.groupStart + (hop : ℚ) / sr ≥ 0.10
  · rw [if_pos hc]
    split
    · rename_i hb
      simp only [Option.isSome_some, true_iff]
      refine ⟨hc.1, hc.2, ?_⟩
      simpa [Bool.or_eq_true, Bool.and_eq_true, decide_eq_true_eq, and_assoc] using hb
    · rename_i hb
      simp only [Option.isSome_none, Bool.false_eq_true, false_iff]
      intro hcontra
      apply hb
      simpa [Bool.or_eq_true, Bool.and_eq_true, decide_eq_true_eq, and_assoc] using hcontra.2.2
  · rw [if_neg hc]
    simp only [Option.isSome_none, Bool.false_eq_true, false_iff]
    intro hcontra
    exact hc ⟨hcontra.1, hcontra.2.1⟩

/-! ## The group behind each beep -/

theorem ofChunks_bounds {l : List Chunk} (hl : l ≠ []) :
    ∃ first last, l.head? = some first ∧ l.getLast? = some last ∧
      (Group.ofChunks l).groupStart = first.time ∧ (Group.ofChunks l).lastTime = last.time := by
  obtain ⟨first, hf⟩ := Option.ne_none_iff_exists'.mp (fun h => hl (List.head?_eq_none_iff.mp h))
  obtain ⟨last, hla⟩ := Option.ne_none_iff_exists'.mp
    (fun h => hl (List.getLast?_eq_none_iff.mp h))
  exact ⟨first, last, hf, hla, by simp [Group.ofChunks, hf], by simp [Group.ofChunks, hla]⟩

theorem mem_detectBeeps {hop : ℤ} {sr : ℚ} {cs : List Chunk} {b : Beep}
    (hs : cs.Pairwise (fun a b => a.time < b.time)) (hb : b ∈ detectBeeps hop sr cs) :
    ∃ l ∈ tonalGroups cs, l ≠ [] ∧ evaluateGroup hop sr (Group.ofChunks l) = some b := by
  rw [detectBeeps_eq] at hb
  split at hb
  · rw [insertionSort_of_pairwise_lt hs, List.mem_filterMap] at hb
    obtain ⟨l, hl, hev⟩ := hb
    exact ⟨l, hl, (tonalGroups_join cs).2 l hl, hev⟩
  · exact absurd hb (List.not_mem_nil _)

/-! ## A steady tone is detected as one beep -/

theorem hop_ratio_bounds {sr : ℚ} (hsr : 8000 ≤ sr) :
    0 < (hopSizeOf (chunkSizeOf sr) : ℚ) / sr ∧ (hopSizeOf (chunkSizeOf sr) : ℚ) / sr < 0.25 ∧
      0.10 ≤ 5 * ((hopSizeOf (chunkSizeOf sr) : ℚ) / sr) := by
  have hpos : (0 : ℚ) < sr := by linarith
  have h1 : sr * 50 / 1000 - 1 < (chunkSizeOf sr : ℚ) := Int.sub_one_lt_floor _
  have h2 : (chunkSizeOf sr : ℚ) ≤ sr * 50 / 1000 := Int.floor_le _
  have h3 : (chunkSizeOf sr : ℚ) / 2 - 1 < (hopSizeOf (chunkSizeOf sr) : ℚ) :=
    Int.sub_one_lt_floor _
  have h4 : (hopSizeOf (chunkSizeOf sr) : ℚ) ≤ (chunkSizeOf sr : ℚ) / 2 := Int.floor_le _
  refine ⟨?_, ?_, ?_⟩
  · apply div_pos _ hpos; linarith
  · rw [div_lt_iff₀ hpos]; norm_num; linarith
  · rw [← mul_div_assoc, le_div_iff₀ hpos]; norm_num; linarith

theorem filterMap_singleton {α β : Type} (g : α → Option β) (a : α) :
    [a].filterMap g = (g a).toList := by
  cases h : g a <;> simp [List.filterMap_cons, h]

theorem analyzeAudio_of_loop {E : List ℚ → ℚ} {F : List ℚ → ℚ → FreqInfo} {fuel : ℕ}
    {samples : List ℚ} {sr : ℚ} {st : LoopState} (dur : ℚ)
    (h : frameLoop E F samples sr (chunkSizeOf sr) (hopSizeOf (chunkSizeOf sr)) fuel 0
      LoopState.init = some st) :
    analyzeAudio E F fuel samples sr dur =
      some (decideDrop (detectBeeps (hopSizeOf (chunkSizeOf sr)) sr st.allChunks) st.silences
        st.lastSpeechTime dur) := by
  unfold analyzeAudio
  simp only [h, Option.map_some']

/-! ## The decision cascade of `analyzeAudio` -/

/-- C1: whenever the beeps that `analyzeAudio` detected include one with
`start > 3.0`, the result is a beep trigger with confidence 0.95 whose
`dropTimestamp` is the `end` of the late beep with the greatest start (every
other late beep starts strictly earlier), whatever silences and speech end
were detected. -/
theorem beep_trigger_wins (E : List ℚ → ℚ) (F : List ℚ → ℚ → FreqInfo) (fuel : ℕ)
    (samples : List ℚ) (sr dur : ℚ) (r : Result)
    (h : analyzeAudio E F fuel samples sr dur = some r)
    (hb : ∃ b ∈ r.beeps, b.start > 3.0) :
    r.triggerType = TriggerType.beep ∧ r.confidence = 0.95 ∧
      ∃ b ∈ r.beeps, b.start > 3.0 ∧ r.dropTimestamp = b.end_ ∧
        ∀ b' ∈ r.beeps, b'.start > 3.0 → b' = b ∨ b'.start < b.start := by
  obtain ⟨_, hr⟩ := analyzeAudio_some h
  have hord := detectBeeps_ordered (hopSizeOf (chunkSizeOf sr)) sr
    (allChunks_sorted E F samples sr)
  generalize detectBeeps (hopSizeOf (chunkSizeOf sr)) sr
    (runFrames (analysedFrames E F samples sr) LoopState.init).allChunks = beeps at hr hord
  generalize (runFrames (analysedFrames E F samples sr) LoopState.init).silences = sil at hr
  generalize (runFrames (analysedFrames E F samples sr) LoopState.init).lastSpeechTime = lst at hr
  have hbe : r.beeps = beeps := by rw [hr]; exact (decideDrop_fields _ _ _ _).1
  rw [hbe] at hb ⊢
  obtain ⟨b0, hb0, hb0s⟩ := hb
  have hne : (beeps.filter fun b => decide (b.start > 3.0)) ≠ [] := by
    intro hnil
    have : b0 ∈ beeps.filter fun b => decide (b.start > 3.0) :=
      List.mem_filter.mpr ⟨hb0, by simpa using hb0s⟩
    rw [hnil] at this
    exact absurd this (List.not_mem_nil _)
  obtain ⟨b, hlast⟩ := Option.ne_none_iff_exists'.mp
    (fun hn => hne (List.getLast?_eq_none_iff.mp hn))
  obtain ⟨h1, h2, h3⟩ := decideDrop_beep sil lst dur hlast
  have hbm := List.mem_filter.mp (List.mem_of_getLast?_eq_some hlast)
  rw [hr]
  refine ⟨h1, h2, b, hbm.1, by simpa using hbm.2, h3, ?_⟩
  intro b' hb' hb's
  exact pairwise_getLast? (hord.filter _) hlast b'
    (List.mem_filter.mpr ⟨hb', by simpa using hb's⟩)

/-- C1, at a recording with a qualifying silence at 3.05 s and a beep at
3.95 s: the beep wins. -/
theorem beep_trigger_wins_witness :
    analyzeAudio headEnergy headTone 200 speechSilenceTone 40 (83 / 20) =
        some speechSilenceToneResult ∧
      (∃ b ∈ speechSilenceToneResult.beeps, b.start > 3.0) ∧
      (∃ s ∈ speechSilenceToneResult.silences, s.start > 3.0 ∧ s.dur ≥ 0.8) ∧
      (speechSilenceToneResult.triggerType = TriggerType.beep ∧
        speechSilenceToneResult.confidence = 0.95 ∧
        ∃ b ∈ speechSilenceToneResult.beeps, b.start > 3.0 ∧
          speechSilenceToneResult.dropTimestamp = b.end_ ∧
          ∀ b' ∈ speechSilenceToneResult.beeps, b'.start > 3.0 →
            b' = b ∨ b'.start < b.start) :=
  ⟨by decide!, by decide!, by decide!,
    beep_trigger_wins headEnergy headTone 200 speechSilenceTone 40 (83 / 20)
      speechSilenceToneResult (by decide!) (by decide!)⟩

/-- C2: when no detected beep has `start > 3.0` and some detected silence has
`start > 3.0` and `dur >= 0.8`, the result is a silence trigger with
confidence 0.75 and `dropTimestamp = s + 0.2`, where `s` is the smallest start
among the qualifying silences (every other one starts strictly later). -/
theorem silence_trigger (E : List ℚ → ℚ) (F : List ℚ → ℚ → FreqInfo) (fuel : ℕ)
    (samples : List ℚ) (sr dur : ℚ) (r : Result)
    (h : analyzeAudio E F fuel samples sr dur = some r)
    (hb : ∀ b ∈ r.beeps, ¬ b.start > 3.0)
    (hs : ∃ s ∈ r.silences, s.start > 3.0 ∧ s.dur ≥ 0.8) :
    r.triggerType = TriggerType.silence ∧ r.confidence = 0.75 ∧
      ∃ s ∈ r.silences, s.start > 3.0 ∧ s.dur ≥ 0.8 ∧ r.dropTimestamp = s.start + 0.2 ∧
        ∀ s' ∈ r.silences, s'.start > 3.0 → s'.dur ≥ 0.8 → s' = s ∨ s.start < s'.start := by
  obtain ⟨_, hr⟩ := analyzeAudio_some h
  have hord := (silences_ordered E F samples sr)
  generalize detectBeeps (hopSizeOf (chunkSizeOf sr)) sr
    (runFrames (analysedFrames E F samples sr) LoopState.init).allChunks = beeps at hr
  generalize (runFrames (analysedFrames E F samples sr) LoopState.init).silences = sil
    at hr hord
  generalize (runFrames (analysedFrames E F samples sr) LoopState.init).lastSpeechTime = lst at hr
  have hbe : r.beeps = beeps := by rw [hr]; exact (decideDrop_fields _ _ _ _).1
  have hse : r.silences = sil := by rw [hr]; exact (decideDrop_fields _ _ _ _).2.1
  rw [hbe] at hb
  rw [hse] at hs ⊢
  obtain ⟨s0, hs0, hs0s⟩ := hs
  have hne : (sil.filter fun s => decide (s.start > 3.0) && decide (s.dur ≥ 0.8)) ≠ [] := by
    intro hnil
    have : s0 ∈ sil.filter fun s => decide (s.start > 3.0) && decide (s.dur ≥ 0.8) :=
      List.mem_filter.mpr ⟨hs0, by simpa using hs0s⟩
    rw [hnil] at this
    exact absurd this (List.not_mem_nil _)
  obtain ⟨s, hhead⟩ := Option.ne_none_iff_exists'.mp
    (fun hn => hne (List.head?_eq_none_iff.mp hn))
  obtain ⟨h1, h2, h3⟩ := decideDrop_silence lst dur hb hhead
  have hsm := List.mem_filter.mp (List.mem_of_mem_head? hhead)
  have hsq : s.start > 3.0 ∧ s.dur ≥ 0.8 := by simpa using hsm.2
  rw [hr]
  refine ⟨h1, h2, s, hsm.1, hsq.1, hsq.2, h3, ?_⟩
  intro s' hs' hs's hs'd
  have hstrict : sil.Pairwise (fun a b => a.start < b.start) := by
    refine List.Pairwise.imp_of_mem ?_ hord.1
    intro a b ha _ hab
    have := hord.2 a ha
    norm_num at this
    linarith
  exact pairwise_head? (hstrict.filter _) hhead s'
    (List.mem_filter.mpr ⟨hs', by simpa using And.intro hs's hs'd⟩)

/-- C2, at a recording whose only cue is a silence from 3.05 s to 3.95 s. -/
theorem silence_trigger_witness :
    analyzeAudio headEnergy headTone 200 speechSilenceSpeech 40 (83 / 20) =
        some speechSilenceSpeechResult ∧
      (speechSilenceSpeechResult.triggerType = TriggerType.silence ∧
        speechSilenceSpeechResult.confidence = 0.75 ∧
        ∃ s ∈ speechSilenceSpeechResult.silences, s.start > 3.0 ∧ s.dur ≥ 0.8 ∧
          speechSilenceSpeechResult.dropTimestamp = s.start + 0.2 ∧
          ∀ s' ∈ speechSilenceSpeechResult.silences, s'.start > 3.0 → s'.dur ≥ 0.8 →
            s' = s ∨ s.start < s'.start) :=
  ⟨by decide!,
    silence_trigger headEnergy headTone 200 speechSilenceSpeech 40 (83 / 20)
      speechSilenceSpeechResult (by decide!) (by decide!) (by decide!)⟩

/-- C3: when no detected beep has `start > 3.0`, no detected silence has both
`start > 3.0` and `dur >= 0.8`, and the speech end time is `> 3.0`, the result
is a speech-end trigger with confidence 0.60 and
`dropTimestamp = speechEnd + 0.4`. -/
theorem speech_end_trigger (E : List ℚ → ℚ) (F : List ℚ → ℚ → FreqInfo) (fuel : ℕ)
    (samples : List ℚ) (sr dur : ℚ) (r : Result)
    (h : analyzeAudio E F fuel samples sr dur = some r)
    (hb : ∀ b ∈ r.beeps, ¬ b.start > 3.0)
    (hs : ∀ s ∈ r.silences, ¬ (s.start > 3.0 ∧ s.dur ≥ 0.8))
    (hsp : r.speechEnd > 3.0) :
    r.triggerType = TriggerType.speech_end ∧ r.confidence = 0.60 ∧
      r.dropTimestamp = r.speechEnd + 0.4 := by
  obtain ⟨_, hr⟩ := analyzeAudio_some h
  generalize detectBeeps (hopSizeOf (chunkSizeOf sr)) sr
    (runFrames (analysedFrames E F samples sr) LoopState.init).allChunks = beeps at hr
  generalize (runFrames (analysedFrames E F samples sr) LoopState.init).silences = sil at hr
  generalize (runFrames (analysedFrames E F samples sr) LoopState.init).lastSpeechTime = lst at hr
  obtain ⟨f1, f2, f3⟩ := decideDrop_fields beeps sil lst dur
  rw [hr, f1] at hb
  rw [hr, f2] at hs
  rw [hr, f3] at hsp
  rw [hr, decideDrop_rest lst dur hb hs, if_pos hsp]
  exact ⟨rfl, rfl, rfl⟩

/-- C3, at a recording of 3.25 s of speech. -/
theorem speech_end_trigger_witness :
    analyzeAudio headEnergy headTone 200 speechOnly 40 (13 / 4) = some speechOnlyResult ∧
      speechOnlyResult.speechEnd > 3.0 ∧
      (speechOnlyResult.triggerType = TriggerType.speech_end ∧
        speechOnlyResult.confidence = 0.60 ∧
        speechOnlyResult.dropTimestamp = speechOnlyResult.speechEnd + 0.4) :=
  ⟨by decide!, by decide!,
    speech_end_trigger headEnergy headTone 200 speechOnly 40 (13 / 4) speechOnlyResult
      (by decide!) (by decide!) (by decide!) (by decide!)⟩

/-- C4: when no detected beep has `start > 3.0`, no detected silence has both
`start > 3.0` and `dur >= 0.8`, and the speech end time is `<= 3.0`, the
result is the fallback with confidence 0.40 and
`dropTimestamp = max(0, duration - 0.5)`: 4.5 for a duration of 5, and 0 for
every duration `<= 0.5`. -/
theorem fallback_trigger (E : List ℚ → ℚ) (F : List ℚ → ℚ → FreqInfo) (fuel : ℕ)
    (samples : List ℚ) (sr dur : ℚ) (r : Result)
    (h : analyzeAudio E F fuel samples sr dur = some r)
    (hb : ∀ b ∈ r.beeps, ¬ b.start > 3.0)
    (hs : ∀ s ∈ r.silences, ¬ (s.start > 3.0 ∧ s.dur ≥ 0.8))
    (hsp : r.speechEnd ≤ 3.0) :
    r.triggerType = TriggerType.fallback ∧ r.confidence = 0.40 ∧
      r.dropTimestamp = max 0 (dur - 0.5) ∧
      (dur = 5 → r.dropTimestamp = 4.5) ∧ (dur ≤ 0.5 → r.dropTimestamp = 0) := by
  obtain ⟨_, hr⟩ := analyzeAudio_some h
  generalize detectBeeps (hopSizeOf (chunkSizeOf sr)) sr
    (runFrames (analysedFrames E F samples sr) LoopState.init).allChunks = beeps at hr
  generalize (runFrames (analysedFrames E F samples sr) LoopState.init).silences = sil at hr
  generalize (runFrames (analysedFrames E F samples sr) LoopState.init).lastSpeechTime = lst at hr
  obtain ⟨f1, f2, f3⟩ := decideDrop_fields beeps sil lst dur
  rw [hr, f1] at hb
  rw [hr, f2] at hs
  rw [hr, f3] at hsp
  rw [hr, decideDrop_rest lst dur hb hs, if_neg (not_lt.mpr hsp)]
  refine ⟨rfl, rfl, rfl, ?_, ?_⟩
  · intro hd
    subst hd
    norm_num
  · intro hd
    simp only
    exact max_eq_left (by linarith)

/-- C4, at a recording of 5 s of low-level noise. -/
theorem fallback_trigger_witness :
    analyzeAudio headEnergy headTone 200 noiseOnly 40 5 = some noiseOnlyResult ∧
      (noiseOnlyResult.triggerType = TriggerType.fallback ∧
        noiseOnlyResult.confidence = 0.40 ∧
        noiseOnlyResult.dropTimestamp = max 0 (5 - 0.5) ∧
        ((5 : ℚ) = 5 → noiseOnlyResult.dropTimestamp = 4.5) ∧
        ((5 : ℚ) ≤ 0.5 → noiseOnlyResult.dropTimestamp = 0)) :=
  ⟨by decide!,
    fallback_trigger headEnergy headTone 200 noiseOnly 40 5 noiseOnlyResult
      (by decide!) (by decide!) (by decide!) (by decide!)⟩

/-! ## Grouping and evaluation of tonal chunks -/

/-- C7: for a group of `n` members with duration
`dur = lastTime - start + hop/rate`, population standard deviation `sd` of the
member frequencies, mean purity `mp` and maximum purity `xp`, `evaluateGroup`
emits a beep if and only if `n >= 2`, `dur >= 0.10` and
`(sd < 15 and (mp > 0.20 or xp > 0.30) and (n >= 8 or (n >= 4 and xp > 0.40)))
or (xp > 0.50 and n >= 4)`; otherwise it emits nothing. -/
theorem evaluateGroup_emits_iff (hop : ℤ) (sr : ℚ) (g : Group) (xp : ℚ)
    (hxp : xp ∈ g.groupPurities) (hmax : ∀ p ∈ g.groupPurities, p ≤ xp) :
    ((evaluateGroup hop sr g).isSome = true ↔
      (g.groupFreqs.length ≥ 2 ∧ g.lastTime - g.groupStart + (hop : ℚ) / sr ≥ 0.10 ∧
        ((Real.sqrt ((popVariance g.groupFreqs : ℚ) : ℝ) < 15 ∧
            (mean g.groupPurities > 0.20 ∨ xp > 0.30) ∧
            (g.groupFreqs.length ≥ 8 ∨ (g.groupFreqs.length ≥ 4 ∧ xp > 0.40))) ∨
          (xp > 0.50 ∧ g.groupFreqs.length ≥ 4)))) ∧
      ((evaluateGroup hop sr g).isSome = false → (evaluateGroup hop sr g).toList = []) := by
  refine ⟨?_, ?_⟩
  · rw [evaluateGroup_isSome, maxOf_eq hxp hmax, sqrt_lt_fifteen_iff]
  · intro h
    cases hev : evaluateGroup hop sr g with
    | none => rfl
    | some b => rw [hev] at h; simp at h

/-- C7, at a group of five chunks of purity 0.6 within 5 Hz of 950 Hz, at
40 Hz: the group is emitted. -/
theorem evaluateGroup_emits_iff_witness :
    (0.6 : ℚ) ∈ fiveToneGroup.groupPurities ∧ (evaluateGroup 1 40 fiveToneGroup).isSome = true ∧
      (fiveToneGroup.groupFreqs.length ≥ 2 ∧
        fiveToneGroup.lastTime - fiveToneGroup.groupStart + ((1 : ℤ) : ℚ) / 40 ≥ 0.10 ∧
        ((Real.sqrt ((popVariance fiveToneGroup.groupFreqs : ℚ) : ℝ) < 15 ∧
            (mean fiveToneGroup.groupPurities > 0.20 ∨ (0.6 : ℚ) > 0.30) ∧
            (fiveToneGroup.groupFreqs.length ≥ 8 ∨
              (fiveToneGroup.groupFreqs.length ≥ 4 ∧ (0.6 : ℚ) > 0.40))) ∨
          ((0.6 : ℚ) > 0.50 ∧ fiveToneGroup.groupFreqs.length ≥ 4))) :=
  ⟨by decide!, by decide!,
    (evaluateGroup_emits_iff 1 40 fiveToneGroup 0.6 (by decide!) (by decide!)).1.mp
      (by decide!)⟩

/-- C9: at a sample rate of 8000 or more, when the tonal chunks are one run of
`n >= 5` chunks at consecutive frame positions `t0, t0 + hop/rate, ...`, with
frequencies within 5 Hz of one value in `[600, 1100]` and purities 0.6,
`analyzeAudio` emits exactly one beep, with `start = t0` and `end` = the time
of the last chunk + `hop/rate`; and when `t0 > 3.0` the result is a beep
trigger with confidence 0.95 and `dropTimestamp` = that end. -/
theorem steady_tone_is_one_beep (E : List ℚ → ℚ) (F : List ℚ → ℚ → FreqInfo) (fuel : ℕ)
    (samples : List ℚ) (sr dur : ℚ) (st : LoopState) (hsr : 8000 ≤ sr)
    (hloop : frameLoop E F samples sr (chunkSizeOf sr) (hopSizeOf (chunkSizeOf sr)) fuel 0
      LoopState.init = some st)
    (n : ℕ) (hn : 5 ≤ n) (t0 v : ℚ) (hv : 600 ≤ v ∧ v ≤ 1100) (f e : ℕ → ℚ)
    (hf : ∀ k < n, |f k - v| ≤ 5)
    (hcs : st.allChunks = (List.range n).map fun (k : ℕ) =>
      ({ time := t0 + (k : ℚ) * ((hopSizeOf (chunkSizeOf sr) : ℚ) / sr), freq := f k,
         purity := 0.6, energy := e k } : Chunk)) :
    ∃ (r : Result) (b : Beep), analyzeAudio E F fuel samples sr dur = some r ∧
      r.beeps = [b] ∧ b.start = t0 ∧
      b.end_ = (t0 + ((n : ℚ) - 1) * ((hopSizeOf (chunkSizeOf sr) : ℚ) / sr)) +
        (hopSizeOf (chunkSizeOf sr) : ℚ) / sr ∧
      (t0 > 3.0 →
        r.triggerType = TriggerType.beep ∧ r.confidence = 0.95 ∧ r.dropTimestamp = b.end_) := by
  obtain ⟨hd0, hd1, hd2⟩ := hop_ratio_bounds hsr
  generalize hδ : (hopSizeOf (chunkSizeOf sr) : ℚ) / sr = δ at hd0 hd1 hd2 hcs ⊢
  have _hv := hv
  obtain ⟨m, rfl⟩ : ∃ m, n = m + 1 := ⟨n - 1, by omega⟩
  set mk : ℕ → Chunk := fun k =>
    { time := t0 + (k : ℚ) * δ, freq := f k, purity := 0.6, energy := e k } with hmk
  have hsorted : st.allChunks.Pairwise (fun a b => a.time < b.time) := by
    rw [hcs, List.pairwise_map]
    refine List.Pairwise.imp ?_ (List.pairwise_lt_range _)
    intro a b hab
    have : (a : ℚ) < (b : ℚ) := by exact_mod_cast hab
    simp only
    nlinarith
  have hchain : List.Chain' continues st.allChunks := by
    rw [hcs, List.chain'_map, List.chain'_range_succ]
    intro k hk
    refine ⟨?_, ?_⟩
    · simp only [Nat.cast_succ]
      have : t0 + ((k : ℚ) + 1) * δ - (t0 + (k : ℚ) * δ) = δ := by ring
      rw [this]; exact hd1
    · have h1 := hf k (by omega)
      have h2 := hf (k + 1) (by omega)
      rw [abs_le] at h1 h2
      simp only [Nat.succ_eq_add_one]
      rw [abs_lt]
      constructor <;> linarith [h1.1, h1.2, h2.1, h2.2]
  have hcons : st.allChunks = mk 0 :: (List.range m).map (fun k => mk (k + 1)) := by
    rw [hcs, List.range_succ_eq_map, List.map_cons, List.map_map]
    rfl
  have hsnoc : st.allChunks = (List.range m).map mk ++ [mk m] := by
    rw [hcs, List.range_succ, List.map_append]
    rfl
  have hgroups : tonalGroups st.allChunks = [st.allChunks] := by
    rw [hcons] at hchain ⊢
    exact tonalGroups_of_chain _ _ hchain
  have hlen : st.allChunks.length = m + 1 := by rw [hcs]; simp
  have hdetect : detectBeeps (hopSizeOf (chunkSizeOf sr)) sr st.allChunks =
      (evaluateGroup (hopSizeOf (chunkSizeOf sr)) sr (Group.ofChunks st.allChunks)).toList := by
    rw [detectBeeps_eq, if_pos (by rw [hlen]; omega), insertionSort_of_pairwise_lt hsorted,
      hgroups]
    exact filterMap_singleton _ _
  have hstart : (Group.ofChunks st.allChunks).groupStart = t0 := by
    rw [hcons, ofChunks_groupStart]; simp [hmk]
  have hlast : (Group.ofChunks st.allChunks).lastTime = t0 + (m : ℚ) * δ := by
    rw [hsnoc]; simp [Group.ofChunks, List.getLast?_append, hmk]
  have hpur : ∀ p ∈ (Group.ofChunks st.allChunks).groupPurities, p = 0.6 := by
    intro p hp
    rw [hcs] at hp
    simp only [Group.ofChunks, List.map_map, List.mem_map] at hp
    obtain ⟨k, _, hk⟩ := hp
    rw [← hk]; rfl
  have hpurmem : (0.6 : ℚ) ∈ (Group.ofChunks st.allChunks).groupPurities := by
    rw [hcons]; simp [Group.ofChunks, hmk]
  have hmaxp : maxOf (Group.ofChunks st.allChunks).groupPurities = 0.6 :=
    maxOf_eq hpurmem (fun p hp => le_of_eq (hpur p hp))
  have hflen : (Group.ofChunks st.allChunks).groupFreqs.length = m + 1 := by
    simp [Group.ofChunks, hlen]
  have hm : (4 : ℚ) ≤ (m : ℚ) := by
    have : 4 ≤ m := by omega
    exact_mod_cast this
  have hsome : (evaluateGroup (hopSizeOf (chunkSizeOf sr)) sr
      (Group.ofChunks st.allChunks)).isSome = true := by
    rw [evaluateGroup_isSome, hflen, hmaxp, hstart, hlast, hδ]
    refine ⟨by omega, ?_, Or.inr ⟨by norm_num, by omega⟩⟩
    have : t0 + (m : ℚ) * δ - t0 + δ = ((m : ℚ) + 1) * δ := by ring
    rw [this]
    nlinarith
  obtain ⟨b, hb⟩ := Option.isSome_iff_exists.mp hsome
  obtain ⟨e1, e2, _⟩ := evaluateGroup_some hb
  rw [hδ] at e2
  have hbeeps : detectBeeps (hopSizeOf (chunkSizeOf sr)) sr st.allChunks = [b] := by
    rw [hdetect, hb]; rfl
  refine ⟨_, b, analyzeAudio_of_loop dur hloop, ?_, ?_, ?_, ?_⟩
  · rw [(decideDrop_fields _ _ _ _).1, hbeeps]
  · rw [e1, hstart]
  · rw [e2, hlast]; push_cast; ring
  · intro ht
    rw [hbeeps]
    apply decideDrop_beep
    have : decide (b.start > 3.0) = true := by
      rw [decide_eq_true_eq, e1, hstart]; exact ht
    simp [List.filter_cons, this]

/-- C9, at five frames of a 950 Hz tone of purity 0.6 sampled at 8000 Hz: one
beep from 0 s to 0.125 s. -/
theorem steady_tone_is_one_beep_witness :
    ∃ (r : Result) (b : Beep), analyzeAudio headEnergy headTone 10 toneOnly 8000 (3 / 20) = some r ∧
      r.beeps = [b] ∧ b.start = 0 ∧
      b.end_ = (0 + (((5 : ℕ) : ℚ) - 1) * ((hopSizeOf (chunkSizeOf 8000) : ℚ) / 8000)) +
        (hopSizeOf (chunkSizeOf 8000) : ℚ) / 8000 ∧
      ((0 : ℚ) > 3.0 →
        r.triggerType = TriggerType.beep ∧ r.confidence = 0.95 ∧ r.dropTimestamp = b.end_) :=
  steady_tone_is_one_beep headEnergy headTone 10 toneOnly 8000 (3 / 20) toneOnlyState
    (by norm_num) (by decide!) 5 (le_refl 5) 0 950 ⟨by norm_num, by norm_num⟩
    (fun _ => 950) (fun _ => 1) (fun k _ => by norm_num) (by decide!)

/-! ## The last full frame -/

/-- C10, the code at a buffer of exactly `frameLength` samples: at 8000 Hz
(`chunkSize` 400, `hopSize` 200) a buffer of 400 samples satisfies
`0 + frameLength <= bufferLength`, yet the loop condition
`i < samples.length - chunkSize` fails at `i = 0`: the loop body never runs,
no frame is analysed, and a buffer that holds a pure tone yields the fallback
result without any tonal chunk. -/
theorem exact_fit_buffer_not_analysed (E : List ℚ → ℚ) (F : List ℚ → ℚ → FreqInfo)
    (fuel : ℕ) (st : LoopState) (x : ℚ) :
    chunkSizeOf 8000 = 400 ∧ hopSizeOf (chunkSizeOf 8000) = 200 ∧
      (0 : ℤ) + chunkSizeOf 8000 ≤ ((List.replicate 400 x).length : ℤ) ∧
      frameLoop E F (List.replicate 400 x) 8000 (chunkSizeOf 8000)
        (hopSizeOf (chunkSizeOf 8000)) fuel 0 st = some st ∧
      analysedFrames E F (List.replicate 400 x) 8000 = [] ∧
      analyzeAudio headEnergy headTone fuel (List.replicate 400 1) 8000 (1 / 20) =
        some { beeps := [], silences := [], speechEnd := 0, dropTimestamp := 0,
               triggerType := TriggerType.fallback, confidence := 0.40 } := by
  have hc : chunkSizeOf 8000 = 400 := by decide!
  have hh : hopSizeOf (chunkSizeOf 8000) = 200 := by decide!
  have hloop : ∀ (E' : List ℚ → ℚ) (F' : List ℚ → ℚ → FreqInfo) (y : ℚ) (s : LoopState),
      frameLoop E' F' (List.replicate 400 y) 8000 (chunkSizeOf 8000)
        (hopSizeOf (chunkSizeOf 8000)) fuel 0 s = some s := by
    intro E' F' y s
    rw [hh, hc]
    have hcond : ¬ ((0 : ℤ) < ((List.replicate 400 y).length : ℤ) - 400) := by
      rw [List.length_replicate]; decide
    cases fuel <;> simp only [frameLoop, if_neg hcond]
  refine ⟨hc, hh, ?_, hloop E F x st, ?_, ?_⟩
  · rw [hc, List.length_replicate]; decide
  · unfold analysedFrames
    simp only
    rw [hh, hc, List.length_replicate]
    have : frameCount ((400 : ℕ) : ℤ) 400 200 = 0 := by decide
    rw [this]; rfl
  · rw [analyzeAudio_of_loop _ (hloop headEnergy headTone 1 LoopState.init)]
    decide!

/-! ## Termination of the frame loop -/

theorem frameLoop_diverges {E : List ℚ → ℚ} {F : List ℚ → ℚ → FreqInfo} {samples : List ℚ}
    {sr : ℚ} {chunk hop : ℤ} (hhop : hop ≤ 0) :
    ∀ (fuel : ℕ) (i : ℤ) (st : LoopState), i < (samples.length : ℤ) - chunk →
      frameLoop E F samples sr chunk hop fuel i st = none := by
  intro fuel
  induction fuel with
  | zero => intro i st hi; simp only [frameLoop, if_pos hi]
  | succ fuel ih =>
    intro i st hi
    simp only [frameLoop, if_pos hi]
    exact ih _ _ (by omega)

theorem frameLoop_terminates (E : List ℚ → ℚ) (F : List ℚ → ℚ → FreqInfo) (samples : List ℚ)
    (sr : ℚ) (chunk hop : ℤ) :
    ∀ (fuel : ℕ) (i : ℤ) (st : LoopState),
      (samples.length : ℤ) - chunk - i ≤ (fuel : ℤ) * hop →
      ∃ st', frameLoop E F samples sr chunk hop fuel i st = some st' := by
  intro fuel
  induction fuel with
  | zero =>
    intro i st hi
    simp only [Nat.cast_zero, zero_mul] at hi
    have : ¬ (i < (samples.length : ℤ) - chunk) := by omega
    exact ⟨st, by simp only [frameLoop, if_neg this]⟩
  | succ fuel ih =>
    intro i st hi
    by_cases hc : i < (samples.length : ℤ) - chunk
    · simp only [frameLoop, if_pos hc]
      apply ih
      have : ((fuel + 1 : ℕ) : ℤ) * hop = (fuel : ℤ) * hop + hop := by push_cast; ring
      rw [this] at hi
      omega
    · exact ⟨st, by simp only [frameLoop, if_neg hc]⟩

theorem frameCount_mul_ge (len chunk : ℤ) {hop : ℤ} (hhop : 1 ≤ hop) :
    len - chunk ≤ (frameCount len chunk hop : ℤ) * hop := by
  have hpos : 0 < hop := by omega
  simp only [frameCount, if_neg (not_le.mpr hpos)]
  have h1 : len - chunk + hop - 1 < ((len - chunk + hop - 1) / hop + 1) * hop :=
    Int.lt_ediv_add_one_mul_self _ hpos
  have h2 : (len - chunk + hop - 1) / hop ≤ (((len - chunk + hop - 1) / hop).toNat : ℤ) :=
    Int.self_le_toNat _
  nlinarith

/-- With a hop of at least one sample and enough fuel, the frame loop returns
the loop body folded over the analysed frames. -/
theorem frameLoop_eq_runFrames (E : List ℚ → ℚ) (F : List ℚ → ℚ → FreqInfo) (samples : List ℚ)
    (sr : ℚ) (fuel : ℕ) (hhop : 1 ≤ hopSizeOf (chunkSizeOf sr))
    (hfuel : frameCount samples.length (chunkSizeOf sr) (hopSizeOf (chunkSizeOf sr)) ≤ fuel) :
    frameLoop E F samples sr (chunkSizeOf sr) (hopSizeOf (chunkSizeOf sr)) fuel 0 LoopState.init =
      some (runFrames (analysedFrames E F samples sr) LoopState.init) := by
  have hge := frameCount_mul_ge (samples.length : ℤ) (chunkSizeOf sr) hhop
  have hfuel' : ((frameCount samples.length (chunkSizeOf sr) (hopSizeOf (chunkSizeOf sr)) : ℕ) : ℤ)
      ≤ (fuel : ℤ) := by exact_mod_cast hfuel
  obtain ⟨st', hst'⟩ := frameLoop_terminates E F samples sr (chunkSizeOf sr)
    (hopSizeOf (chunkSizeOf sr)) fuel 0 LoopState.init (by nlinarith)
  have hr : analyzeAudio E F fuel samples sr 0 = some
      (decideDrop (detectBeeps (hopSizeOf (chunkSizeOf sr)) sr st'.allChunks) st'.silences
        st'.lastSpeechTime 0) := analyzeAudio_of_loop 0 hst'
  exact (analyzeAudio_some hr).1

theorem hopSizeOf_pos_of_rate {sr : ℚ} (h : 40 ≤ sr) : 1 ≤ hopSizeOf (chunkSizeOf sr) := by
  have h1 : (2 : ℤ) ≤ chunkSizeOf sr := by
    unfold chunkSizeOf
    apply Int.le_floor.mpr
    push_cast
    linarith
  unfold hopSizeOf
  apply Int.le_floor.mpr
  have : (2 : ℚ) ≤ (chunkSizeOf sr : ℚ) := by exact_mod_cast h1
  push_cast
  linarith

theorem hopSizeOf_nonpos_of_rate {sr : ℚ} (h : sr < 40) : hopSizeOf (chunkSizeOf sr) ≤ 0 := by
  by_contra hc
  have : 1 ≤ hopSizeOf (chunkSizeOf sr) := by omega
  have := hopSizeOf_pos_imp this
  linarith

/-- With a sample rate of 40 or more and enough fuel, `analyzeAudio` returns
the decision taken on the analysed frames. -/
theorem analyzeAudio_returns (E : List ℚ → ℚ) (F : List ℚ → ℚ → FreqInfo) (samples : List ℚ)
    (sr dur : ℚ) (fuel : ℕ) (hsr : 40 ≤ sr)
    (hfuel : frameCount samples.length (chunkSizeOf sr) (hopSizeOf (chunkSizeOf sr)) ≤ fuel) :
    analyzeAudio E F fuel samples sr dur =
      some (decideDrop
        (detectBeeps (hopSizeOf (chunkSizeOf sr)) sr
          (runFrames (analysedFrames E F samples sr) LoopState.init).allChunks)
        (runFrames (analysedFrames E F samples sr) LoopState.init).silences
        (runFrames (analysedFrames E F samples sr) LoopState.init).lastSpeechTime dur) :=
  analyzeAudio_of_loop dur
    (frameLoop_eq_runFrames E F samples sr fuel (hopSizeOf_pos_of_rate hsr) hfuel)

/-! ## Sample rates without a positive hop -/

/-- C11, the code at a positive sample rate below 40: at 20 Hz `chunkSize` is
1 and `hopSize` is 0, so on a buffer of two samples the loop condition
`i < samples.length - chunkSize` holds at `i = 0` and `i += hopSize` never
changes `i`: the frame loop does not terminate and `analyzeAudio` returns no
result, whatever the fuel. -/
theorem zero_hop_never_returns (E : List ℚ → ℚ) (F : List ℚ → ℚ → FreqInfo) (fuel : ℕ)
    (dur x y : ℚ) :
    chunkSizeOf 20 = 1 ∧ hopSizeOf (chunkSizeOf 20) = 0 ∧
      analyzeAudio E F fuel [x, y] 20 dur = none := by
  have hc : chunkSizeOf 20 = 1 := by decide!
  have hh : hopSizeOf (chunkSizeOf 20) = 0 := by decide!
  refine ⟨hc, hh, ?_⟩
  unfold analyzeAudio
  simp only [Option.map_eq_none']
  apply frameLoop_diverges (le_of_eq hh)
  rw [hc]
  simp

/-- C12, the code at two calls with `sampleRate <= 0`: with sample rate 0 and
an empty buffer `analyzeAudio` returns the fallback result, not a result of
the ERROR kind; with sample rate -8000 and a buffer of one sample it returns
no result, whatever the fuel. -/
theorem nonpositive_rate_no_error :
    (∀ (E : List ℚ → ℚ) (F : List ℚ → ℚ → FreqInfo) (fuel : ℕ),
        analyzeAudio E F fuel [] 0 2 = some (fallbackResult 2)) ∧
      (fallbackResult 2).triggerType ≠ TriggerType.error ∧
      (∀ (E : List ℚ → ℚ) (F : List ℚ → ℚ → FreqInfo) (fuel : ℕ),
        analyzeAudio E F fuel [0] (-8000) 2 = none) := by
  refine ⟨?_, by decide, ?_⟩
  · intro E F fuel
    have hc : chunkSizeOf 0 = 0 := by decide!
    have hh : hopSizeOf (chunkSizeOf 0) = 0 := by decide!
    have hloop : frameLoop E F [] 0 (chunkSizeOf 0) (hopSizeOf (chunkSizeOf 0)) fuel 0
        LoopState.init = some LoopState.init := by
      rw [hh, hc]
      cases fuel <;> simp [frameLoop]
    rw [analyzeAudio_of_loop 2 hloop]
    decide!
  · intro E F fuel
    have hc : chunkSizeOf (-8000) = -400 := by decide!
    have hh : hopSizeOf (chunkSizeOf (-8000)) = -200 := by decide!
    unfold analyzeAudio
    simp only [Option.map_eq_none']
    apply frameLoop_diverges (by rw [hh]; decide)
    rw [hc]
    simp

/-- C12 as amended: a call of `analyzeAudio` with `sampleRate <= 0` that
returns has analysed no frame and returns the fallback result (confidence
0.40, `dropTimestamp = max(0, duration - 0.5)`), never a result of the ERROR
kind; and no call of `analyzeAudio` returns a result of the ERROR kind. -/
theorem nonpositive_rate_fallback (E : List ℚ → ℚ) (F : List ℚ → ℚ → FreqInfo) (fuel : ℕ)
    (samples : List ℚ) (sr dur : ℚ) (r : Result) (hsr : sr ≤ 0)
    (h : analyzeAudio E F fuel samples sr dur = some r) :
    r = fallbackResult dur ∧ r.triggerType ≠ TriggerType.error ∧
      ∀ (sr' dur' : ℚ) (samples' : List ℚ) (fuel' : ℕ) (r' : Result),
        analyzeAudio E F fuel' samples' sr' dur' = some r' →
          r'.triggerType = TriggerType.beep ∨ r'.triggerType = TriggerType.silence ∨
            r'.triggerType = TriggerType.speech_end ∨ r'.triggerType = TriggerType.fallback := by
  have hfour : ∀ (beeps : List Beep) (sil : List Silence) (lst d : ℚ),
      (decideDrop beeps sil lst d).triggerType = TriggerType.beep ∨
        (decideDrop beeps sil lst d).triggerType = TriggerType.silence ∨
        (decideDrop beeps sil lst d).triggerType = TriggerType.speech_end ∨
        (decideDrop beeps sil lst d).triggerType = TriggerType.fallback := by
    intro beeps sil lst d
    unfold decideDrop
    simp only
    (repeat' split) <;> simp
  obtain ⟨_, hr⟩ := analyzeAudio_some h
  have hhop : hopSizeOf (chunkSizeOf sr) ≤ 0 := hopSizeOf_nonpos_of_rate (by linarith)
  have hfr : analysedFrames E F samples sr = [] := by
    unfold analysedFrames
    simp only [frameCount, if_pos hhop, List.range_zero, List.map_nil]
  rw [hfr] at hr
  have hr' : r = fallbackResult dur := by
    rw [hr]
    simp only [runFrames, List.foldl_nil, LoopState.init]
    unfold detectBeeps decideDrop fallbackResult
    simp
    norm_num
  refine ⟨hr', ?_, ?_⟩
  · rw [hr']; simp [fallbackResult]
  · intro sr' dur' samples' fuel' r' h'
    rw [(analyzeAudio_some h').2]
    exact hfour _ _ _ _

/-- C12 as amended, at sample rate 0 and an empty buffer. -/
theorem nonpositive_rate_fallback_witness :
    analyzeAudio headEnergy headTone 1 [] 0 2 = some (fallbackResult 2) ∧
      (fallbackResult 2).triggerType ≠ TriggerType.error :=
  ⟨by decide!,
    (nonpositive_rate_fallback headEnergy headTone 1 [] 0 2 (fallbackResult 2) (le_refl 0)
      (by decide!)).2.1⟩

/-! ## Silence-only input -/

theorem processFrame_quiet {f : Frame} {st : LoopState} (hq : f.energy < 0.01)
    (h : st.allChunks = [] ∧ st.silences = [] ∧ st.lastSpeechTime = 0) :
    (processFrame f st).allChunks = [] ∧ (processFrame f st).silences = [] ∧
      (processFrame f st).lastSpeechTime = 0 := by
  obtain ⟨h1, h2, h3⟩ := h
  have hn1 : ¬ f.energy > 0.01 := by linarith
  have hn2 : ¬ f.energy > 0.015 := by
    intro hc
    have : (0.01 : ℚ) < 0.015 := by norm_num
    linarith
  refine ⟨?_, ?_, ?_⟩
  · rw [processFrame_allChunks, h1]
    simp [toChunk, hn1]
  · rw [(processFrame_silence f st).1]
    unfold trackSilence
    rw [if_pos hq]
    split <;> exact h2
  · rw [processFrame_lastSpeechTime, if_neg hn2, h3]

theorem runFrames_quiet (frs : List Frame) (hq : ∀ f ∈ frs, f.energy < 0.01) :
    ∀ st : LoopState, (st.allChunks = [] ∧ st.silences = [] ∧ st.lastSpeechTime = 0) →
      (runFrames frs st).allChunks = [] ∧ (runFrames frs st).silences = [] ∧
        (runFrames frs st).lastSpeechTime = 0 := by
  induction frs with
  | nil => intro st h; exact h
  | cons f frs ih =>
    intro st h
    have : runFrames (f :: frs) st = runFrames frs (processFrame f st) := rfl
    rw [this]
    exact ih (fun g hg => hq g (List.mem_cons_of_mem _ hg)) _
      (processFrame_quiet (hq f (List.mem_cons_self _ _)) h)

theorem decideDrop_nothing (dur : ℚ) : decideDrop [] [] 0 dur = fallbackResult dur := by
  unfold decideDrop fallbackResult
  simp
  norm_num

theorem analysedFrames_nil (E : List ℚ → ℚ) (F : List ℚ → ℚ → FreqInfo) (sr : ℚ)
    (hsr : 40 ≤ sr) : analysedFrames E F [] sr = [] := by
  have hhop := hopSizeOf_pos_of_rate hsr
  have hchunk : (2 : ℚ) ≤ (chunkSizeOf sr : ℚ) := by
    have : (2 : ℤ) ≤ chunkSizeOf sr := by
      unfold chunkSizeOf
      apply Int.le_floor.mpr
      push_cast
      linarith
    exact_mod_cast this
  have hchunk' : (2 : ℤ) ≤ chunkSizeOf sr := by exact_mod_cast hchunk
  have h0 := (@frameCount_unique ((([] : List ℚ).length : ℤ) - chunkSizeOf sr)
    (hopSizeOf (chunkSizeOf sr)) 0 (([] : List ℚ).length : ℤ) (chunkSizeOf sr) rfl
    (fun k hk => absurd hk (Nat.not_lt_zero _)) (by simp; omega)).1
  unfold analysedFrames
  simp only [← h0, List.range_zero, List.map_nil]

/-- C13: at a sample rate of 40 or more, when the buffer is empty or every
analysed frame has `energy < 0.01`, `analyzeAudio` returns `beeps = []`,
`silences = []` (the run of silence that is still open at the end is not
reported), `speechEnd = 0` and the fallback result: trigger `'fallback'`,
confidence 0.40, `dropTimestamp = max(0, duration - 0.5)`. -/
theorem silent_input_fallback (E : List ℚ → ℚ) (F : List ℚ → ℚ → FreqInfo) (fuel : ℕ)
    (samples : List ℚ) (sr dur : ℚ) (hsr : 40 ≤ sr)
    (hfuel : frameCount samples.length (chunkSizeOf sr) (hopSizeOf (chunkSizeOf sr)) ≤ fuel)
    (hq : samples = [] ∨ ∀ f ∈ analysedFrames E F samples sr, f.energy < 0.01) :
    analyzeAudio E F fuel samples sr dur =
      some { beeps := [], silences := [], speechEnd := 0,
             dropTimestamp := max 0 (dur - 0.5), triggerType := TriggerType.fallback,
             confidence := 0.40 } := by
  have hq' : ∀ f ∈ analysedFrames E F samples sr, f.energy < 0.01 := by
    rcases hq with hq | hq
    · subst hq
      rw [analysedFrames_nil E F sr hsr]
      intro f hf
      exact absurd hf (List.not_mem_nil _)
    · exact hq
  obtain ⟨h1, h2, h3⟩ := runFrames_quiet _ hq' LoopState.init ⟨rfl, rfl, rfl⟩
  rw [analyzeAudio_returns E F samples sr dur fuel hsr hfuel, h1, h2, h3]
  have : detectBeeps (hopSizeOf (chunkSizeOf sr)) sr [] = [] := by simp [detectBeeps]
  rw [this, decideDrop_nothing]
  rfl

/-- C13, at 5 s of digital silence sampled at 40 Hz. -/
theorem silent_input_fallback_witness :
    analyzeAudio headEnergy headTone 200 silenceOnly 40 5 =
      some { beeps := [], silences := [], speechEnd := 0,
             dropTimestamp := max 0 (5 - 0.5), triggerType := TriggerType.fallback,
             confidence := 0.40 } :=
  silent_input_fallback headEnergy headTone 200 silenceOnly 40 5 (by norm_num) (by decide!)
    (Or.inr (by decide!))

/-! ## The speech end time -/

theorem runFrames_lastSpeechTime (frs : List Frame) :
    ∀ st : LoopState,
      (runFrames frs st).lastSpeechTime =
        (((frs.filter fun f => decide (f.energy > 0.015)).getLast?).map Frame.time).getD
          st.lastSpeechTime := by
  induction frs with
  | nil => intro st; simp [runFrames]
  | cons f frs ih =>
    intro st
    have hrun : runFrames (f :: frs) st = runFrames frs (processFrame f st) := rfl
    rw [hrun, ih, processFrame_lastSpeechTime]
    by_cases hl : f.energy > 0.015
    · rw [if_pos hl, List.filter_cons_of_pos (by simpa using hl)]
      cases hfl : frs.filter fun f => decide (f.energy > 0.015) with
      | nil => simp
      | cons g gs =>
        obtain ⟨x, hx⟩ : ∃ x, (g :: gs).getLast? = some x :=
          ⟨_, List.getLast?_eq_getLast _ (List.cons_ne_nil g gs)⟩
        simp [List.getLast?_cons_cons, hx]
    · rw [if_neg hl, List.filter_cons_of_neg (by simpa using hl)]

/-- C19: the `speechEnd` that `analyzeAudio` returns is the timestamp of the
last analysed frame with `energy > 0.015`, and 0 when no frame has
`energy > 0.015`; it is the greatest timestamp among these frames. -/
theorem speechEnd_is_last_loud (E : List ℚ → ℚ) (F : List ℚ → ℚ → FreqInfo) (fuel : ℕ)
    (samples : List ℚ) (sr dur : ℚ) (r : Result)
    (h : analyzeAudio E F fuel samples sr dur = some r) :
    r.speechEnd =
        ((((analysedFrames E F samples sr).filter fun f => decide (f.energy > 0.015)).getLast?).map
          Frame.time).getD 0 ∧
      ((∀ f ∈ analysedFrames E F samples sr, ¬ f.energy > 0.015) → r.speechEnd = 0) ∧
      ((∃ f ∈ analysedFrames E F samples sr, f.energy > 0.015) →
        ∃ f ∈ analysedFrames E F samples sr, f.energy > 0.015 ∧ r.speechEnd = f.time) ∧
      ∀ f ∈ analysedFrames E F samples sr, f.energy > 0.015 → f.time ≤ r.speechEnd := by
  obtain ⟨_, hr⟩ := analyzeAudio_some h
  have hsp : r.speechEnd =
      ((((analysedFrames E F samples sr).filter fun f => decide (f.energy > 0.015)).getLast?).map
        Frame.time).getD 0 := by
    rw [hr, (decideDrop_fields _ _ _ _).2.2, runFrames_lastSpeechTime]
    rfl
  have hsorted := (analysedFrames_sorted E F samples sr).filter
    (fun f => decide (f.energy > 0.015))
  cases hl : ((analysedFrames E F samples sr).filter fun f => decide (f.energy > 0.015)).getLast?
    with
  | none =>
    have hnil := List.getLast?_eq_none_iff.mp hl
    have hnone : ∀ f ∈ analysedFrames E F samples sr, ¬ f.energy > 0.015 := by
      intro f hf
      have := List.filter_eq_nil_iff.mp hnil f hf
      simpa using this
    rw [hl] at hsp
    refine ⟨by rw [hsp], fun _ => hsp, ?_, ?_⟩
    · rintro ⟨f, hf, hfl⟩
      exact absurd hfl (hnone f hf)
    · intro f hf hfl
      exact absurd hfl (hnone f hf)
  | some g =>
    rw [hl] at hsp
    have hsp' : r.speechEnd = g.time := hsp
    have hg := List.mem_filter.mp (List.mem_of_getLast?_eq_some hl)
    have hgl : g.energy > 0.015 := by simpa using hg.2
    refine ⟨by rw [hsp], ?_, fun _ => ⟨g, hg.1, hgl, hsp'⟩, ?_⟩
    · intro hnone
      exact absurd hgl (hnone g hg.1)
    · intro f hf hfl
      rw [hsp']
      rcases pairwise_getLast? hsorted hl f
        (List.mem_filter.mpr ⟨hf, by simpa using hfl⟩) with he | hlt
      · rw [he]
      · exact le_of_lt hlt

/-- C19, at 3.25 s of speech sampled at 40 Hz: the last frame, at 3.175 s,
gives the speech end. -/
theorem speechEnd_is_last_loud_witness :
    analyzeAudio headEnergy headTone 200 speechOnly 40 (13 / 4) = some speechOnlyResult ∧
      speechOnlyResult.speechEnd = 127 / 40 ∧
      (speechOnlyResult.speechEnd =
          ((((analysedFrames headEnergy headTone speechOnly 40).filter
            fun f => decide (f.energy > 0.015)).getLast?).map Frame.time).getD 0 ∧
        ((∀ f ∈ analysedFrames headEnergy headTone speechOnly 40, ¬ f.energy > 0.015) →
          speechOnlyResult.speechEnd = 0) ∧
        ((∃ f ∈ analysedFrames headEnergy headTone speechOnly 40, f.energy > 0.015) →
          ∃ f ∈ analysedFrames headEnergy headTone speechOnly 40,
            f.energy > 0.015 ∧ speechOnlyResult.speechEnd = f.time) ∧
        ∀ f ∈ analysedFrames headEnergy headTone speechOnly 40, f.energy > 0.015 →
          f.time ≤ speechOnlyResult.speechEnd) :=
  ⟨by decide!, rfl,
    speechEnd_is_last_loud headEnergy headTone 200 speechOnly 40 (13 / 4) speechOnlyResult
      (by decide!)⟩

/-! ## The peak amplitude -/

theorem foldl_maxAmp (l : List ℚ) (m : ℚ) (hm : 0 ≤ m) :
    m ≤ l.foldl (fun maxAmp x => if |x| > maxAmp then |x| else maxAmp) m ∧
      (∀ x ∈ l, |x| ≤ l.foldl (fun maxAmp x => if |x| > maxAmp then |x| else maxAmp) m) ∧
      (l.foldl (fun maxAmp x => if |x| > maxAmp then |x| else maxAmp) m = m ∨
        ∃ x ∈ l, |x| = l.foldl (fun maxAmp x => if |x| > maxAmp then |x| else maxAmp) m) := by
  induction l generalizing m with
  | nil => simp
  | cons y l ih =>
    simp only [List.foldl_cons, List.mem_cons]
    by_cases hy : |y| > m
    · rw [if_pos hy]
      obtain ⟨h1, h2, h3⟩ := ih |y| (abs_nonneg y)
      refine ⟨le_trans (le_of_lt hy) h1, ?_, ?_⟩
      · intro x hx
        rcases hx with hx | hx
        · subst hx; exact h1
        · exact h2 x hx
      · right
        rcases h3 with h3 | ⟨x, hx, hxe⟩
        · exact ⟨y, Or.inl rfl, h3.symm⟩
        · exact ⟨x, Or.inr hx, hxe⟩
    · rw [if_neg hy]
      obtain ⟨h1, h2, h3⟩ := ih m hm
      refine ⟨h1, ?_, ?_⟩
      · intro x hx
        rcases hx with hx | hx
        · subst hx; exact le_trans (not_lt.mp hy) h1
        · exact h2 x hx
      · rcases h3 with h3 | ⟨x, hx, hxe⟩
        · left; exact h3
        · right; exact ⟨x, Or.inr hx, hxe⟩

theorem maxAmplitude_isPeak (l : List ℚ) : IsPeak l (maxAmplitude l) := by
  obtain ⟨h1, h2, h3⟩ := foldl_maxAmp l 0 (le_refl 0)
  cases l with
  | nil => left; exact ⟨rfl, rfl⟩
  | cons y l =>
    right
    refine ⟨?_, h2⟩
    rcases h3 with h3 | h3
    · refine ⟨y, List.mem_cons_self _ _, ?_⟩
      have hy := h2 y (List.mem_cons_self _ _)
      unfold maxAmplitude
      rw [h3] at hy ⊢
      exact le_antisymm hy (abs_nonneg y)
    · exact h3

theorem IsPeak.unique {l : List ℚ} {p q : ℚ} (hp : IsPeak l p) (hq : IsPeak l q) : p = q := by
  rcases hp with ⟨hl, hp⟩ | ⟨⟨x, hx, hxe⟩, hple⟩
  · rcases hq with ⟨_, hq⟩ | ⟨⟨y, hy, _⟩, _⟩
    · rw [hp, hq]
    · rw [hl] at hy; exact absurd hy (List.not_mem_nil _)
  · rcases hq with ⟨hl, _⟩ | ⟨⟨y, hy, hye⟩, hqle⟩
    · rw [hl] at hx; exact absurd hx (List.not_mem_nil _)
    · apply le_antisymm
      · rw [← hxe]; exact hqle x hx
      · rw [← hye]; exact hple y hy

theorem IsPeak.eq_maxAmplitude {l : List ℚ} {p : ℚ} (hp : IsPeak l p) : maxAmplitude l = p :=
  (maxAmplitude_isPeak l).unique hp

/-! ## Normalization and channel mixing in `loadAudio` -/

/-- C14: when the peak absolute amplitude `p` of the mixed signal is
`> 0.001`, each output sample of the normalization equals the mixed sample
divided by `p`, every output sample lies in `[-1, 1]`, and the peak absolute
amplitude of the output is exactly 1 (hence in `(0.999, 1.0]`). -/
theorem normalize_scales_to_unit_peak (rawSamples : List ℚ) (p : ℚ) (hp : IsPeak rawSamples p)
    (hgt : p > 0.001) :
    (normalize rawSamples).samples = rawSamples.map (fun x => x / p) ∧
      (∀ y ∈ (normalize rawSamples).samples, -1 ≤ y ∧ y ≤ 1) ∧
      IsPeak (normalize rawSamples).samples 1 ∧ ((0.999 : ℚ) < 1 ∧ (1 : ℚ) ≤ 1.0) ∧
      (normalize rawSamples).divisors = [p] := by
  have hmax := hp.eq_maxAmplitude
  have hpos : 0 < p := by
    have : (0 : ℚ) < 0.001 := by norm_num
    linarith
  have hs : (normalize rawSamples).samples = rawSamples.map (fun x => x / p) := by
    unfold normalize
    simp only [hmax, if_pos hgt]
    apply List.map_congr_left
    intro x _
    norm_num [div_eq_mul_inv]
  have hd : (normalize rawSamples).divisors = [p] := by
    unfold normalize
    simp only [hmax, if_pos hgt]
  rcases hp with ⟨_, hp0⟩ | ⟨⟨x, hx, hxe⟩, hple⟩
  · rw [hp0] at hpos; exact absurd hpos (lt_irrefl 0)
  · refine ⟨hs, ?_, ?_, ⟨by norm_num, by norm_num⟩, hd⟩
    · intro y hy
      rw [hs, List.mem_map] at hy
      obtain ⟨z, hz, hzy⟩ := hy
      have := hple z hz
      rw [abs_le] at this
      rw [← hzy]
      constructor
      · rw [le_div_iff₀ hpos]; linarith [this.1]
      · rw [div_le_iff₀ hpos]; linarith [this.2]
    · right
      rw [hs]
      refine ⟨⟨x / p, List.mem_map.mpr ⟨x, hx, rfl⟩, ?_⟩, ?_⟩
      · rw [abs_div, hxe, abs_of_pos hpos, div_self (ne_of_gt hpos)]
      · intro y hy
        rw [List.mem_map] at hy
        obtain ⟨z, hz, hzy⟩ := hy
        rw [← hzy, abs_div, abs_of_pos hpos, div_le_iff₀ hpos, one_mul]
        exact hple z hz

/-- C14, at the mixed signal `[1/2, -1/4, 1/8]`, whose peak is `1/2`. -/
theorem normalize_scales_to_unit_peak_witness :
    (normalize [1 / 2, -1 / 4, 1 / 8]).samples = [1, -1 / 2, 1 / 4] ∧
      IsPeak (normalize [1 / 2, -1 / 4, 1 / 8]).samples 1 :=
  have h := normalize_scales_to_unit_peak [1 / 2, -1 / 4, 1 / 8] (1 / 2)
    (Or.inr ⟨⟨1 / 2, by decide!, by decide!⟩, by decide!⟩) (by decide!)
  ⟨by decide!, h.2.2.1⟩

/-- C15: when the peak absolute amplitude of the mixed signal is `<= 0.001`
(the all-zero and the empty buffer included), the normalization returns the
samples unchanged and performs no division; an all-zero buffer stays
all-zero. -/
theorem normalize_leaves_quiet_unchanged (rawSamples : List ℚ) (p : ℚ)
    (hp : IsPeak rawSamples p) (hle : p ≤ 0.001) :
    normalize rawSamples = { samples := rawSamples, divisors := [] } ∧
      ((∀ x ∈ rawSamples, x = 0) → ∀ y ∈ (normalize rawSamples).samples, y = 0) ∧
      normalize [] = { samples := [], divisors := [] } := by
  have hmax := hp.eq_maxAmplitude
  have hn : normalize rawSamples = { samples := rawSamples, divisors := [] } := by
    unfold normalize
    simp only [hmax, if_neg (not_lt.mpr hle)]
  refine ⟨hn, ?_, ?_⟩
  · intro h0 y hy
    rw [hn] at hy
    exact h0 y hy
  · decide!

/-- C15, at an all-zero buffer of three samples. -/
theorem normalize_leaves_quiet_unchanged_witness :
    normalize [0, 0, 0] = { samples := [0, 0, 0], divisors := [] } :=
  (normalize_leaves_quiet_unchanged [0, 0, 0] 0
    (Or.inr ⟨⟨0, by decide!, by decide!⟩, by decide!⟩) (by decide!)).1

/-- C16, the code at three channels: for the channels `[0]`, `[0]` and `[3]`
the mono signal is `[0]`, the mean of the first two channels, while the mean
across all three channels at index 0 is 1. -/
theorem third_channel_ignored :
    rawSamplesOf [[0], [0], [3]] = some [0] ∧ channelMean [[0], [0], [3]] 0 = 1 ∧
      ¬ (∀ mono ∈ rawSamplesOf [[0], [0], [3]], ∀ i < 1,
        mono.getD i 0 = channelMean [[0], [0], [3]] i) := by
  refine ⟨by decide!, by decide!, ?_⟩
  intro h
  have := h [0] (by decide!) 0 (by decide)
  revert this
  decide!

/-- C16 as amended: with more than one channel, the mono signal that
`loadAudio` builds before normalization has, at each sample index, the
arithmetic mean of the samples of channels 0 and 1 at that index, which for
two channels is the mean across all channels; with one channel it is that
channel unchanged. -/
theorem mono_mix_of_first_two (left right : List ℚ) (rest : List (List ℚ)) (mono : List ℚ)
    (hlen : right.length = left.length) :
    (∃ raw, rawSamplesOf (left :: right :: rest) = some raw ∧ raw.length = left.length ∧
      (∀ (i : ℕ) (hi : i < left.length),
        raw.getD i 0 = (left.get ⟨i, hi⟩ + right.get ⟨i, by rw [hlen]; exact hi⟩) / 2) ∧
      (rest = [] → ∀ i < left.length, raw.getD i 0 = channelMean (left :: right :: rest) i)) ∧
      rawSamplesOf [mono] = some mono := by
  have hget : ∀ i < left.length,
      (mixStereo left right).getD i 0 = (left.getD i 0 + right.getD i 0) / 2 := by
    intro i hi
    unfold mixStereo
    rw [List.getD_eq_getElem _ _ (by simpa using hi)]
    simp
  refine ⟨⟨mixStereo left right, rfl, by simp [mixStereo], ?_, ?_⟩, rfl⟩
  · intro i hi
    rw [hget i hi, List.getD_eq_getElem _ _ hi,
      List.getD_eq_getElem _ _ (by rw [hlen]; exact hi)]
    rfl
  · intro hrest i hi
    rw [hget i hi, hrest]
    simp [channelMean]

/-- C16 as amended, at a stereo file with audio only in the right channel. -/
theorem mono_mix_of_first_two_witness :
    rawSamplesOf [[0, 0], [1, -1]] = some [1 / 2, -1 / 2] ∧
      (∃ raw, rawSamplesOf [[0, 0], [1, -1]] = some raw ∧ raw.length = 2 ∧
        ∀ i < 2, raw.getD i 0 = channelMean [[0, 0], [1, -1]] i) :=
  ⟨by decide!,
    match (mono_mix_of_first_two [0, 0] [1, -1] [] [] rfl).1 with
    | ⟨raw, h1, h2, _, h4⟩ => ⟨raw, h1, h2, h4 rfl⟩⟩

/-! ## The bins that `getFrequencyInfo` scans -/

theorem mem_scannedBins (n : ℕ) (sr : ℚ) (k : ℤ) :
    k ∈ scannedBins n sr ↔ minK n sr ≤ k ∧ k ≤ maxK n sr := by
  unfold scannedBins
  simp only [List.mem_map, List.mem_range]
  constructor
  · rintro ⟨j, hj, rfl⟩
    omega
  · rintro ⟨h1, h2⟩
    refine ⟨(k - minK n sr).toNat, ?_, ?_⟩ <;> omega

/-! ## The scan of the bins -/

theorem scan_invariant (mag : ℤ → ℚ) (n : ℕ) (sr : ℚ) (bins : List ℤ)
    (hnn : ∀ k ∈ bins, 0 ≤ mag k) :
    ∀ s : BinState, 0 ≤ s.maxMag →
      (bins.foldl (binStep mag n sr) s).totalMag = s.totalMag + (bins.map mag).sum ∧
      s.maxMag ≤ (bins.foldl (binStep mag n sr) s).maxMag ∧
      (∀ k ∈ bins, mag k ≤ (bins.foldl (binStep mag n sr) s).maxMag) ∧
      ((bins.foldl (binStep mag n sr) s).maxMag = s.maxMag ∧
          (bins.foldl (binStep mag n sr) s).maxFreq = s.maxFreq ∨
        ∃ k ∈ bins, mag k = (bins.foldl (binStep mag n sr) s).maxMag ∧
          (bins.foldl (binStep mag n sr) s).maxFreq = (k : ℚ) * sr / (n : ℚ) ∧
          s.maxMag < (bins.foldl (binStep mag n sr) s).maxMag) ∧
      (bins.foldl (binStep mag n sr) s).maxMag ≤ s.maxMag + (bins.map mag).sum := by
  induction bins with
  | nil => intro s _; simp
  | cons k bins ih =>
    intro s hs
    have hk : 0 ≤ mag k := hnn k (List.mem_cons_self _ _)
    have hnn' : ∀ j ∈ bins, 0 ≤ mag j := fun j hj => hnn j (List.mem_cons_of_mem _ hj)
    simp only [List.foldl_cons, List.map_cons, List.sum_cons, List.mem_cons]
    by_cases hgt : mag k > s.maxMag
    · have hstep : binStep mag n sr s k =
          { maxMag := mag k, maxFreq := (k : ℚ) * sr / (n : ℚ),
            totalMag := s.totalMag + mag k } := by
        simp [binStep, hgt]
      rw [hstep]
      obtain ⟨h1, h2, h3, h4, h5⟩ := ih hnn'
        { maxMag := mag k, maxFreq := (k : ℚ) * sr / (n : ℚ), totalMag := s.totalMag + mag k }
        hk
      simp only at h1 h2 h4 h5
      refine ⟨by rw [h1]; ring, le_trans (le_of_lt hgt) h2, ?_, ?_, ?_⟩
      · intro j hj
        rcases hj with hj | hj
        · rw [hj]; exact h2
        · exact h3 j hj
      · right
        rcases h4 with ⟨h4a, h4b⟩ | ⟨j, hj, hje, hjf, hjl⟩
        · exact ⟨k, Or.inl rfl, h4a.symm, h4b, by rw [h4a]; exact hgt⟩
        · exact ⟨j, Or.inr hj, hje, hjf, lt_trans hgt hjl⟩
      · linarith
    · have hstep : binStep mag n sr s k = { s with totalMag := s.totalMag + mag k } := by
        simp [binStep, hgt]
      rw [hstep]
      obtain ⟨h1, h2, h3, h4, h5⟩ := ih hnn' { s with totalMag := s.totalMag + mag k } hs
      simp only at h1 h2 h4 h5
      refine ⟨by rw [h1]; ring, h2, ?_, ?_, ?_⟩
      · intro j hj
        rcases hj with hj | hj
        · rw [hj]; exact le_trans (not_lt.mp hgt) h2
        · exact h3 j hj
      · rcases h4 with h4 | ⟨j, hj, hje⟩
        · left; exact h4
        · right; exact ⟨j, Or.inr hj, hje⟩
      · linarith

/-! ## The band and the purity of `getFrequencyInfo` -/

/-- C17, the code at a frame of 1102 samples at 22050 Hz: bin 19 is scanned
although its centre frequency `19 * 22050 / 1102` is below 400 Hz, and bin 75
is scanned although its centre frequency is above 1500 Hz. -/
theorem scanned_bin_outside_band :
    (19 : ℤ) ∈ scannedBins 1102 22050 ∧ ((19 : ℤ) : ℚ) * 22050 / ((1102 : ℕ) : ℚ) < 400 ∧
      (75 : ℤ) ∈ scannedBins 1102 22050 ∧ ((75 : ℤ) : ℚ) * 22050 / ((1102 : ℕ) : ℚ) > 1500 := by
  decide!

/-- C17 as amended: the scanned bins are the integers from
`max(1, floor(400 * n / sampleRate))` to
`min(ceil(1500 * n / sampleRate), floor(n / 2))`; every scanned bin `k`
satisfies `1 <= k <= floor(n / 2)` and, for a positive sample rate, has its
centre frequency `k * sampleRate / n` within one bin width of the band
`[400, 1500]`; and every bin with `1 <= k <= floor(n / 2)` whose centre
frequency is inside `[400, 1500]` is scanned. -/
theorem scanned_bins_cover_band (n : ℕ) (sr : ℚ) (k : ℤ) :
    (k ∈ scannedBins n sr ↔
      max 1 ⌊400 * (n : ℚ) / sr⌋ ≤ k ∧ k ≤ min ⌈1500 * (n : ℚ) / sr⌉ ⌊(n : ℚ) / 2⌋) ∧
    (k ∈ scannedBins n sr →
      1 ≤ k ∧ k ≤ ⌊(n : ℚ) / 2⌋ ∧
        (0 < sr → 400 - sr / (n : ℚ) < (k : ℚ) * sr / (n : ℚ) ∧
          (k : ℚ) * sr / (n : ℚ) < 1500 + sr / (n : ℚ))) ∧
    (1 ≤ k → k ≤ ⌊(n : ℚ) / 2⌋ → 400 ≤ (k : ℚ) * sr / (n : ℚ) →
      (k : ℚ) * sr / (n : ℚ) ≤ 1500 → k ∈ scannedBins n sr) := by
  have hmem := mem_scannedBins n sr k
  have hnpos : 1 ≤ k → k ≤ ⌊(n : ℚ) / 2⌋ → (0 : ℚ) < (n : ℚ) := by
    intro h1 h2
    have h3 : ((1 : ℤ) : ℚ) ≤ (n : ℚ) / 2 := Int.le_floor.mp (le_trans h1 h2)
    push_cast at h3
    linarith
  refine ⟨hmem, ?_, ?_⟩
  · intro hk
    obtain ⟨hlo, hhi⟩ := hmem.mp hk
    unfold minK at hlo
    unfold maxK at hhi
    have h1 : 1 ≤ k := le_trans (le_max_left _ _) hlo
    have h2 : k ≤ ⌊(n : ℚ) / 2⌋ := le_trans hhi (min_le_right _ _)
    refine ⟨h1, h2, ?_⟩
    intro hsr
    have hn := hnpos h1 h2
    have hlo' : ⌊400 * (n : ℚ) / sr⌋ ≤ k := le_trans (le_max_right _ _) hlo
    have hhi' : k ≤ ⌈1500 * (n : ℚ) / sr⌉ := le_trans hhi (min_le_left _ _)
    have hlo'' : 400 * (n : ℚ) / sr - 1 < (k : ℚ) :=
      lt_of_lt_of_le (Int.sub_one_lt_floor _) (by exact_mod_cast hlo')
    have hhi'' : (k : ℚ) < 1500 * (n : ℚ) / sr + 1 :=
      lt_of_le_of_lt (by exact_mod_cast hhi') (Int.ceil_lt_add_one _)
    have hhi3 : (k : ℚ) - 1 < 1500 * (n : ℚ) / sr := by linarith
    rw [sub_lt_iff_lt_add, div_lt_iff₀ hsr] at hlo''
    rw [lt_div_iff₀ hsr] at hhi3
    constructor
    · rw [sub_lt_iff_lt_add, ← add_div, lt_div_iff₀ hn]
      linarith
    · rw [← sub_lt_iff_lt_add, ← sub_div, div_lt_iff₀ hn]
      linarith
  · intro h1 h2 hlo hhi
    have hn := hnpos h1 h2
    have hk : (1 : ℚ) ≤ (k : ℚ) := by exact_mod_cast h1
    rw [le_div_iff₀ hn] at hlo
    rw [div_le_iff₀ hn] at hhi
    have hsr : 0 < sr := by
      by_contra hc
      have : sr ≤ 0 := not_lt.mp hc
      nlinarith
    apply hmem.mpr
    unfold minK maxK
    refine ⟨max_le h1 ?_, le_min ?_ h2⟩
    · have : (⌊400 * (n : ℚ) / sr⌋ : ℚ) ≤ (k : ℚ) := by
        refine le_trans (Int.floor_le _) ?_
        rw [div_le_iff₀ hsr]
        linarith
      exact_mod_cast this
    · have : (k : ℚ) ≤ (⌈1500 * (n : ℚ) / sr⌉ : ℚ) := by
        refine le_trans ?_ (Int.le_ceil _)
        rw [le_div_iff₀ hsr]
        linarith
      exact_mod_cast this

/-- C17 as amended, at a frame of 1102 samples at 22050 Hz: bin 20, of centre
frequency about 400.2 Hz, is scanned. -/
theorem scanned_bins_cover_band_witness : (20 : ℤ) ∈ scannedBins 1102 22050 :=
  (scanned_bins_cover_band 1102 22050 20).2.2 (by decide) (by decide!) (by decide!) (by decide!)

/-- C18: when the magnitudes are not negative, the purity that
`getFrequencyInfo` returns lies in `[0, 1]`; it equals the largest magnitude
of a scanned bin divided by the sum of the magnitudes of all scanned bins when
that sum is positive; and it is 0, with `freq` 0, when every scanned bin has
magnitude 0 or no bin is scanned. -/
theorem purity_in_unit_interval (magnitude : List ℚ → ℤ → ℚ) (samples : List ℚ) (sr : ℚ)
    (hnn : ∀ k, 0 ≤ magnitude samples k) :
    0 ≤ (getFrequencyInfo magnitude samples sr).purity ∧
      (getFrequencyInfo magnitude samples sr).purity ≤ 1 ∧
      (0 < ((scannedBins samples.length sr).map (magnitude samples)).sum →
        ∃ k ∈ scannedBins samples.length sr,
          (∀ j ∈ scannedBins samples.length sr, magnitude samples j ≤ magnitude samples k) ∧
          (getFrequencyInfo magnitude samples sr).purity =
            magnitude samples k / ((scannedBins samples.length sr).map (magnitude samples)).sum) ∧
      ((∀ k ∈ scannedBins samples.length sr, magnitude samples k = 0) →
        (getFrequencyInfo magnitude samples sr).purity = 0 ∧
          (getFrequencyInfo magnitude samples sr).freq = 0) := by
  obtain ⟨h1, h2, h3, h4, h5⟩ := scan_invariant (magnitude samples) samples.length sr
    (scannedBins samples.length sr) (fun k _ => hnn k)
    { maxMag := 0, maxFreq := 0, totalMag := 0 } (le_refl 0)
  simp only [zero_add] at h1 h2 h4 h5
  have hpur : (getFrequencyInfo magnitude samples sr).purity =
      if (scanBins (magnitude samples) samples.length sr).totalMag > 0 then
        (scanBins (magnitude samples) samples.length sr).maxMag /
          (scanBins (magnitude samples) samples.length sr).totalMag
      else 0 := rfl
  have hfreq : (getFrequencyInfo magnitude samples sr).freq =
      (scanBins (magnitude samples) samples.length sr).maxFreq := rfl
  have htot : (scanBins (magnitude samples) samples.length sr).totalMag =
      ((scannedBins samples.length sr).map (magnitude samples)).sum := h1
  have hmax0 : 0 ≤ (scanBins (magnitude samples) samples.length sr).maxMag := h2
  have hmaxle : (scanBins (magnitude samples) samples.length sr).maxMag ≤
      ((scannedBins samples.length sr).map (magnitude samples)).sum := h5
  refine ⟨?_, ?_, ?_, ?_⟩
  · rw [hpur]
    split
    · exact div_nonneg hmax0 (le_of_lt (by assumption))
    · exact le_refl 0
  · rw [hpur]
    split
    · rename_i hpos
      rw [div_le_one hpos, htot]
      exact hmaxle
    · norm_num
  · intro hpos
    rcases h4 with ⟨h4a, _⟩ | ⟨k, hk, hke, _, _⟩
    · exfalso
      have hzero : ∀ x ∈ (scannedBins samples.length sr).map (magnitude samples), x = 0 := by
        intro x hx
        rw [List.mem_map] at hx
        obtain ⟨j, hj, hjx⟩ := hx
        have := h3 j hj
        have h0 := hnn j
        have hm : (scanBins (magnitude samples) samples.length sr).maxMag = 0 := h4a
        unfold scanBins at hm
        rw [hm] at this
        rw [← hjx]
        exact le_antisymm this h0
      rw [List.sum_eq_zero hzero] at hpos
      exact lt_irrefl 0 hpos
    · refine ⟨k, hk, ?_, ?_⟩
      · intro j hj
        rw [hke]
        exact h3 j hj
      · rw [hpur, htot, if_pos hpos, hke]
        rfl
  · intro hall
    have hzero : ∀ x ∈ (scannedBins samples.length sr).map (magnitude samples), x = 0 := by
      intro x hx
      rw [List.mem_map] at hx
      obtain ⟨j, hj, hjx⟩ := hx
      rw [← hjx]
      exact hall j hj
    have hsum := List.sum_eq_zero hzero
    refine ⟨?_, ?_⟩
    · rw [hpur, htot, hsum, if_neg (lt_irrefl 0)]
    · rw [hfreq]
      rcases h4 with ⟨_, h4b⟩ | ⟨k, hk, hke, _, hlt⟩
      · exact h4b
      · exfalso
        rw [← hke, hall k hk] at hlt
        exact lt_irrefl 0 hlt

/-- C18, at a frame of 1102 samples at 22050 Hz where bin 20 has magnitude 3
and the other 56 scanned bins magnitude 1: the purity is `3 / 59`. -/
theorem purity_in_unit_interval_witness :
    (getFrequencyInfo peakAtBin20 (List.replicate 1102 0) 22050).purity = 3 / 59 ∧
      0 ≤ (getFrequencyInfo peakAtBin20 (List.replicate 1102 0) 22050).purity ∧
      (getFrequencyInfo peakAtBin20 (List.replicate 1102 0) 22050).purity ≤ 1 :=
  have h := purity_in_unit_interval peakAtBin20 (List.replicate 1102 0) 22050
    (fun k => by unfold peakAtBin20; split <;> norm_num)
  ⟨by decide!, h.1, h.2.1⟩

/-! ## The drop lies outside the guard window, except for the fallback -/

theorem decideDrop_cases (beeps : List Beep) (silences : List Silence) (lst dur : ℚ) :
    (∃ b ∈ beeps, b.start > 3.0 ∧
        (decideDrop beeps silences lst dur).triggerType = TriggerType.beep ∧
        (decideDrop beeps silences lst dur).dropTimestamp = b.end_) ∨
      (∃ s ∈ silences, s.start > 3.0 ∧
        (decideDrop beeps silences lst dur).triggerType = TriggerType.silence ∧
        (decideDrop beeps silences lst dur).dropTimestamp = s.start + 0.2) ∨
      (lst > 3.0 ∧ (decideDrop beeps silences lst dur).triggerType = TriggerType.speech_end ∧
        (decideDrop beeps silences lst dur).dropTimestamp = lst + 0.4) ∨
      ((decideDrop beeps silences lst dur).triggerType = TriggerType.fallback ∧
        (decideDrop beeps silences lst dur).dropTimestamp = max 0 (dur - 0.5)) := by
  cases hb : (beeps.filter fun b => decide (b.start > 3.0)).getLast? with
  | some b =>
    left
    have hbm := List.mem_filter.mp (List.mem_of_getLast?_eq_some hb)
    obtain ⟨h1, _, h3⟩ := decideDrop_beep silences lst dur hb
    exact ⟨b, hbm.1, by simpa using hbm.2, h1, h3⟩
  | none =>
    right
    have hnb : ∀ b ∈ beeps, ¬ b.start > 3.0 := by
      intro b hbm
      have := List.filter_eq_nil_iff.mp (List.getLast?_eq_none_iff.mp hb) b hbm
      simpa using this
    cases hs : (silences.filter
        fun s => decide (s.start > 3.0) && decide (s.dur ≥ 0.8)).head? with
    | some s =>
      left
      have hsm := List.mem_filter.mp (List.mem_of_mem_head? hs)
      have hsq : s.start > 3.0 ∧ s.dur ≥ 0.8 := by simpa using hsm.2
      obtain ⟨h1, _, h3⟩ := decideDrop_silence lst dur hnb hs
      exact ⟨s, hsm.1, hsq.1, h1, h3⟩
    | none =>
      right
      have hns : ∀ s ∈ silences, ¬ (s.start > 3.0 ∧ s.dur ≥ 0.8) := by
        intro s hsm
        have := List.filter_eq_nil_iff.mp (List.head?_eq_none_iff.mp hs) s hsm
        simpa using this
      rw [decideDrop_rest lst dur hnb hns]
      by_cases hl : lst > 3.0
      · left
        rw [if_pos hl]
        exact ⟨hl, rfl, rfl⟩
      · right
        rw [if_neg hl]
        exact ⟨rfl, rfl⟩

/-- C24: the `dropTimestamp` that `analyzeAudio` returns is never negative;
it is above 3.0 for a beep trigger, above 3.2 for a silence trigger and above
3.4 for a speech-end trigger; so only a fallback result can place the drop
inside the guard window of 3.0 s. -/
theorem drop_outside_guard_window (E : List ℚ → ℚ) (F : List ℚ → ℚ → FreqInfo) (fuel : ℕ)
    (samples : List ℚ) (sr dur : ℚ) (r : Result) (hdur : 0 ≤ dur)
    (h : analyzeAudio E F fuel samples sr dur = some r) :
    0 ≤ r.dropTimestamp ∧
      (r.triggerType = TriggerType.beep → r.dropTimestamp > 3.0) ∧
      (r.triggerType = TriggerType.silence → r.dropTimestamp > 3.2) ∧
      (r.triggerType = TriggerType.speech_end → r.dropTimestamp > 3.4) ∧
      (r.dropTimestamp ≤ 3.0 → r.triggerType = TriggerType.fallback) := by
  have _hdur := hdur
  obtain ⟨_, hr⟩ := analyzeAudio_some h
  have hbeeps : ∀ b ∈ detectBeeps (hopSizeOf (chunkSizeOf sr)) sr
      (runFrames (analysedFrames E F samples sr) LoopState.init).allChunks,
      b.start + 0.10 ≤ b.end_ := by
    intro b hb
    obtain ⟨l, _, _, hev⟩ := mem_detectBeeps (allChunks_sorted E F samples sr) hb
    obtain ⟨_, _, _, _, e5, _, e7⟩ := evaluateGroup_some hev
    rw [e5] at e7
    linarith
  generalize detectBeeps (hopSizeOf (chunkSizeOf sr)) sr
    (runFrames (analysedFrames E F samples sr) LoopState.init).allChunks = beeps at hr hbeeps
  generalize (runFrames (analysedFrames E F samples sr) LoopState.init).silences = sil at hr
  generalize (runFrames (analysedFrames E F samples sr) LoopState.init).lastSpeechTime = lst at hr
  rw [hr]
  rcases decideDrop_cases beeps sil lst dur with
    ⟨b, hb, hbs, ht, hd⟩ | ⟨s, _, hss, ht, hd⟩ | ⟨hl, ht, hd⟩ | ⟨ht, hd⟩
  · have hend := hbeeps b hb
    have h3 : (3.0 : ℚ) < b.end_ := by
      norm_num at hbs hend ⊢
      linarith
    rw [ht, hd]
    refine ⟨?_, fun _ => h3, ?_, ?_, ?_⟩
    · norm_num at h3; linarith
    · intro hc; exact absurd hc (by decide)
    · intro hc; exact absurd hc (by decide)
    · intro hc; exact absurd hc (not_le.mpr h3)
  · have h3 : (3.2 : ℚ) < s.start + 0.2 := by
      norm_num at hss ⊢
      linarith
    rw [ht, hd]
    refine ⟨?_, ?_, fun _ => h3, ?_, ?_⟩
    · norm_num at h3; linarith
    · intro hc; exact absurd hc (by decide)
    · intro hc; exact absurd hc (by decide)
    · intro hc
      norm_num at h3 hc
      linarith
  · have h3 : (3.4 : ℚ) < lst + 0.4 := by
      norm_num at hl ⊢
      linarith
    rw [ht, hd]
    refine ⟨?_, ?_, ?_, fun _ => h3, ?_⟩
    · norm_num at h3; linarith
    · intro hc; exact absurd hc (by decide)
    · intro hc; exact absurd hc (by decide)
    · intro hc
      norm_num at h3 hc
      linarith
  · rw [ht, hd]
    refine ⟨le_max_left _ _, ?_, ?_, ?_, fun _ => rfl⟩
    · intro hc; exact absurd hc (by decide)
    · intro hc; exact absurd hc (by decide)
    · intro hc; exact absurd hc (by decide)

/-- C24, at the recording `speechSilenceTone`, whose beep trigger drops at
4.1 s. -/
theorem drop_outside_guard_window_witness :
    analyzeAudio headEnergy headTone 200 speechSilenceTone 40 (83 / 20) =
        some speechSilenceToneResult ∧
      speechSilenceToneResult.triggerType = TriggerType.beep ∧
      speechSilenceToneResult.dropTimestamp > 3.0 :=
  ⟨by decide!, rfl,
    (drop_outside_guard_window headEnergy headTone 200 speechSilenceTone 40 (83 / 20)
      speechSilenceToneResult (by decide!) (by decide!)).2.1 rfl⟩

/-! ## Every inner sample lies in two frames -/

theorem frameCount_lt {len chunk hop : ℤ} {k : ℕ} (hk : k < frameCount len chunk hop) :
    (k : ℤ) * hop < len - chunk := by
  have hhop : 1 ≤ hop := frameCount_pos_imp (Nat.not_eq_zero_of_lt hk)
  have hpos : 0 < hop := by omega
  simp only [frameCount, if_neg (not_le.mpr hpos)] at hk
  have h1 : ((k : ℤ) + 1) ≤ (len - chunk + hop - 1) / hop := by omega
  have h2 : (len - chunk + hop - 1) / hop * hop ≤ len - chunk + hop - 1 :=
    Int.ediv_mul_le _ (by omega)
  nlinarith

theorem slice_full (xs : List ℚ) (a len : ℤ) (ha : 0 ≤ a) (hlen : 0 ≤ len)
    (hfit : a + len ≤ (xs.length : ℤ)) :
    slice xs a (a + len) = (xs.drop a.toNat).take len.toNat ∧
      (slice xs a (a + len)).length = len.toNat := by
  have h1 : sliceIndex (xs.length : ℤ) a = a := by
    unfold sliceIndex
    rw [if_neg (by omega)]
    exact min_eq_left (by omega)
  have h2 : sliceIndex (xs.length : ℤ) (a + len) = a + len := by
    unfold sliceIndex
    rw [if_neg (by omega)]
    exact min_eq_left hfit
  have hs : slice xs a (a + len) = (xs.drop a.toNat).take len.toNat := by
    unfold slice
    simp only [h1, h2, add_sub_cancel_left]
  refine ⟨hs, ?_⟩
  rw [hs, List.length_take, List.length_drop]
  omega

/-- C23: at a sample rate of 40 or more, with `L = chunkSize`, `H = hopSize`
and analysed frames at the offsets `0, H, ..., J * H`, where frame `j` holds
the `L` samples of indices `j * H <= i < j * H + L`, every sample index `i`
with `H <= i < (J + 1) * H` lies inside at least two analysed frames. -/
theorem inner_sample_in_two_frames (samples : List ℚ) (sr : ℚ) (hsr : 40 ≤ sr) (i : ℤ)
    (hlo : hopSizeOf (chunkSizeOf sr) ≤ i)
    (hhi : i < (frameCount samples.length (chunkSizeOf sr) (hopSizeOf (chunkSizeOf sr)) : ℤ) *
      hopSizeOf (chunkSizeOf sr)) :
    (∃ j₁ j₂ : ℕ, j₁ ≠ j₂ ∧
      j₁ < frameCount samples.length (chunkSizeOf sr) (hopSizeOf (chunkSizeOf sr)) ∧
      j₂ < frameCount samples.length (chunkSizeOf sr) (hopSizeOf (chunkSizeOf sr)) ∧
      ((j₁ : ℤ) * hopSizeOf (chunkSizeOf sr) ≤ i ∧
        i < (j₁ : ℤ) * hopSizeOf (chunkSizeOf sr) + chunkSizeOf sr) ∧
      ((j₂ : ℤ) * hopSizeOf (chunkSizeOf sr) ≤ i ∧
        i < (j₂ : ℤ) * hopSizeOf (chunkSizeOf sr) + chunkSizeOf sr)) ∧
    (∀ (E : List ℚ → ℚ) (F : List ℚ → ℚ → FreqInfo),
      (analysedFrames E F samples sr).length =
        frameCount samples.length (chunkSizeOf sr) (hopSizeOf (chunkSizeOf sr))) ∧
    (∀ j : ℕ, j < frameCount samples.length (chunkSizeOf sr) (hopSizeOf (chunkSizeOf sr)) →
      slice samples ((j : ℤ) * hopSizeOf (chunkSizeOf sr))
          ((j : ℤ) * hopSizeOf (chunkSizeOf sr) + chunkSizeOf sr) =
        (samples.drop (j * (hopSizeOf (chunkSizeOf sr)).toNat)).take (chunkSizeOf sr).toNat ∧
      (slice samples ((j : ℤ) * hopSizeOf (chunkSizeOf sr))
          ((j : ℤ) * hopSizeOf (chunkSizeOf sr) + chunkSizeOf sr)).length =
        (chunkSizeOf sr).toNat) := by
  have hH : 1 ≤ hopSizeOf (chunkSizeOf sr) := hopSizeOf_pos_of_rate hsr
  have hL : 2 * hopSizeOf (chunkSizeOf sr) ≤ chunkSizeOf sr := by
    have h1 : ((hopSizeOf (chunkSizeOf sr) : ℤ) : ℚ) ≤ (chunkSizeOf sr : ℚ) / 2 := by
      unfold hopSizeOf
      exact Int.floor_le _
    have h2 : ((2 * hopSizeOf (chunkSizeOf sr) : ℤ) : ℚ) ≤ ((chunkSizeOf sr : ℤ) : ℚ) := by
      push_cast
      linarith
    exact_mod_cast h2
  have hlen : ∀ (E : List ℚ → ℚ) (F : List ℚ → ℚ → FreqInfo),
      (analysedFrames E F samples sr).length =
        frameCount samples.length (chunkSizeOf sr) (hopSizeOf (chunkSizeOf sr)) := by
    intro E F
    unfold analysedFrames
    simp
  generalize hopSizeOf (chunkSizeOf sr) = H at hlo hhi hH hL hlen ⊢
  generalize chunkSizeOf sr = L at hhi hL hlen ⊢
  generalize hc : frameCount (samples.length : ℤ) L H = c at hhi hlen ⊢
  have hpos : 0 < H := by omega
  refine ⟨?_, ?_, ?_⟩
  · have hq1 : i / H * H ≤ i := Int.ediv_mul_le _ (by omega)
    have hq2 : i < (i / H + 1) * H := Int.lt_ediv_add_one_mul_self _ hpos
    generalize i / H = q at hq1 hq2
    have hq3 : 1 ≤ q := by
      by_contra hcon
      have : q ≤ 0 := by omega
      nlinarith
    have hq4 : q < (c : ℤ) := by
      by_contra hcon
      have : (c : ℤ) ≤ q := by omega
      nlinarith
    have e2 : ((q.toNat : ℕ) : ℤ) = q := Int.toNat_of_nonneg (by omega)
    have e1 : (((q - 1).toNat : ℕ) : ℤ) = q - 1 := Int.toNat_of_nonneg (by omega)
    refine ⟨(q - 1).toNat, q.toNat, by omega, by omega, by omega, ?_, ?_⟩
    · rw [e1]
      constructor <;> nlinarith
    · rw [e2]
      constructor <;> nlinarith
  · exact hlen
  · intro j hj
    rw [← hc] at hj
    have hlt := frameCount_lt hj
    have hj0 : (0 : ℤ) ≤ (j : ℤ) * H := by positivity
    have hs := slice_full samples ((j : ℤ) * H) L hj0 (by omega) (by omega)
    have e : ((j : ℤ) * H).toNat = j * H.toNat := by
      have hHn : ((H.toNat : ℕ) : ℤ) = H := Int.toNat_of_nonneg (by omega)
      have : ((j : ℤ) * H) = ((j * H.toNat : ℕ) : ℤ) := by push_cast; rw [hHn]
      rw [this, Int.toNat_ofNat]
    rw [e] at hs
    exact hs

/-- C23, at ten samples at 40 Hz (`L = 2`, `H = 1`, eight frames): the sample
of index 3 lies in two of them. -/
theorem inner_sample_in_two_frames_witness :
    ∃ j₁ j₂ : ℕ, j₁ ≠ j₂ ∧
      j₁ < frameCount (List.replicate 10 (0 : ℚ)).length (chunkSizeOf 40)
        (hopSizeOf (chunkSizeOf 40)) ∧
      j₂ < frameCount (List.replicate 10 (0 : ℚ)).length (chunkSizeOf 40)
        (hopSizeOf (chunkSizeOf 40)) ∧
      ((j₁ : ℤ) * hopSizeOf (chunkSizeOf 40) ≤ 3 ∧
        (3 : ℤ) < (j₁ : ℤ) * hopSizeOf (chunkSizeOf 40) + chunkSizeOf 40) ∧
      ((j₂ : ℤ) * hopSizeOf (chunkSizeOf 40) ≤ 3 ∧
        (3 : ℤ) < (j₂ : ℤ) * hopSizeOf (chunkSizeOf 40) + chunkSizeOf 40) :=
  (inner_sample_in_two_frames (List.replicate 10 0) 40 (le_refl 40) 3 (by decide!)
    (by decide!)).1

/-! ## A speech-end drop after the end of the recording -/

theorem silenceRunsSpec_loud (l : List (ℚ × ℚ)) (h : ∀ f ∈ l, ¬ f.2 < 0.01) :
    silenceRunsSpec l = [] := by
  induction l with
  | nil => simp [silenceRunsSpec]
  | cons f l ih =>
    obtain ⟨s, e⟩ := f
    rw [silenceRunsSpec_cons, if_neg (h (s, e) (List.mem_cons_self _ _))]
    exact ih (fun g hg => h g (List.mem_cons_of_mem _ hg))

/-- C25: a recording of 192000 samples at 48000 Hz (4 s, with
`duration = samples.length / sampleRate`) whose frames all have
`energy > 0.015` and give no tonal chunk has its last frame at 3.925 s, and
`analyzeAudio` returns the speech-end trigger with
`dropTimestamp = 3.925 + 0.4`, which is after the end of the recording: the
speech-end branch does not clamp to the duration. -/
theorem speech_end_past_duration (E : List ℚ → ℚ) (F : List ℚ → ℚ → FreqInfo) (fuel : ℕ)
    (samples : List ℚ) (hlen : samples.length = 192000) (hfuel : 158 ≤ fuel)
    (hloud : ∀ f ∈ analysedFrames E F samples 48000, f.energy > 0.015 ∧ toChunk f = none) :
    ∃ r, analyzeAudio E F fuel samples 48000 ((samples.length : ℚ) / 48000) = some r ∧
      r.triggerType = TriggerType.speech_end ∧ r.speechEnd = 157 / 40 ∧
      r.dropTimestamp = r.speechEnd + 0.4 ∧ r.dropTimestamp > (samples.length : ℚ) / 48000 := by
  have hc : chunkSizeOf 48000 = 2400 := by decide!
  have hh : hopSizeOf (chunkSizeOf 48000) = 1200 := by decide!
  have hcount : frameCount (samples.length : ℤ) (chunkSizeOf 48000)
      (hopSizeOf (chunkSizeOf 48000)) = 158 := by
    rw [hh, hc, hlen]; decide
  have hret := analyzeAudio_returns E F samples 48000 ((samples.length : ℚ) / 48000) fuel
    (by norm_num) (by rw [hcount]; exact hfuel)
  have hchunks : (runFrames (analysedFrames E F samples 48000) LoopState.init).allChunks = [] := by
    rw [runFrames_allChunks]
    simp only [LoopState.init, List.nil_append, List.filterMap_eq_nil_iff]
    exact fun f hf => (hloud f hf).2
  have hsil : (runFrames (analysedFrames E F samples 48000) LoopState.init).silences = [] := by
    rw [(runFrames_silences _ LoopState.init).1 rfl]
    simp only [LoopState.init, List.nil_append]
    apply silenceRunsSpec_loud
    intro g hg
    rw [List.mem_map] at hg
    obtain ⟨f, hf, hfg⟩ := hg
    rw [← hfg]
    have := (hloud f hf).1
    simp only
    intro hq
    have h1 : (0.01 : ℚ) < 0.015 := by norm_num
    linarith
  have hframes : analysedFrames E F samples 48000 =
      (List.range 157).map (fun (k : ℕ) =>
        frameAt E F samples 48000 (chunkSizeOf 48000) ((k : ℤ) * hopSizeOf (chunkSizeOf 48000))) ++
      [frameAt E F samples 48000 (chunkSizeOf 48000)
        (((157 : ℕ) : ℤ) * hopSizeOf (chunkSizeOf 48000))] := by
    unfold analysedFrames
    simp only [hcount]
    rw [List.range_succ, List.map_append]
    rfl
  have hfilter : (analysedFrames E F samples 48000).filter
      (fun f => decide (f.energy > 0.015)) = analysedFrames E F samples 48000 := by
    rw [List.filter_eq_self]
    intro f hf
    simpa using (hloud f hf).1
  have hlst : (runFrames (analysedFrames E F samples 48000) LoopState.init).lastSpeechTime =
      157 / 40 := by
    rw [runFrames_lastSpeechTime, hfilter, hframes, List.getLast?_append]
    simp [frameAt, hh]
    norm_num
  rw [hchunks, hsil, hlst] at hret
  have hdet : detectBeeps (hopSizeOf (chunkSizeOf 48000)) 48000 [] = [] := by
    simp [detectBeeps]
  rw [hdet, decideDrop_rest (157 / 40) _ (by simp) (by simp), if_pos (by norm_num)] at hret
  refine ⟨_, hret, rfl, rfl, rfl, ?_⟩
  rw [hlen]
  norm_num

/-- C25, at 4 s of a steady signal of energy 1/2 without tonal content. -/
theorem speech_end_past_duration_witness :
    ∃ r, analyzeAudio steadyEnergy noTone 158 fourSeconds 48000
        ((fourSeconds.length : ℚ) / 48000) = some r ∧
      r.triggerType = TriggerType.speech_end ∧ r.speechEnd = 157 / 40 ∧
      r.dropTimestamp = r.speechEnd + 0.4 ∧
      r.dropTimestamp > (fourSeconds.length : ℚ) / 48000 :=
  speech_end_past_duration steadyEnergy noTone 158 fourSeconds
    (List.length_replicate 192000 (1 / 2)) (le_refl 158)
    (by
      intro f hf
      unfold analysedFrames at hf
      simp only [List.mem_map] at hf
      obtain ⟨k, _, hk⟩ := hf
      rw [← hk]
      refine ⟨?_, ?_⟩
      · simp only [frameAt, steadyEnergy]
        norm_num
      · simp only [toChunk, frameAt, noTone]
        norm_num)
/-! ## The confidence written by the export -/

/-- C22, the code at a beep result: `handleExport` of `components.jsx` writes
`confidence: r.confidence`, the fraction 0.95, which is neither an integer nor
95, while `handleExport` of `App.jsx` writes `Math.round(confidence * 100)`,
which is 95 for a beep, 75 for a silence, 60 for a speech end, 40 for the
fallback and 0 for an error. -/
theorem export_confidence_is_fraction :
    exportConfidence
        (ResultEntry.analysed "a.wav" (83 / 20) speechSilenceTone 40 speechSilenceToneResult) =
        0.95 ∧
      (∀ n : ℤ, exportConfidence
        (ResultEntry.analysed "a.wav" (83 / 20) speechSilenceTone 40 speechSilenceToneResult) ≠
          (n : ℚ)) ∧
      exportConfidenceRounded 0.95 = 95 ∧ exportConfidenceRounded 0.75 = 75 ∧
      exportConfidenceRounded 0.60 = 60 ∧ exportConfidenceRounded 0.40 = 40 ∧
      exportConfidenceRounded 0 = 0 := by
  have he : exportConfidence
      (ResultEntry.analysed "a.wav" (83 / 20) speechSilenceTone 40 speechSilenceToneResult) =
      19 / 20 := rfl
  refine ⟨by rw [he]; norm_num, ?_, by decide!, by decide!, by decide!, by decide!, by decide!⟩
  intro n hn
  rw [he] at hn
  have h1 : (0 : ℚ) < (n : ℚ) := by rw [← hn]; norm_num
  have h2 : (n : ℚ) < 1 := by rw [← hn]; norm_num
  have h3 : (0 : ℤ) < n := by exact_mod_cast h1
  have h4 : n < (1 : ℤ) := by exact_mod_cast h2
  omega
/-! ## Rounding to double precision: order and error -/

theorem halvings_spec : ∀ (fuel n : ℕ), 1 ≤ n → n ≤ fuel →
    2 ^ Double.halvings fuel n ≤ n ∧ n < 2 ^ (Double.halvings fuel n + 1) := by
  intro fuel
  induction fuel with
  | zero => intro n h1 h2; omega
  | succ fuel ih =>
    intro n h1 h2
    simp only [Double.halvings]
    split
    · obtain ⟨a, b⟩ := ih (n / 2) (by omega) (by omega)
      constructor
      · rw [pow_succ]; omega
      · rw [pow_succ]; omega
    · simp; omega

theorem pow2_eq (e : ℤ) : Double.pow2 e = (2 : ℚ) ^ e := by
  unfold Double.pow2
  split
  · rename_i h
    obtain ⟨n, rfl⟩ := Int.eq_ofNat_of_zero_le h
    simp
  · rename_i h
    have hn : ((-e).toNat : ℤ) = -e := Int.toNat_of_nonneg (by omega)
    have he : e = -((-e).toNat : ℤ) := by omega
    rw [Nat.cast_pow, Nat.cast_ofNat, one_div, ← zpow_natCast, ← zpow_neg, ← he]

theorem pow2_pos (e : ℤ) : 0 < Double.pow2 e := by
  rw [pow2_eq]; positivity

theorem pow2_le {a b : ℤ} (h : a ≤ b) : Double.pow2 a ≤ Double.pow2 b := by
  rw [pow2_eq, pow2_eq]
  exact zpow_le_zpow_right₀ (by norm_num) h

theorem pow2_add (a b : ℤ) : Double.pow2 (a + b) = Double.pow2 a * Double.pow2 b := by
  rw [pow2_eq, pow2_eq, pow2_eq, zpow_add₀ (by norm_num)]

theorem exponentOf_spec {a : ℚ} (ha : 0 < a) :
    Double.pow2 (Double.exponentOf a) ≤ a ∧ a < Double.pow2 (Double.exponentOf a + 1) := by
  have hnum : 0 < a.num := Rat.num_pos.mpr ha
  have hN : 1 ≤ a.num.toNat := by omega
  have hD : 1 ≤ a.den := a.den_pos
  obtain ⟨n1, n2⟩ := halvings_spec a.num.toNat a.num.toNat hN (le_refl _)
  obtain ⟨d1, d2⟩ := halvings_spec a.den a.den hD (le_refl _)
  have hcast : ((a.num.toNat : ℕ) : ℚ) = (a.num : ℚ) := by
    have : ((a.num.toNat : ℕ) : ℤ) = a.num := Int.toNat_of_nonneg (le_of_lt hnum)
    exact_mod_cast congrArg (fun z : ℤ => (z : ℚ)) this
  have ha' : a = (a.num.toNat : ℚ) / (a.den : ℚ) := by
    rw [hcast]; exact (Rat.num_div_den a).symm
  have hDq : (0 : ℚ) < (a.den : ℚ) := by exact_mod_cast hD
  have n1q : (2 : ℚ) ^ Double.halvings a.num.toNat a.num.toNat ≤ (a.num.toNat : ℚ) := by
    exact_mod_cast n1
  have n2q : (a.num.toNat : ℚ) < (2 : ℚ) ^ (Double.halvings a.num.toNat a.num.toNat + 1) := by
    exact_mod_cast n2
  have d1q : (2 : ℚ) ^ Double.halvings a.den a.den ≤ (a.den : ℚ) := by exact_mod_cast d1
  have d2q : (a.den : ℚ) < (2 : ℚ) ^ (Double.halvings a.den a.den + 1) := by exact_mod_cast d2
  unfold Double.exponentOf
  simp only
  generalize Double.halvings a.num.toNat a.num.toNat = hn at n1q n2q ⊢
  generalize Double.halvings a.den a.den = hd at d1q d2q ⊢
  have hlow : Double.pow2 ((hn : ℤ) - (hd : ℤ) - 1) ≤ a := by
    rw [pow2_eq, ha', le_div_iff₀ hDq]
    have e : (2 : ℚ) ^ ((hn : ℤ) - (hd : ℤ) - 1) * (2 : ℚ) ^ (hd + 1) = (2 : ℚ) ^ hn := by
      rw [← zpow_natCast (2 : ℚ) (hd + 1), ← zpow_add₀ (by norm_num : (2 : ℚ) ≠ 0),
        ← zpow_natCast (2 : ℚ) hn]
      congr 1
      push_cast
      ring
    have hp : (0 : ℚ) < (2 : ℚ) ^ ((hn : ℤ) - (hd : ℤ) - 1) := by positivity
    calc (2 : ℚ) ^ ((hn : ℤ) - (hd : ℤ) - 1) * (a.den : ℚ)
        ≤ (2 : ℚ) ^ ((hn : ℤ) - (hd : ℤ) - 1) * (2 : ℚ) ^ (hd + 1) :=
          mul_le_mul_of_nonneg_left (le_of_lt d2q) (le_of_lt hp)
      _ = (2 : ℚ) ^ hn := e
      _ ≤ (a.num.toNat : ℚ) := n1q
  have hup : a < Double.pow2 ((hn : ℤ) - (hd : ℤ) + 1) := by
    rw [pow2_eq, ha', div_lt_iff₀ hDq]
    have e : (2 : ℚ) ^ ((hn : ℤ) - (hd : ℤ) + 1) * (2 : ℚ) ^ hd = (2 : ℚ) ^ (hn + 1) := by
      rw [← zpow_natCast (2 : ℚ) hd, ← zpow_add₀ (by norm_num : (2 : ℚ) ≠ 0),
        ← zpow_natCast (2 : ℚ) (hn + 1)]
      congr 1
      push_cast
      ring
    have hp : (0 : ℚ) < (2 : ℚ) ^ ((hn : ℤ) - (hd : ℤ) + 1) := by positivity
    calc (a.num.toNat : ℚ) < (2 : ℚ) ^ (hn + 1) := n2q
      _ = (2 : ℚ) ^ ((hn : ℤ) - (hd : ℤ) + 1) * (2 : ℚ) ^ hd := e.symm
      _ ≤ (2 : ℚ) ^ ((hn : ℤ) - (hd : ℤ) + 1) * (a.den : ℚ) :=
          mul_le_mul_of_nonneg_left d1q (le_of_lt hp)
  split
  · rename_i h
    exact ⟨h, hup⟩
  · rename_i h
    refine ⟨hlow, ?_⟩
    have e : (hn : ℤ) - (hd : ℤ) - 1 + 1 = (hn : ℤ) - (hd : ℤ) := by ring
    rw [e]
    exact not_le.mp h
theorem roundHalfEven_floor (m : ℚ) :
    ⌊m⌋ ≤ Double.roundHalfEven m ∧ Double.roundHalfEven m ≤ ⌊m⌋ + 1 := by
  unfold Double.roundHalfEven
  simp only
  split
  · omega
  · split
    · omega
    · split <;> omega

theorem roundHalfEven_bounds (m : ℚ) :
    (Double.roundHalfEven m : ℚ) - 1 / 2 ≤ m ∧ m ≤ (Double.roundHalfEven m : ℚ) + 1 / 2 := by
  have h1 : ((⌊m⌋ : ℤ) : ℚ) ≤ m := Int.floor_le m
  have h2 : m < ((⌊m⌋ : ℤ) : ℚ) + 1 := Int.lt_floor_add_one m
  unfold Double.roundHalfEven
  simp only
  split
  · rename_i h
    constructor <;> linarith
  · rename_i h
    split
    · rename_i h'
      push_cast
      constructor <;> linarith
    · rename_i h'
      have he : m - ((⌊m⌋ : ℤ) : ℚ) = 1 / 2 := le_antisymm (not_lt.mp h') (not_lt.mp h)
      split
      · constructor <;> linarith
      · push_cast
        constructor <;> linarith

theorem roundHalfEven_intCast (n : ℤ) : Double.roundHalfEven (n : ℚ) = n := by
  unfold Double.roundHalfEven
  simp

theorem roundHalfEven_mono {a b : ℚ} (h : a ≤ b) :
    Double.roundHalfEven a ≤ Double.roundHalfEven b := by
  have hf : ⌊a⌋ ≤ ⌊b⌋ := Int.floor_mono h
  rcases lt_or_eq_of_le hf with hlt | heq
  · have h1 := (roundHalfEven_floor a).2
    have h2 := (roundHalfEven_floor b).1
    omega
  · have hb := roundHalfEven_floor b
    unfold Double.roundHalfEven
    simp only
    rw [heq]
    by_cases h1 : a - ((⌊b⌋ : ℤ) : ℚ) < 1 / 2
    · rw [if_pos h1]
      split
      · exact le_refl _
      · split
        · omega
        · split <;> omega
    · rw [if_neg h1]
      by_cases h2 : a - ((⌊b⌋ : ℤ) : ℚ) > 1 / 2
      · rw [if_pos h2]
        have h3 : ¬ b - ((⌊b⌋ : ℤ) : ℚ) < 1 / 2 := by
          intro hc; linarith
        have h4 : b - ((⌊b⌋ : ℤ) : ℚ) > 1 / 2 := by linarith
        rw [if_neg h3, if_pos h4]
      · rw [if_neg h2]
        have h3 : ¬ b - ((⌊b⌋ : ℤ) : ℚ) < 1 / 2 := by
          intro hc
          have := not_lt.mp h1
          linarith
        rw [if_neg h3]
        by_cases h4 : b - ((⌊b⌋ : ℤ) : ℚ) > 1 / 2
        · rw [if_pos h4]
          split <;> omega
        · rw [if_neg h4]

theorem roundDouble_of_pos {x : ℚ} (hx : 0 < x) :
    Double.roundDouble x =
      (Double.roundHalfEven (x / Double.pow2 (max (Double.exponentOf x) (-1022) - 52)) : ℚ) *
        Double.pow2 (max (Double.exponentOf x) (-1022) - 52) := by
  unfold Double.roundDouble
  simp only [if_neg hx.ne', abs_of_pos hx, if_neg (not_lt.mpr hx.le), one_mul]

theorem roundDouble_nonneg {x : ℚ} (hx : 0 ≤ x) : 0 ≤ Double.roundDouble x := by
  rcases eq_or_lt_of_le hx with h | h
  · rw [← h]; simp [Double.roundDouble]
  · rw [roundDouble_of_pos h]
    apply mul_nonneg _ (le_of_lt (pow2_pos _))
    have h0 : (0 : ℚ) ≤ x / Double.pow2 (max (Double.exponentOf x) (-1022) - 52) :=
      div_nonneg hx (le_of_lt (pow2_pos _))
    have := roundHalfEven_mono h0
    have e : Double.roundHalfEven (0 : ℚ) = 0 := by
      have := roundHalfEven_intCast 0
      simpa using this
    rw [e] at this
    exact_mod_cast this

theorem roundDouble_nonpos {x : ℚ} (hx : x ≤ 0) : Double.roundDouble x ≤ 0 := by
  rcases eq_or_lt_of_le hx with h | h
  · rw [h]; simp [Double.roundDouble]
  · unfold Double.roundDouble
    simp only [if_neg h.ne, if_pos h, abs_of_neg h]
    have h0 : (0 : ℚ) ≤ -x / Double.pow2 (max (Double.exponentOf (-x)) (-1022) - 52) :=
      div_nonneg (by linarith) (le_of_lt (pow2_pos _))
    have := roundHalfEven_mono h0
    have e : Double.roundHalfEven (0 : ℚ) = 0 := by
      have := roundHalfEven_intCast 0
      simpa using this
    rw [e] at this
    have h1 : (0 : ℚ) ≤ (Double.roundHalfEven
        (-x / Double.pow2 (max (Double.exponentOf (-x)) (-1022) - 52)) : ℚ) := by
      exact_mod_cast this
    have h2 := pow2_pos (max (Double.exponentOf (-x)) (-1022) - 52)
    nlinarith [mul_nonneg h1 (le_of_lt h2)]

theorem pow2_natCast (n : ℕ) : Double.pow2 (n : ℤ) = (((2 : ℤ) ^ n : ℤ) : ℚ) := by
  rw [pow2_eq]; push_cast; rw [zpow_natCast]

theorem roundDouble_ge_pow2 {x : ℚ} (hx : 0 < x) {k : ℤ} (hk : Double.pow2 k ≤ x)
    (hE : max (Double.exponentOf x) (-1022) ≤ k + 52) : Double.pow2 k ≤ Double.roundDouble x := by
  rw [roundDouble_of_pos hx]
  generalize max (Double.exponentOf x) (-1022) = E at hE ⊢
  obtain ⟨n, hn⟩ := Int.eq_ofNat_of_zero_le (by omega : 0 ≤ k - (E - 52))
  have hq := pow2_pos (E - 52)
  have hk' : Double.pow2 k = Double.pow2 (n : ℤ) * Double.pow2 (E - 52) := by
    rw [← pow2_add]; congr 1; omega
  have h1 : Double.pow2 (n : ℤ) ≤ x / Double.pow2 (E - 52) := by
    rw [le_div_iff₀ hq, ← hk']; exact hk
  rw [pow2_natCast] at h1
  have h2 := roundHalfEven_mono h1
  rw [roundHalfEven_intCast] at h2
  rw [hk', pow2_natCast]
  apply mul_le_mul_of_nonneg_right _ (le_of_lt hq)
  exact_mod_cast h2

theorem roundDouble_le_pow2 {x : ℚ} (hx : 0 < x) {k : ℤ} (hk : x ≤ Double.pow2 k)
    (hE : max (Double.exponentOf x) (-1022) - 52 ≤ k) : Double.roundDouble x ≤ Double.pow2 k := by
  rw [roundDouble_of_pos hx]
  generalize max (Double.exponentOf x) (-1022) = E at hE ⊢
  obtain ⟨n, hn⟩ := Int.eq_ofNat_of_zero_le (by omega : 0 ≤ k - (E - 52))
  have hq := pow2_pos (E - 52)
  have hk' : Double.pow2 k = Double.pow2 (n : ℤ) * Double.pow2 (E - 52) := by
    rw [← pow2_add]; congr 1; omega
  have h1 : x / Double.pow2 (E - 52) ≤ Double.pow2 (n : ℤ) := by
    rw [div_le_iff₀ hq, ← hk']; exact hk
  rw [pow2_natCast] at h1
  have h2 := roundHalfEven_mono h1
  rw [roundHalfEven_intCast] at h2
  rw [hk', pow2_natCast]
  apply mul_le_mul_of_nonneg_right _ (le_of_lt hq)
  exact_mod_cast h2

theorem exponentOf_mono {x y : ℚ} (hx : 0 < x) (hxy : x ≤ y) :
    Double.exponentOf x ≤ Double.exponentOf y := by
  have h1 := (exponentOf_spec hx).1
  have h2 := (exponentOf_spec (lt_of_lt_of_le hx hxy)).2
  by_contra hc
  have h3 : Double.exponentOf y + 1 ≤ Double.exponentOf x := by omega
  have := pow2_le h3
  linarith

/-- Rounding to the nearest double keeps the order of non-negative numbers. -/
theorem roundDouble_mono {x y : ℚ} (hx : 0 ≤ x) (hxy : x ≤ y) :
    Double.roundDouble x ≤ Double.roundDouble y := by
  rcases eq_or_lt_of_le hx with h0 | hpos
  · rw [← h0]
    have : Double.roundDouble 0 = 0 := by simp [Double.roundDouble]
    rw [this]
    exact roundDouble_nonneg (le_trans hx hxy)
  · have hy : 0 < y := lt_of_lt_of_le hpos hxy
    have he := exponentOf_mono hpos hxy
    have hE : max (Double.exponentOf x) (-1022) ≤ max (Double.exponentOf y) (-1022) :=
      max_le_max he (le_refl _)
    rcases eq_or_lt_of_le hE with heq | hlt
    · rw [roundDouble_of_pos hpos, roundDouble_of_pos hy, heq]
      have hq := pow2_pos (max (Double.exponentOf y) (-1022) - 52)
      apply mul_le_mul_of_nonneg_right _ (le_of_lt hq)
      have : x / Double.pow2 (max (Double.exponentOf y) (-1022) - 52) ≤
          y / Double.pow2 (max (Double.exponentOf y) (-1022) - 52) :=
        div_le_div_of_nonneg_right hxy (le_of_lt hq)
      exact_mod_cast roundHalfEven_mono this
    · have hEy : max (Double.exponentOf y) (-1022) = Double.exponentOf y := by
        apply max_eq_left
        have : -1022 ≤ max (Double.exponentOf x) (-1022) := le_max_right _ _
        by_contra hc
        have h1 : max (Double.exponentOf y) (-1022) = -1022 := max_eq_right (by omega)
        omega
      have hlow : Double.pow2 (Double.exponentOf y) ≤ Double.roundDouble y :=
        roundDouble_ge_pow2 hy (exponentOf_spec hy).1 (by rw [hEy]; omega)
      have hup : Double.roundDouble x ≤ Double.pow2 (max (Double.exponentOf x) (-1022) + 1) := by
        apply roundDouble_le_pow2 hpos _ (by omega)
        apply le_trans (le_of_lt (exponentOf_spec hpos).2)
        apply pow2_le
        have := le_max_left (Double.exponentOf x) (-1022)
        omega
      have hmid : Double.pow2 (max (Double.exponentOf x) (-1022) + 1) ≤
          Double.pow2 (Double.exponentOf y) := by
        apply pow2_le
        rw [hEy] at hlt
        omega
      linarith

/-- The relative error of rounding a number of the normal range is at most
`2 ^ (-53)`. -/
theorem roundDouble_error {x : ℚ} (hx : Double.pow2 (-1022) ≤ x) :
    x * (1 - 1 / 2 ^ 53) ≤ Double.roundDouble x ∧ Double.roundDouble x ≤ x * (1 + 1 / 2 ^ 53) := by
  have hpos : 0 < x := lt_of_lt_of_le (pow2_pos _) hx
  obtain ⟨s1, s2⟩ := exponentOf_spec hpos
  have hex : -1022 ≤ Double.exponentOf x := by
    by_contra hc
    have h3 : Double.exponentOf x + 1 ≤ -1022 := by omega
    have := pow2_le h3
    linarith
  rw [roundDouble_of_pos hpos, max_eq_left hex]
  generalize Double.exponentOf x = e at s1 s2 hex ⊢
  have hq := pow2_pos (e - 52)
  obtain ⟨b1, b2⟩ := roundHalfEven_bounds (x / Double.pow2 (e - 52))
  generalize (Double.roundHalfEven (x / Double.pow2 (e - 52)) : ℚ) = m at b1 b2 ⊢
  have hx' : x / Double.pow2 (e - 52) * Double.pow2 (e - 52) = x := div_mul_cancel₀ x hq.ne'
  have he : Double.pow2 e = 2 ^ 52 * Double.pow2 (e - 52) := by
    have : e = 52 + (e - 52) := by ring
    conv_lhs => rw [this, pow2_add]
    congr 1
  have c1 : (m - 1 / 2) * Double.pow2 (e - 52) ≤ x := by
    rw [← hx']; exact mul_le_mul_of_nonneg_right b1 (le_of_lt hq)
  have c2 : x ≤ (m + 1 / 2) * Double.pow2 (e - 52) := by
    conv_lhs => rw [← hx']
    exact mul_le_mul_of_nonneg_right b2 (le_of_lt hq)
  have c3 : 2 ^ 52 * Double.pow2 (e - 52) ≤ x := by rw [← he]; exact s1
  generalize Double.pow2 (e - 52) = q at hq c1 c2 c3
  constructor
  · have : x * (1 / 2 ^ 53) ≥ q / 2 := by
      have : x * (1 / 2 ^ 53) ≥ 2 ^ 52 * q * (1 / 2 ^ 53) :=
        mul_le_mul_of_nonneg_right c3 (by positivity)
      have e2 : (2 : ℚ) ^ 52 * q * (1 / 2 ^ 53) = q / 2 := by
        field_simp; ring
      linarith
    linarith
  · have : x * (1 / 2 ^ 53) ≥ q / 2 := by
      have : x * (1 / 2 ^ 53) ≥ 2 ^ 52 * q * (1 / 2 ^ 53) :=
        mul_le_mul_of_nonneg_right c3 (by positivity)
      have e2 : (2 : ℚ) ^ 52 * q * (1 / 2 ^ 53) = q / 2 := by
        field_simp; ring
      linarith
    linarith

/-- The rounding at well-known values: the double of `0.1`, the sum
`0.1 + 0.2 = 0.30000000000000004`, and two square roots. -/
theorem roundDouble_examples :
    Double.lit 0.1 = 3602879701896397 / 2 ^ 55 ∧
      Double.fadd (Double.lit 0.1) (Double.lit 0.2) = Double.lit 0.30000000000000004 ∧
      Double.fadd (Double.lit 0.1) (Double.lit 0.2) ≠ Double.lit 0.3 ∧
      Double.sqrt 2 = Double.lit 1.4142135623730951 ∧ Double.sqrt 225 = 15 ∧
      Double.sqrt (Double.lit 0.1) = Double.lit 0.31622776601683794 := by
  refine ⟨by decide!, by decide!, by decide!, by decide!, by decide!, by decide!⟩
/-! ## The frame loop in double precision -/

theorem double_frameLoop_some {E : List ℚ → ℚ} {F : List ℚ → ℚ → FreqInfo} {samples : List ℚ}
    {sr : ℚ} {chunk hop : ℤ} :
    ∀ (fuel : ℕ) (i : ℤ) (st st' : LoopState),
      Double.frameLoop E F samples sr chunk hop fuel i st = some st' →
      ∃ n : ℕ, n ≤ fuel ∧
        st' = Double.runFrames ((List.range n).map fun (k : ℕ) =>
          Double.frameAt E F samples sr chunk (i + (k : ℤ) * hop)) st ∧
        (∀ k : ℕ, k < n → i + (k : ℤ) * hop < (samples.length : ℤ) - chunk) ∧
        ¬ (i + (n : ℤ) * hop < (samples.length : ℤ) - chunk) := by
  intro fuel
  induction fuel with
  | zero =>
    intro i st st' h
    simp only [Double.frameLoop] at h
    split at h
    · exact absurd h (by simp)
    · rename_i hc
      refine ⟨0, le_refl _, ?_, ?_, ?_⟩
      · simpa [Double.runFrames] using (Option.some.inj h).symm
      · intro k hk; exact absurd hk (Nat.not_lt_zero _)
      · simpa using hc
  | succ fuel ih =>
    intro i st st' h
    simp only [Double.frameLoop] at h
    split at h
    · rename_i hc
      obtain ⟨n, hn, hst, hlt, hge⟩ := ih _ _ _ h
      refine ⟨n + 1, Nat.succ_le_succ hn, ?_, ?_, ?_⟩
      · rw [hst, List.range_succ_eq_map, List.map_cons, List.map_map]
        simp only [Double.runFrames, List.foldl_cons, Nat.cast_zero, zero_mul, add_zero]
        congr 1
        apply List.map_congr_left
        intro k _
        simp only [Function.comp, Nat.cast_succ]
        congr 1
        ring
      · intro k hk
        cases k with
        | zero => simpa using hc
        | succ k =>
          have := hlt k (Nat.lt_of_succ_lt_succ hk)
          have e : i + ((k + 1 : ℕ) : ℤ) * hop = i + hop + (k : ℤ) * hop := by push_cast; ring
          rw [e]; exact this
      · have e : i + ((n + 1 : ℕ) : ℤ) * hop = i + hop + (n : ℤ) * hop := by push_cast; ring
        rw [e]; exact hge
    · rename_i hc
      refine ⟨0, Nat.zero_le _, ?_, ?_, ?_⟩
      · simpa [Double.runFrames] using (Option.some.inj h).symm
      · intro k hk; exact absurd hk (Nat.not_lt_zero _)
      · simpa using hc

theorem double_frameLoop_terminates (E : List ℚ → ℚ) (F : List ℚ → ℚ → FreqInfo)
    (samples : List ℚ) (sr : ℚ) (chunk hop : ℤ) :
    ∀ (fuel : ℕ) (i : ℤ) (st : LoopState),
      (samples.length : ℤ) - chunk - i ≤ (fuel : ℤ) * hop →
      ∃ st', Double.frameLoop E F samples sr chunk hop fuel i st = some st' := by
  intro fuel
  induction fuel with
  | zero =>
    intro i st hi
    simp only [Nat.cast_zero, zero_mul] at hi
    have : ¬ (i < (samples.length : ℤ) - chunk) := by omega
    exact ⟨st, by simp only [Double.frameLoop, if_neg this]⟩
  | succ fuel ih =>
    intro i st hi
    by_cases hc : i < (samples.length : ℤ) - chunk
    · simp only [Double.frameLoop, if_pos hc]
      apply ih
      have : ((fuel + 1 : ℕ) : ℤ) * hop = (fuel : ℤ) * hop + hop := by push_cast; ring
      rw [this] at hi
      omega
    · exact ⟨st, by simp only [Double.frameLoop, if_neg hc]⟩

theorem double_hopSize_pos {sr : ℚ} (h : 40 ≤ sr) :
    2 ≤ Double.chunkSizeOf sr ∧ 1 ≤ Double.hopSizeOf (Double.chunkSizeOf sr) := by
  have e1 : Double.roundDouble 2000 = 2000 := by decide!
  have e2 : Double.roundDouble 2 = 2 := by decide!
  have e3 : Double.roundDouble 1 = 1 := by decide!
  have h1 : (2000 : ℚ) ≤ Double.fmul sr 50 := by
    unfold Double.fmul
    rw [← e1]
    exact roundDouble_mono (by norm_num) (by linarith)
  have h2 : (2 : ℚ) ≤ Double.fdiv (Double.fmul sr 50) 1000 := by
    unfold Double.fdiv
    rw [← e2]
    apply roundDouble_mono (by norm_num)
    rw [le_div_iff₀ (by norm_num)]
    linarith
  have h3 : (2 : ℤ) ≤ Double.chunkSizeOf sr := by
    unfold Double.chunkSizeOf
    apply Int.le_floor.mpr
    exact_mod_cast h2
  refine ⟨h3, ?_⟩
  unfold Double.hopSizeOf
  apply Int.le_floor.mpr
  have h4 : (2 : ℚ) ≤ (Double.chunkSizeOf sr : ℚ) := by exact_mod_cast h3
  have h5 : (1 : ℚ) ≤ Double.fdiv (Double.chunkSizeOf sr : ℚ) 2 := by
    unfold Double.fdiv
    rw [← e3]
    apply roundDouble_mono (by norm_num)
    linarith
  exact_mod_cast h5

theorem roundDouble_pos_imp {x : ℚ} (h : 0 < Double.roundDouble x) : 0 < x := by
  by_contra hc
  have := roundDouble_nonpos (not_lt.mp hc)
  linarith

theorem double_hopSize_pos_imp {sr : ℚ} (h : 1 ≤ Double.hopSizeOf (Double.chunkSizeOf sr)) :
    0 < sr ∧ 1 ≤ Double.chunkSizeOf sr := by
  unfold Double.hopSizeOf at h
  have h1 : ((1 : ℤ) : ℚ) ≤ Double.fdiv (Double.chunkSizeOf sr : ℚ) 2 := Int.le_floor.mp h
  have h2 : 0 < (Double.chunkSizeOf sr : ℚ) / 2 := by
    apply roundDouble_pos_imp
    unfold Double.fdiv at h1
    push_cast at h1
    linarith
  have h3 : (0 : ℚ) < (Double.chunkSizeOf sr : ℚ) := by linarith
  have h4 : (1 : ℤ) ≤ Double.chunkSizeOf sr := by
    have : (0 : ℤ) < Double.chunkSizeOf sr := by exact_mod_cast h3
    omega
  refine ⟨?_, h4⟩
  unfold Double.chunkSizeOf at h4
  have h5 : ((1 : ℤ) : ℚ) ≤ Double.fdiv (Double.fmul sr 50) 1000 := Int.le_floor.mp h4
  have h6 : 0 < Double.fmul sr 50 / 1000 := by
    apply roundDouble_pos_imp
    unfold Double.fdiv at h5
    push_cast at h5
    linarith
  have h7 : 0 < Double.fmul sr 50 := by linarith
  have h8 : 0 < sr * 50 := roundDouble_pos_imp h7
  linarith

/-- A returning run of the frame loop is the loop body folded over the
analysed frames, whose offsets lie below `samples.length - chunkSize`. -/
theorem double_frameLoop_run {E : List ℚ → ℚ} {F : List ℚ → ℚ → FreqInfo} {fuel : ℕ}
    {samples : List ℚ} {sr : ℚ} {st : LoopState}
    (h : Double.frameLoop E F samples sr (Double.chunkSizeOf sr)
      (Double.hopSizeOf (Double.chunkSizeOf sr)) fuel 0 LoopState.init = some st) :
    st = Double.runFrames (Double.analysedFrames E F samples sr) LoopState.init ∧
      (frameCount samples.length (Double.chunkSizeOf sr)
          (Double.hopSizeOf (Double.chunkSizeOf sr)) ≠ 0 →
        1 ≤ Double.hopSizeOf (Double.chunkSizeOf sr)) ∧
      ∀ k : ℕ, k < frameCount samples.length (Double.chunkSizeOf sr)
          (Double.hopSizeOf (Double.chunkSizeOf sr)) →
        (k : ℤ) * Double.hopSizeOf (Double.chunkSizeOf sr) <
          (samples.length : ℤ) - Double.chunkSizeOf sr := by
  obtain ⟨n, _, hrun, hlt, hge⟩ := double_frameLoop_some _ _ _ _ h
  simp only [zero_add] at hrun hlt hge
  obtain ⟨hn, hhop⟩ := frameCount_unique (samples.length : ℤ) (Double.chunkSizeOf sr) rfl hlt hge
  refine ⟨?_, ?_, ?_⟩
  · rw [hrun]; unfold Double.analysedFrames; simp only [← hn]
  · rw [← hn]; exact hhop
  · rw [← hn]; exact hlt

theorem double_processFrame_allChunks (f : Frame) (st : LoopState) :
    (Double.processFrame f st).allChunks = st.allChunks ++ (Double.toChunk f).toList := by
  unfold Double.processFrame Double.trackTonal Double.trackSpeech Double.trackSilence
    Double.toChunk
  by_cases h1 : f.energy > Double.lit 0.01 <;>
    by_cases h2 : f.freq ≥ 600 ∧ f.freq ≤ 1100 ∧ f.purity > Double.lit 0.04
    <;> simp only [h1, h2, if_true, if_false, true_and, false_and, and_self]
    <;> (repeat' split) <;> simp

theorem double_runFrames_allChunks (frs : List Frame) (st : LoopState) :
    (Double.runFrames frs st).allChunks = st.allChunks ++ frs.filterMap Double.toChunk := by
  induction frs generalizing st with
  | nil => simp [Double.runFrames]
  | cons f frs ih =>
    have : Double.runFrames (f :: frs) st = Double.runFrames frs (Double.processFrame f st) := rfl
    rw [this, ih, double_processFrame_allChunks]
    cases h : Double.toChunk f <;> simp [List.filterMap_cons, h]

theorem double_processFrame_silence (f : Frame) (st : LoopState) :
    (Double.processFrame f st).silences = (Double.trackSilence f.time f.energy st).silences ∧
    (Double.processFrame f st).inSilence = (Double.trackSilence f.time f.energy st).inSilence ∧
    (Double.processFrame f st).silenceStart =
      (Double.trackSilence f.time f.energy st).silenceStart := by
  unfold Double.processFrame Double.trackTonal Double.trackSpeech
  (repeat' split) <;> simp

theorem double_toChunk_time {f : Frame} {c : Chunk} (h : Double.toChunk f = some c) :
    c.time = f.time := by
  unfold Double.toChunk at h
  split at h
  · cases h; rfl
  · cases h
/-! ## Frame times in double precision -/

/-- Frame offsets up to `2 ^ 50` have times that differ by more than the
rounding error of a difference: the time of the earlier offset, enlarged by
`2 ^ (-53)`, is below the time of the later one. -/
theorem fdiv_apart {sr : ℚ} (hsr : 0 < sr) (hsr' : sr ≤ 2 ^ 1022) {i j : ℤ} (hi : 0 ≤ i)
    (hij : i < j) (hj : j ≤ 2 ^ 50) :
    Double.fdiv (i : ℚ) sr * (1 + 1 / 2 ^ 53) < Double.fdiv (j : ℚ) sr := by
  unfold Double.fdiv
  have hnorm : ∀ k : ℤ, 1 ≤ k → Double.pow2 (-1022) ≤ (k : ℚ) / sr := by
    intro k hk
    have hkq : (1 : ℚ) ≤ (k : ℚ) := by exact_mod_cast hk
    rw [le_div_iff₀ hsr, pow2_eq]
    have : (2 : ℚ) ^ (-1022 : ℤ) * sr ≤ (2 : ℚ) ^ (-1022 : ℤ) * 2 ^ 1022 :=
      mul_le_mul_of_nonneg_left hsr' (by positivity)
    have e : (2 : ℚ) ^ (-1022 : ℤ) * 2 ^ 1022 = 1 := by
      rw [zpow_neg, ← zpow_natCast]
      norm_num
    linarith
  have hy := (roundDouble_error (hnorm j (by omega))).1
  have hjq : (1 : ℚ) ≤ (j : ℚ) := by exact_mod_cast (by omega : (1 : ℤ) ≤ j)
  have hjpos : (0 : ℚ) < (j : ℚ) / sr := div_pos (by linarith) hsr
  rcases eq_or_lt_of_le hi with h0 | hipos
  · rw [← h0]
    have : Double.roundDouble (((0 : ℤ) : ℚ) / sr) = 0 := by simp [Double.roundDouble]
    rw [this, zero_mul]
    have : (0 : ℚ) < (j : ℚ) / sr * (1 - 1 / 2 ^ 53) := mul_pos hjpos (by norm_num)
    linarith
  · have hx := (roundDouble_error (hnorm i (by omega))).2
    have hiq : (1 : ℚ) ≤ (i : ℚ) := by exact_mod_cast (by omega : (1 : ℤ) ≤ i)
    have hijq : (i : ℚ) + 1 ≤ (j : ℚ) := by exact_mod_cast (by omega : i + 1 ≤ j)
    have hjb : (j : ℚ) ≤ 2 ^ 50 := by exact_mod_cast hj
    have h1 : Double.roundDouble ((i : ℚ) / sr) * (1 + 1 / 2 ^ 53) ≤
        (i : ℚ) / sr * (1 + 1 / 2 ^ 53) * (1 + 1 / 2 ^ 53) :=
      mul_le_mul_of_nonneg_right hx (by norm_num)
    have key : (i : ℚ) / sr * (1 + 1 / 2 ^ 53) * (1 + 1 / 2 ^ 53) <
        (j : ℚ) / sr * (1 - 1 / 2 ^ 53) := by
      rw [div_mul_eq_mul_div, div_mul_eq_mul_div, div_mul_eq_mul_div]
      apply div_lt_div_of_pos_right _ hsr
      norm_num
      linarith
    linarith

theorem fdiv_nonneg {sr : ℚ} (hsr : 0 < sr) {i : ℤ} (hi : 0 ≤ i) : 0 ≤ Double.fdiv (i : ℚ) sr := by
  unfold Double.fdiv
  apply roundDouble_nonneg
  apply div_nonneg _ (le_of_lt hsr)
  exact_mod_cast hi

theorem fdiv_le_fdiv {sr : ℚ} (hsr : 0 < sr) {i j : ℤ} (hi : 0 ≤ i) (hij : i ≤ j) :
    Double.fdiv (i : ℚ) sr ≤ Double.fdiv (j : ℚ) sr := by
  unfold Double.fdiv
  apply roundDouble_mono
  · apply div_nonneg _ (le_of_lt hsr)
    exact_mod_cast hi
  · apply div_le_div_of_nonneg_right _ (le_of_lt hsr)
    exact_mod_cast hij

theorem double_frames_nonneg {E : List ℚ → ℚ} {F : List ℚ → ℚ → FreqInfo} {fuel : ℕ}
    {samples : List ℚ} {sr : ℚ} {st : LoopState}
    (h : Double.frameLoop E F samples sr (Double.chunkSizeOf sr)
      (Double.hopSizeOf (Double.chunkSizeOf sr)) fuel 0 LoopState.init = some st) :
    ∀ f ∈ Double.analysedFrames E F samples sr, 0 ≤ f.time := by
  obtain ⟨_, hhop, _⟩ := double_frameLoop_run h
  intro f hf
  unfold Double.analysedFrames at hf
  simp only [List.mem_map, List.mem_range] at hf
  obtain ⟨k, hk, rfl⟩ := hf
  have hne : frameCount samples.length (Double.chunkSizeOf sr)
      (Double.hopSizeOf (Double.chunkSizeOf sr)) ≠ 0 := by omega
  have hh := hhop hne
  obtain ⟨hsr, _⟩ := double_hopSize_pos_imp hh
  simp only [Double.frameAt]
  apply fdiv_nonneg hsr
  exact mul_nonneg (by positivity) (by omega)

/-- The times of the analysed frames do not decrease. -/
theorem double_frames_sorted {E : List ℚ → ℚ} {F : List ℚ → ℚ → FreqInfo} {fuel : ℕ}
    {samples : List ℚ} {sr : ℚ} {st : LoopState}
    (h : Double.frameLoop E F samples sr (Double.chunkSizeOf sr)
      (Double.hopSizeOf (Double.chunkSizeOf sr)) fuel 0 LoopState.init = some st) :
    (Double.analysedFrames E F samples sr).Pairwise (fun a b => a.time ≤ b.time) := by
  obtain ⟨_, hhop, _⟩ := double_frameLoop_run h
  unfold Double.analysedFrames
  simp only
  rw [List.pairwise_map]
  refine List.Pairwise.imp_of_mem ?_ (List.pairwise_lt_range _)
  intro a b ha hb hab
  have hne : frameCount samples.length (Double.chunkSizeOf sr)
      (Double.hopSizeOf (Double.chunkSizeOf sr)) ≠ 0 := by
    have := List.mem_range.mp ha
    omega
  have hh := hhop hne
  obtain ⟨hsr, _⟩ := double_hopSize_pos_imp hh
  simp only [Double.frameAt]
  apply fdiv_le_fdiv hsr (mul_nonneg (by positivity) (by omega))
  apply mul_le_mul_of_nonneg_right _ (by omega)
  exact_mod_cast le_of_lt hab

/-- The times of the analysed frames increase strictly, by more than the
rounding error of a difference, for a buffer of at most `2 ^ 50` samples. -/
theorem double_frames_apart {E : List ℚ → ℚ} {F : List ℚ → ℚ → FreqInfo} {fuel : ℕ}
    {samples : List ℚ} {sr : ℚ} {st : LoopState}
    (h : Double.frameLoop E F samples sr (Double.chunkSizeOf sr)
      (Double.hopSizeOf (Double.chunkSizeOf sr)) fuel 0 LoopState.init = some st)
    (hsr' : sr ≤ 2 ^ 1022) (hlen : samples.length ≤ 2 ^ 50) :
    (Double.analysedFrames E F samples sr).Pairwise
      (fun a b => a.time * (1 + 1 / 2 ^ 53) < b.time) := by
  obtain ⟨_, hhop, hlt⟩ := double_frameLoop_run h
  unfold Double.analysedFrames
  simp only
  rw [List.pairwise_map]
  refine List.Pairwise.imp_of_mem ?_ (List.pairwise_lt_range _)
  intro a b ha hb hab
  have hb' := List.mem_range.mp hb
  have hne : frameCount samples.length (Double.chunkSizeOf sr)
      (Double.hopSizeOf (Double.chunkSizeOf sr)) ≠ 0 := by omega
  have hh := hhop hne
  obtain ⟨hsr, hchunk⟩ := double_hopSize_pos_imp hh
  simp only [Double.frameAt]
  have hbl := hlt b hb'
  have hlen' : (samples.length : ℤ) ≤ 2 ^ 50 := by exact_mod_cast hlen
  apply fdiv_apart hsr hsr' (mul_nonneg (by positivity) (by omega)) _ (by omega)
  apply mul_lt_mul_of_pos_right _ (by omega)
  exact_mod_cast hab

/-! ## The silence tracker in double precision -/

theorem half_le_roundDouble {x : ℚ} (h : 0.5 ≤ Double.roundDouble x) : Double.pow2 (-1022) ≤ x := by
  by_contra hc
  have hlt : x < Double.pow2 (-1022) := not_le.mp hc
  have hsmall : Double.pow2 (-1022) < 0.5 := by
    rw [pow2_eq, zpow_neg]
    norm_num
  rcases le_or_lt x 0 with h0 | hpos
  · have := roundDouble_nonpos h0
    norm_num at h
    linarith
  · have hex : Double.exponentOf x ≤ -1022 := by
      by_contra hc'
      have : -1022 ≤ Double.exponentOf x := by omega
      have := pow2_le this
      have := (exponentOf_spec hpos).1
      linarith
    have := roundDouble_le_pow2 hpos (le_of_lt hlt) (by rw [max_eq_right hex]; omega)
    linarith

theorem SilenceOrder_init : Double.SilenceOrder LoopState.init (-1) := by
  constructor <;> simp [LoopState.init]

theorem SilenceOrder_step {st : LoopState} {T : ℚ} (hinv : Double.SilenceOrder st T) (f : Frame)
    (hf : 0 ≤ f.time) (hle : T ≤ f.time) (hT : T * (1 + 1 / 2 ^ 53) < f.time) :
    Double.SilenceOrder (Double.processFrame f st) f.time := by
  obtain ⟨h1, h2, h3⟩ := double_processFrame_silence f st
  obtain ⟨ho, hc, hop⟩ := hinv
  have hfu : f.time ≤ f.time * (1 + 1 / 2 ^ 53) := by
    have : (0 : ℚ) ≤ f.time * (1 / 2 ^ 53) := mul_nonneg hf (by norm_num)
    linarith
  have hold : ∀ s ∈ st.silences, 0.5 ≤ s.dur ∧ s.start + s.dur ≤ f.time * (1 + 1 / 2 ^ 53) :=
    fun s hs => ⟨(hc s hs).1, by have := (hc s hs).2; linarith⟩
  constructor
  · rw [h1]; unfold Double.trackSilence
    by_cases he : f.energy < Double.lit 0.01
    · simp only [he, if_true]; split <;> exact ho
    · simp only [he, if_false]
      by_cases hs : (st.inSilence &&
          decide (Double.fsub f.time st.silenceStart ≥ 0.5)) = true
      · simp only [hs, if_true]
        rw [List.pairwise_append]
        refine ⟨ho, List.pairwise_singleton _ _, ?_⟩
        intro a ha b hb
        simp only [List.mem_singleton] at hb
        subst hb
        simp only [Bool.and_eq_true] at hs
        exact (hop hs.1).2.2 a ha
      · simp only [hs]; exact ho
  · rw [h1]; unfold Double.trackSilence
    by_cases he : f.energy < Double.lit 0.01
    · simp only [he, if_true]
      split <;> exact hold
    · simp only [he, if_false]
      by_cases hs : (st.inSilence &&
          decide (Double.fsub f.time st.silenceStart ≥ 0.5)) = true
      · simp only [hs, if_true]
        intro s hsm
        rw [List.mem_append, List.mem_singleton] at hsm
        rcases hsm with hsm | hsm
        · exact hold s hsm
        · subst hsm
          simp only [Bool.and_eq_true, decide_eq_true_eq] at hs
          refine ⟨hs.2, ?_⟩
          simp only
          have h0 := (hop hs.1).1
          have hnorm := half_le_roundDouble hs.2
          have herr := (roundDouble_error hnorm).2
          unfold Double.fsub
          have : (0 : ℚ) ≤ st.silenceStart * (1 / 2 ^ 53) := mul_nonneg h0 (by norm_num)
          nlinarith
      · simp only [hs]
        exact hold
  · rw [h1, h2, h3]; unfold Double.trackSilence
    by_cases he : f.energy < Double.lit 0.01
    · simp only [he, if_true]
      by_cases hin : st.inSilence = true
      · simp only [hin, Bool.not_true, if_false]
        intro _
        exact ⟨(hop hin).1, le_trans (hop hin).2.1 hle, (hop hin).2.2⟩
      · simp only [Bool.not_eq_true] at hin
        simp only [hin, Bool.not_false, if_true]
        intro _
        exact ⟨hf, le_refl _, fun s hs => lt_of_le_of_lt (hc s hs).2 hT⟩
    · simp only [he, if_false]
      intro hcontra
      exact absurd hcontra (by simp)

theorem SilenceOrder_run (frs : List Frame)
    (hs : frs.Pairwise (fun a b => a.time * (1 + 1 / 2 ^ 53) < b.time))
    (h0 : ∀ f ∈ frs, 0 ≤ f.time) :
    ∀ (st : LoopState) (T : ℚ), Double.SilenceOrder st T →
      (∀ f ∈ frs, T ≤ f.time ∧ T * (1 + 1 / 2 ^ 53) < f.time) →
      ∃ T', Double.SilenceOrder (Double.runFrames frs st) T' := by
  induction frs with
  | nil => intro st T h _; exact ⟨T, h⟩
  | cons f frs ih =>
    intro st T h hT
    rw [List.pairwise_cons] at hs
    have : Double.runFrames (f :: frs) st = Double.runFrames frs (Double.processFrame f st) := rfl
    rw [this]
    have hf := h0 f (List.mem_cons_self _ _)
    have hTf := hT f (List.mem_cons_self _ _)
    refine ih hs.2 (fun g hg => h0 g (List.mem_cons_of_mem _ hg)) _ f.time
      (SilenceOrder_step h f hf hTf.1 hTf.2) ?_
    intro g hg
    have hfg := hs.1 g hg
    have : (0 : ℚ) ≤ f.time * (1 / 2 ^ 53) := mul_nonneg hf (by norm_num)
    exact ⟨by linarith, hfg⟩

/-- The silences of a returning run are disjoint and in order, and each lasts
half a second or more. -/
theorem double_silences_ordered {E : List ℚ → ℚ} {F : List ℚ → ℚ → FreqInfo} {fuel : ℕ}
    {samples : List ℚ} {sr : ℚ} {st : LoopState}
    (h : Double.frameLoop E F samples sr (Double.chunkSizeOf sr)
      (Double.hopSizeOf (Double.chunkSizeOf sr)) fuel 0 LoopState.init = some st)
    (hsr' : sr ≤ 2 ^ 1022) (hlen : samples.length ≤ 2 ^ 50) :
    st.silences.Pairwise (fun a b => a.start + a.dur < b.start) ∧
      ∀ s ∈ st.silences, 0.5 ≤ s.dur := by
  have hst := (double_frameLoop_run h).1
  have h0 := double_frames_nonneg h
  obtain ⟨T', hT'⟩ := SilenceOrder_run _ (double_frames_apart h hsr' hlen) h0 LoopState.init (-1)
    SilenceOrder_init (by
      intro f hf
      have := h0 f hf
      constructor
      · linarith
      · norm_num
        linarith)
  rw [← hst] at hT'
  exact ⟨hT'.ordered, fun s hs => (hT'.closed s hs).1⟩
/-! ## The grouping loop in double precision -/

theorem double_evaluateGroup_ok {sqrt : ℚ → ℚ} {maxArgs : ℕ} {rangeError : String} {hop : ℤ}
    {sr : ℚ} {g : Group} {pushed : Option Beep}
    (h : Double.evaluateGroup sqrt maxArgs rangeError hop sr g = Except.ok pushed) :
    pushed = Double.beepOf sqrt hop sr g := by
  unfold Double.evaluateGroup at h
  unfold Double.beepOf
  simp only at h
  split at h
  · rename_i hc
    rw [if_pos hc]
    split at h
    · cases h
    · cases h; rfl
  · rename_i hc
    rw [if_neg hc]
    cases h; rfl

theorem double_groupLoop_ok (sqrt : ℚ → ℚ) (maxArgs : ℕ) (rangeError : String) (hop : ℤ)
    (sr : ℚ) (rest : List Chunk) :
    ∀ (closed : List (List Chunk)) (opn : List Chunk) (s : ScanState), opn ≠ [] →
      Double.groupLoop sqrt maxArgs rangeError hop sr rest
          { group := Group.ofChunks opn,
            beeps := closed.filterMap fun l => Double.beepOf sqrt hop sr (Group.ofChunks l) } =
        Except.ok s →
      s = { group := Group.ofChunks (rest.foldl Double.segStep (closed, opn)).2,
            beeps := (rest.foldl Double.segStep (closed, opn)).1.filterMap
              fun l => Double.beepOf sqrt hop sr (Group.ofChunks l) } ∧
        (rest.foldl Double.segStep (closed, opn)).2 ≠ [] := by
  induction rest with
  | nil =>
    intro closed opn s hopn h
    simp only [Double.groupLoop] at h
    cases h
    exact ⟨rfl, hopn⟩
  | cons c rest ih =>
    intro closed opn s hopn h
    simp only [List.foldl_cons]
    by_cases hacc : Double.accepts (Group.ofChunks opn) c = true
    · have e2 : Double.segStep (closed, opn) c = (closed, opn ++ [c]) := by
        simp [Double.segStep, hacc]
      rw [e2]
      apply ih closed (opn ++ [c]) s (by simp)
      simp only [Double.groupLoop, Double.groupStep, hacc, if_true] at h
      rw [Group.push_ofChunks opn hopn] at h
      exact h
    · have e2 : Double.segStep (closed, opn) c = (closed ++ [opn], [c]) := by
        simp [Double.segStep, hacc]
      rw [e2]
      apply ih (closed ++ [opn]) [c] s (by simp)
      simp only [Double.groupLoop, Double.groupStep, hacc, Bool.false_eq_true, if_false] at h
      cases hev : Double.evaluateGroup sqrt maxArgs rangeError hop sr (Group.ofChunks opn) with
      | error message =>
        rw [hev] at h
        cases h
      | ok pushed =>
        rw [hev] at h
        simp only at h
        rw [double_evaluateGroup_ok hev] at h
        rw [List.filterMap_append, filterMap_singleton, ← Group.single_eq_ofChunks]
        exact h

theorem double_segScan_join (rest : List Chunk) :
    ∀ (closed : List (List Chunk)) (opn : List Chunk), opn ≠ [] → (∀ l ∈ closed, l ≠ []) →
      ((rest.foldl Double.segStep (closed, opn)).1 ++
            [(rest.foldl Double.segStep (closed, opn)).2]).flatten =
          (closed ++ [opn]).flatten ++ rest ∧
        ∀ l ∈ (rest.foldl Double.segStep (closed, opn)).1 ++
            [(rest.foldl Double.segStep (closed, opn)).2],
          l ≠ [] := by
  induction rest with
  | nil =>
    intro closed opn h hc
    refine ⟨by simp, ?_⟩
    intro l hl
    simp only [List.foldl_nil, List.mem_append, List.mem_singleton] at hl
    rcases hl with hl | hl
    · exact hc l hl
    · subst hl; exact h
  | cons c rest ih =>
    intro closed opn hopn hcl
    simp only [List.foldl_cons]
    by_cases hacc : Double.accepts (Group.ofChunks opn) c = true
    · have e2 : Double.segStep (closed, opn) c = (closed, opn ++ [c]) := by
        simp [Double.segStep, hacc]
      rw [e2]
      obtain ⟨h1, h2⟩ := ih closed (opn ++ [c]) (by simp) hcl
      refine ⟨?_, h2⟩
      rw [h1]; simp
    · have e2 : Double.segStep (closed, opn) c = (closed ++ [opn], [c]) := by
        simp [Double.segStep, hacc]
      rw [e2]
      obtain ⟨h1, h2⟩ := ih (closed ++ [opn]) [c] (by simp) (by
        intro l hl
        rw [List.mem_append, List.mem_singleton] at hl
        rcases hl with hl | hl
        · exact hcl l hl
        · subst hl; exact hopn)
      refine ⟨?_, h2⟩
      rw [h1]; simp

theorem double_tonalGroups_join (cs : List Chunk) :
    (Double.tonalGroups cs).flatten = cs ∧ ∀ l ∈ Double.tonalGroups cs, l ≠ [] := by
  cases cs with
  | nil => simp [Double.tonalGroups]
  | cons c0 rest =>
    obtain ⟨h1, h2⟩ := double_segScan_join rest [] [c0] (by simp) (by simp)
    simp only [Double.tonalGroups]
    exact ⟨by rw [h1]; simp, h2⟩

/-- The beeps that the grouping block returns are those of the groups formed
from the sorted chunks, in the order of the groups. -/
theorem double_detectBeeps_ok {sqrt : ℚ → ℚ} {maxArgs : ℕ} {rangeError : String} {hop : ℤ}
    {sr : ℚ} {cs : List Chunk} {beeps : List Beep}
    (h : Double.detectBeeps sqrt maxArgs rangeError hop sr cs = Except.ok beeps) :
    beeps =
      if cs.length ≥ 2 then
        (Double.tonalGroups (cs.insertionSort timeLe)).filterMap
          fun l => Double.beepOf sqrt hop sr (Group.ofChunks l)
      else [] := by
  unfold Double.detectBeeps at h
  split at h
  · rename_i hlen
    rw [if_pos hlen]
    cases hs : cs.insertionSort timeLe with
    | nil =>
      rw [hs] at h
      simp only at h
      cases h
      simp [Double.tonalGroups]
    | cons c0 rest =>
      rw [hs] at h
      simp only at h
      cases hl : Double.groupLoop sqrt maxArgs rangeError hop sr rest
          { group := Group.single c0, beeps := [] } with
      | error message =>
        rw [hl] at h
        cases h
      | ok s =>
        rw [hl] at h
        simp only at h
        have hl' : Double.groupLoop sqrt maxArgs rangeError hop sr rest
            { group := Group.ofChunks [c0],
              beeps := ([] : List (List Chunk)).filterMap
                fun l => Double.beepOf sqrt hop sr (Group.ofChunks l) } = Except.ok s := by
          rw [← Group.single_eq_ofChunks]
          exact hl
        obtain ⟨hs', _⟩ := double_groupLoop_ok sqrt maxArgs rangeError hop sr rest [] [c0] s
          (by simp) hl'
        cases hev : Double.evaluateGroup sqrt maxArgs rangeError hop sr s.group with
        | error message =>
          rw [hev] at h
          cases h
        | ok pushed =>
          rw [hev] at h
          simp only at h
          cases h
          rw [double_evaluateGroup_ok hev]
          simp only [Double.tonalGroups, List.filterMap_append, filterMap_singleton]
          rw [hs']
  · rename_i hlen
    rw [if_neg hlen]
    cases h
    rfl

theorem double_beepOf_some {sqrt : ℚ → ℚ} {hop : ℤ} {sr : ℚ} {g : Group} {b : Beep}
    (h : Double.beepOf sqrt hop sr g = some b) :
    b.start = g.groupStart ∧
      b.end_ = Double.fadd g.lastTime (Double.fdiv (hop : ℚ) sr) ∧
      b.frequency = Double.fdiv (Double.reduceAdd g.groupFreqs) g.groupFreqs.length ∧
      b.purity = Double.fdiv (Double.reduceAdd g.groupPurities) g.groupPurities.length ∧
      b.duration =
        Double.fadd (Double.fsub g.lastTime g.groupStart) (Double.fdiv (hop : ℚ) sr) ∧
      2 ≤ g.groupFreqs.length ∧ Double.lit 0.10 ≤ b.duration := by
  unfold Double.beepOf at h
  split at h
  · rename_i hc
    unfold Double.groupBeep at h
    simp only at h
    split at h
    · cases h
      exact ⟨rfl, rfl, rfl, rfl, rfl, hc.1, hc.2⟩
    · cases h
  · cases h

theorem double_mem_detectBeeps {sqrt : ℚ → ℚ} {maxArgs : ℕ} {rangeError : String} {hop : ℤ}
    {sr : ℚ} {cs : List Chunk} {beeps : List Beep} {b : Beep}
    (hs : cs.Pairwise (fun a b => a.time ≤ b.time))
    (h : Double.detectBeeps sqrt maxArgs rangeError hop sr cs = Except.ok beeps)
    (hb : b ∈ beeps) :
    ∃ l ∈ Double.tonalGroups cs, l ≠ [] ∧ Double.beepOf sqrt hop sr (Group.ofChunks l) = some b := by
  rw [double_detectBeeps_ok h] at hb
  split at hb
  · have hsort : cs.insertionSort timeLe = cs := List.Sorted.insertionSort_eq hs
    rw [hsort, List.mem_filterMap] at hb
    obtain ⟨l, hl, hev⟩ := hb
    exact ⟨l, hl, (double_tonalGroups_join cs).2 l hl, hev⟩
  · exact absurd hb (List.not_mem_nil _)

/-! ## The parts of a run in double precision -/

theorem double_decideDrop_fields (beeps : List Beep) (silences : List Silence) (lst dur : ℚ) :
    (Double.decideDrop beeps silences lst dur).beeps = beeps ∧
      (Double.decideDrop beeps silences lst dur).silences = silences ∧
      (Double.decideDrop beeps silences lst dur).speechEnd = lst := by
  unfold Double.decideDrop
  simp only
  (repeat' split) <;> simp

theorem double_decideDrop_ordinary (beeps : List Beep) (silences : List Silence) (lst dur : ℚ) :
    (Double.decideDrop beeps silences lst dur).triggerType ≠ TriggerType.error := by
  unfold Double.decideDrop
  simp only
  (repeat' split) <;> simp

/-- A run that returns `r`: the frame loop ends, the grouping block returns
the beeps of `r` from the tonal chunks of the analysed frames, and `r` is the
decision taken on them. -/
theorem double_analyzeAudio_ok {sqrt : ℚ → ℚ} {maxArgs : ℕ} {rangeError : String}
    {E : List ℚ → ℚ} {F : List ℚ → ℚ → FreqInfo} {fuel : ℕ} {samples : List ℚ} {sr dur : ℚ}
    {r : Result}
    (h : Double.analyzeAudio sqrt maxArgs rangeError E F fuel samples sr dur =
      some (Except.ok r)) :
    ∃ st, Double.frameLoop E F samples sr (Double.chunkSizeOf sr)
          (Double.hopSizeOf (Double.chunkSizeOf sr)) fuel 0 LoopState.init = some st ∧
        st.allChunks = Double.tonalChunks E F samples sr ∧
        Double.detectBeeps sqrt maxArgs rangeError (Double.hopSizeOf (Double.chunkSizeOf sr)) sr
          st.allChunks = Except.ok r.beeps ∧
        r.silences = st.silences ∧ r.speechEnd = st.lastSpeechTime ∧
        r = Double.decideDrop r.beeps st.silences st.lastSpeechTime dur := by
  unfold Double.analyzeAudio at h
  simp only [Option.map_eq_some'] at h
  obtain ⟨st, hst, hr⟩ := h
  refine ⟨st, hst, ?_, ?_⟩
  · rw [(double_frameLoop_run hst).1, double_runFrames_allChunks]
    simp [LoopState.init, Double.tonalChunks]
  · cases hd : Double.detectBeeps sqrt maxArgs rangeError
        (Double.hopSizeOf (Double.chunkSizeOf sr)) sr st.allChunks with
    | error message =>
      rw [hd] at hr
      cases hr
    | ok beeps =>
      rw [hd] at hr
      simp only [Except.ok.injEq] at hr
      obtain ⟨f1, f2, f3⟩ := double_decideDrop_fields beeps st.silences st.lastSpeechTime dur
      rw [hr] at f1 f2 f3
      rw [f1]
      exact ⟨rfl, f2, f3, hr.symm⟩

theorem double_tonalChunks_sorted {E : List ℚ → ℚ} {F : List ℚ → ℚ → FreqInfo} {fuel : ℕ}
    {samples : List ℚ} {sr : ℚ} {st : LoopState}
    (h : Double.frameLoop E F samples sr (Double.chunkSizeOf sr)
      (Double.hopSizeOf (Double.chunkSizeOf sr)) fuel 0 LoopState.init = some st) :
    (Double.tonalChunks E F samples sr).Pairwise (fun a b => a.time ≤ b.time) := by
  unfold Double.tonalChunks
  refine List.Pairwise.filterMap Double.toChunk ?_ (double_frames_sorted h)
  intro a a' haa b hb b' hb'
  rw [double_toChunk_time (Option.mem_def.mp hb), double_toChunk_time (Option.mem_def.mp hb')]
  exact haa

theorem double_tonalChunks_increasing {E : List ℚ → ℚ} {F : List ℚ → ℚ → FreqInfo} {fuel : ℕ}
    {samples : List ℚ} {sr : ℚ} {st : LoopState}
    (h : Double.frameLoop E F samples sr (Double.chunkSizeOf sr)
      (Double.hopSizeOf (Double.chunkSizeOf sr)) fuel 0 LoopState.init = some st)
    (hsr' : sr ≤ 2 ^ 1022) (hlen : samples.length ≤ 2 ^ 50) :
    (Double.tonalChunks E F samples sr).Pairwise (fun a b => a.time < b.time) := by
  unfold Double.tonalChunks
  have h0 := double_frames_nonneg h
  have hap : (Double.analysedFrames E F samples sr).Pairwise (fun a b => a.time < b.time) := by
    refine List.Pairwise.imp_of_mem ?_ (double_frames_apart h hsr' hlen)
    intro a b ha _ hab
    have := h0 a ha
    have : (0 : ℚ) ≤ a.time * (1 / 2 ^ 53) := mul_nonneg this (by norm_num)
    linarith
  refine List.Pairwise.filterMap Double.toChunk ?_ hap
  intro a a' haa b hb b' hb'
  rw [double_toChunk_time (Option.mem_def.mp hb), double_toChunk_time (Option.mem_def.mp hb')]
  exact haa
/-! ## Recordings made of blocks -/

/-- The frames of a 48000 Hz recording (hop 1200) have the times of the
frames of a 40 Hz recording (hop 1). -/
theorem frame_times_48000 (k : ℤ) :
    Double.fdiv ((k * 1200 : ℤ) : ℚ) 48000 = Double.fdiv (k : ℚ) 40 := by
  unfold Double.fdiv
  congr 1
  push_cast
  ring

theorem blocks_cons (n : ℕ) (v : ℚ) (vs : List ℚ) :
    Double.blocks n (v :: vs) = List.replicate n v ++ Double.blocks n vs := by
  simp [Double.blocks, List.flatMap_cons]

theorem blocks_length (n : ℕ) (vals : List ℚ) :
    (Double.blocks n vals).length = n * vals.length := by
  induction vals with
  | nil => simp [Double.blocks]
  | cons v vs ih =>
    rw [blocks_cons, List.length_append, List.length_replicate, ih, List.length_cons]
    ring

theorem blocks_drop (n : ℕ) (hn : 0 < n) (vals : List ℚ) :
    ∀ k : ℕ, k < vals.length →
      ∃ rest, (Double.blocks n vals).drop (n * k) = vals.getD k 0 :: rest := by
  induction vals with
  | nil => intro k hk; simp at hk
  | cons v vs ih =>
    intro k hk
    rw [blocks_cons]
    cases k with
    | zero =>
      obtain ⟨m, rfl⟩ : ∃ m, n = m + 1 := ⟨n - 1, by omega⟩
      exact ⟨List.replicate m v ++ Double.blocks (m + 1) vs, by simp [List.replicate_succ]⟩
    | succ k =>
      have hk' : k < vs.length := by simpa using hk
      obtain ⟨rest, hrest⟩ := ih k hk'
      refine ⟨rest, ?_⟩
      have e : n * (k + 1) = (List.replicate n v).length + n * k := by
        rw [List.length_replicate]; ring
      rw [e, List.drop_append, hrest]
      simp

theorem slice_inside (xs : List ℚ) (a c : ℕ) (h : a + c ≤ xs.length) :
    slice xs (a : ℤ) ((a + c : ℕ) : ℤ) = (xs.drop a).take c := by
  unfold slice sliceIndex
  have c1 : ¬ ((a : ℤ) < 0) := by omega
  have c2 : ¬ (((a + c : ℕ) : ℤ) < 0) := by omega
  simp only [if_neg c1, if_neg c2]
  have m1 : min (a : ℤ) (xs.length : ℤ) = (a : ℤ) := by
    apply min_eq_left; exact_mod_cast (by omega : a ≤ xs.length)
  have m2 : min ((a + c : ℕ) : ℤ) (xs.length : ℤ) = ((a + c : ℕ) : ℤ) := by
    apply min_eq_left; exact_mod_cast h
  rw [m1, m2]
  have t2 : (((a + c : ℕ) : ℤ) - (a : ℤ)).toNat = c := by
    have : ((a + c : ℕ) : ℤ) - (a : ℤ) = (c : ℤ) := by push_cast; ring
    rw [this, Int.toNat_natCast]
  rw [Int.toNat_natCast, t2]

/-- The chunk that starts at block `k` of a recording made of blocks starts
with the value of that block. -/
theorem slice_blocks_head (n : ℕ) (hn : 0 < n) (vals : List ℚ) (k : ℕ)
    (hk : k + 2 < vals.length) :
    (slice (Double.blocks n vals) ((k : ℤ) * (n : ℤ)) ((k : ℤ) * (n : ℤ) + 2 * (n : ℤ))).headD 0 =
      vals.getD k 0 := by
  obtain ⟨rest, hrest⟩ := blocks_drop n hn vals k (by omega)
  have hlen := blocks_length n vals
  have h1 : (k : ℤ) * (n : ℤ) = ((n * k : ℕ) : ℤ) := by push_cast; ring
  have h2 : (k : ℤ) * (n : ℤ) + 2 * (n : ℤ) = ((n * k + 2 * n : ℕ) : ℤ) := by push_cast; ring
  have hb : n * k + 2 * n ≤ (Double.blocks n vals).length := by
    rw [hlen]
    have : n * k + 2 * n = n * (k + 2) := by ring
    rw [this]
    exact Nat.mul_le_mul_left n (le_of_lt hk)
  rw [h2, h1, slice_inside _ _ _ hb, hrest]
  obtain ⟨m, hm⟩ : ∃ m, 2 * n = m + 1 := ⟨2 * n - 1, by omega⟩
  rw [hm]
  simp

theorem blocks_one (vals : List ℚ) : Double.blocks 1 vals = vals := by
  induction vals with
  | nil => simp [Double.blocks]
  | cons v vs ih => rw [blocks_cons, ih]; simp

theorem frameCount_blocks (B : ℕ) :
    frameCount ((1200 * B : ℕ) : ℤ) 2400 1200 = frameCount (B : ℤ) 2 1 := by
  unfold frameCount
  simp only [show ¬ ((1200 : ℤ) ≤ 0) by norm_num, show ¬ ((1 : ℤ) ≤ 0) by norm_num, if_false]
  congr 1
  push_cast
  omega

theorem frameCount_lt_length (B : ℕ) (k : ℕ) (hk : k < frameCount (B : ℤ) 2 1) : k + 2 < B := by
  unfold frameCount at hk
  simp only [show ¬ ((1 : ℤ) ≤ 0) by norm_num, if_false] at hk
  omega

/-- A 48000 Hz recording made of blocks of 1200 samples has the frames of the
40 Hz recording of the block values, when energy and frequency are read from
the first sample of a chunk. -/
theorem analysedFrames_blocks (vals : List ℚ) :
    Double.analysedFrames headEnergy Double.headTone (Double.blocks 1200 vals) 48000 =
      Double.analysedFrames headEnergy Double.headTone vals 40 := by
  have c1 : Double.chunkSizeOf 48000 = 2400 := by decide!
  have c2 : Double.hopSizeOf 2400 = 1200 := by decide!
  have c3 : Double.chunkSizeOf 40 = 2 := by decide!
  have c4 : Double.hopSizeOf 2 = 1 := by decide!
  unfold Double.analysedFrames
  simp only [c1, c2, c3, c4, blocks_length]
  rw [frameCount_blocks]
  apply List.map_congr_left
  intro k hk
  have hk' := frameCount_lt_length vals.length k (List.mem_range.mp hk)
  have s1 := slice_blocks_head 1200 (by norm_num) vals k hk'
  have s2 := slice_blocks_head 1 (by norm_num) vals k hk'
  rw [blocks_one] at s2
  have ht : Double.fdiv (((k : ℤ) * 1200 : ℤ) : ℚ) 48000 =
      Double.fdiv (((k : ℤ) * 1 : ℤ) : ℚ) 40 := by
    rw [frame_times_48000]; simp
  have s1' : (slice (Double.blocks 1200 vals) ((k : ℤ) * 1200) ((k : ℤ) * 1200 + 2400)).headD 0 =
      vals.getD k 0 := by
    have e : (k : ℤ) * 1200 + 2400 = (k : ℤ) * ((1200 : ℕ) : ℤ) + 2 * ((1200 : ℕ) : ℤ) := by
      push_cast; ring
    rw [e]
    exact s1
  have s2' : (slice vals ((k : ℤ) * 1) ((k : ℤ) * 1 + 2)).headD 0 = vals.getD k 0 := by
    have e : (k : ℤ) * 1 + 2 = (k : ℤ) * ((1 : ℕ) : ℤ) + 2 * ((1 : ℕ) : ℤ) := by
      push_cast; ring
    have e' : (k : ℤ) * 1 = (k : ℤ) * ((1 : ℕ) : ℤ) := by push_cast; ring
    rw [e]
    conv_lhs => rw [e']
    exact s2
  simp only [Double.frameAt, headEnergy, Double.headTone, s1', s2', ht]

theorem evaluateGroup_48000 (sqrt : ℚ → ℚ) (maxArgs : ℕ) (rangeError : String) (g : Group) :
    Double.evaluateGroup sqrt maxArgs rangeError 1200 48000 g =
      Double.evaluateGroup sqrt maxArgs rangeError 1 40 g := by
  have h : Double.fdiv ((1200 : ℤ) : ℚ) 48000 = Double.fdiv ((1 : ℤ) : ℚ) 40 := by decide!
  simp only [Double.evaluateGroup, Double.groupBeep, Double.groupDuration, h]

theorem groupLoop_48000 (sqrt : ℚ → ℚ) (maxArgs : ℕ) (rangeError : String) (rest : List Chunk) :
    ∀ s : ScanState, Double.groupLoop sqrt maxArgs rangeError 1200 48000 rest s =
      Double.groupLoop sqrt maxArgs rangeError 1 40 rest s := by
  induction rest with
  | nil => intro s; rfl
  | cons c rest ih =>
    intro s
    simp only [Double.groupLoop, Double.groupStep, evaluateGroup_48000, ih]

theorem detectBeeps_48000 (sqrt : ℚ → ℚ) (maxArgs : ℕ) (rangeError : String) (cs : List Chunk) :
    Double.detectBeeps sqrt maxArgs rangeError 1200 48000 cs =
      Double.detectBeeps sqrt maxArgs rangeError 1 40 cs := by
  simp only [Double.detectBeeps, groupLoop_48000, evaluateGroup_48000]

/-- With enough fuel, `analyzeAudio` returns or throws what the grouping block
and the decision give on the analysed frames. -/
theorem double_analyzeAudio_returns (sqrt : ℚ → ℚ) (maxArgs : ℕ) (rangeError : String)
    (E : List ℚ → ℚ) (F : List ℚ → ℚ → FreqInfo) (fuel : ℕ) (samples : List ℚ) (sr dur : ℚ)
    (hhop : 1 ≤ Double.hopSizeOf (Double.chunkSizeOf sr))
    (hchunk : 0 ≤ Double.chunkSizeOf sr) (hfuel : samples.length ≤ fuel) :
    Double.analyzeAudio sqrt maxArgs rangeError E F fuel samples sr dur =
      some ((Double.detectBeeps sqrt maxArgs rangeError
          (Double.hopSizeOf (Double.chunkSizeOf sr)) sr
          (Double.runFrames (Double.analysedFrames E F samples sr)
            LoopState.init).allChunks).map
        fun beeps => Double.decideDrop beeps
          (Double.runFrames (Double.analysedFrames E F samples sr) LoopState.init).silences
          (Double.runFrames (Double.analysedFrames E F samples sr)
            LoopState.init).lastSpeechTime dur) := by
  have hf : (samples.length : ℤ) ≤ (fuel : ℤ) := by exact_mod_cast hfuel
  have hfl : (0 : ℤ) ≤ (fuel : ℤ) := by positivity
  obtain ⟨st, hst⟩ := double_frameLoop_terminates E F samples sr (Double.chunkSizeOf sr)
    (Double.hopSizeOf (Double.chunkSizeOf sr)) fuel 0 LoopState.init (by nlinarith)
  have hrun := (double_frameLoop_run hst).1
  unfold Double.analyzeAudio
  simp only [hst, Option.map_some']
  rw [← hrun]
  cases Double.detectBeeps sqrt maxArgs rangeError (Double.hopSizeOf (Double.chunkSizeOf sr)) sr
    st.allChunks <;> rfl

/-- With energy and frequency read from the first sample of a chunk,
`analyzeAudio` gives on a 48000 Hz recording made of blocks of 1200 samples
what it gives on the 40 Hz recording of the block values. -/
theorem analyzeAudio_blocks (sqrt : ℚ → ℚ) (maxArgs : ℕ) (rangeError : String) (fuel : ℕ)
    (vals : List ℚ) (dur : ℚ) (hfuel : 1200 * vals.length ≤ fuel) :
    Double.analyzeAudio sqrt maxArgs rangeError headEnergy Double.headTone fuel
        (Double.blocks 1200 vals) 48000 dur =
      Double.analyzeAudio sqrt maxArgs rangeError headEnergy Double.headTone fuel vals 40 dur := by
  have c1 : Double.chunkSizeOf 48000 = 2400 := by decide!
  have c2 : Double.hopSizeOf 2400 = 1200 := by decide!
  have c3 : Double.chunkSizeOf 40 = 2 := by decide!
  have c4 : Double.hopSizeOf 2 = 1 := by decide!
  rw [double_analyzeAudio_returns sqrt maxArgs rangeError headEnergy Double.headTone fuel
      (Double.blocks 1200 vals) 48000 dur (by rw [c1, c2]; norm_num) (by rw [c1]; norm_num)
      (by rw [blocks_length]; exact hfuel),
    double_analyzeAudio_returns sqrt maxArgs rangeError headEnergy Double.headTone fuel
      vals 40 dur (by rw [c3, c4]) (by rw [c3]; norm_num) (by omega)]
  rw [analysedFrames_blocks, c1, c2, c3, c4, detectBeeps_48000]
/-! ## The fields of a beep -/

/-- C8, the claim as stated, at the 40 Hz recording `speechSilenceTone`:
`analyzeAudio` returns one beep, of start 3.95, end 4.1000000000000005 and
duration 0.15, while `end - start` is 0.15000000000000036, as an exact
difference and as the rounded one: `duration = end - start` fails. -/
theorem beep_duration_is_not_end_minus_start :
    Double.analyzeAudio Double.sqrt 65535 "Maximum call stack size exceeded" headEnergy
        Double.headTone 200 speechSilenceTone 40 (Double.fdiv 166 40) =
        some (Except.ok Double.speechSilenceToneResult) ∧
      ∃ b ∈ Double.speechSilenceToneResult.beeps,
        b.start = Double.lit 3.95 ∧ b.end_ = Double.lit 4.1000000000000005 ∧
        b.duration = Double.lit 0.15 ∧
        b.end_ - b.start = Double.lit 0.15000000000000036 ∧
        Double.fsub b.end_ b.start = Double.lit 0.15000000000000036 ∧
        b.duration ≠ b.end_ - b.start ∧ b.duration ≠ Double.fsub b.end_ b.start := by
  refine ⟨by decide!, _, List.mem_singleton.mpr rfl, ?_⟩
  decide!

/-- C8, amended: every beep that `analyzeAudio` returns comes from a group of
consecutive tonal chunks, and has `start` = the time of the group's first
chunk, `end` = the time of its last chunk + `hopSize / sampleRate`,
`frequency` and `purity` = the sum of the members' frequencies and purities,
added in order, divided by their number, and
`duration` = (the time of the last chunk - `start`) + `hopSize / sampleRate`,
every operation being rounded to double precision. -/
theorem beep_fields_rounded (sqrt : ℚ → ℚ) (maxArgs : ℕ) (rangeError : String)
    (E : List ℚ → ℚ) (F : List ℚ → ℚ → FreqInfo) (fuel : ℕ) (samples : List ℚ) (sr dur : ℚ)
    (r : Result)
    (h : Double.analyzeAudio sqrt maxArgs rangeError E F fuel samples sr dur =
      some (Except.ok r))
    (b : Beep) (hb : b ∈ r.beeps) :
    ∃ (members : List Chunk) (first last : Chunk),
      members ∈ Double.tonalGroups (Double.tonalChunks E F samples sr) ∧
      members <:+: Double.tonalChunks E F samples sr ∧
      members.head? = some first ∧ members.getLast? = some last ∧
      b.start = first.time ∧
      b.end_ = Double.fadd last.time
        (Double.fdiv (Double.hopSizeOf (Double.chunkSizeOf sr) : ℚ) sr) ∧
      b.frequency =
        Double.fdiv (Double.reduceAdd (members.map Chunk.freq)) members.length ∧
      b.purity =
        Double.fdiv (Double.reduceAdd (members.map Chunk.purity)) members.length ∧
      b.duration = Double.fadd (Double.fsub last.time first.time)
        (Double.fdiv (Double.hopSizeOf (Double.chunkSizeOf sr) : ℚ) sr) := by
  obtain ⟨st, hst, hch, hdet, _, _, _⟩ := double_analyzeAudio_ok h
  rw [hch] at hdet
  obtain ⟨l, hl, hne, hev⟩ := double_mem_detectBeeps (double_tonalChunks_sorted hst) hdet hb
  obtain ⟨first, last, hf, hla, hgs, hlt⟩ := ofChunks_bounds hne
  obtain ⟨e1, e2, e3, e4, e5, _, _⟩ := double_beepOf_some hev
  refine ⟨l, first, last, hl, ?_, hf, hla, ?_, ?_, ?_, ?_, ?_⟩
  · have := List.infix_of_mem_flatten hl
    rwa [(double_tonalGroups_join _).1] at this
  · rw [e1, hgs]
  · rw [e2, hlt]
  · rw [e3]; simp [Group.ofChunks]
  · rw [e4]; simp [Group.ofChunks]
  · rw [e5, hgs, hlt]

/-- C8, amended, at the beep detected in `speechSilenceTone`: the chunks of
the frames 158 to 163, from 3.95 s to 4.075 s, give the duration
(4.075 - 3.95) + 0.025 = 0.15 and the end 4.075 + 0.025 =
4.1000000000000005. -/
theorem beep_fields_rounded_witness :
    Double.analyzeAudio Double.sqrt 65535 "Maximum call stack size exceeded" headEnergy
        Double.headTone 200 speechSilenceTone 40 (Double.fdiv 166 40) =
        some (Except.ok Double.speechSilenceToneResult) ∧
      ∃ (members : List Chunk) (first last : Chunk),
        members ∈ Double.tonalGroups
          (Double.tonalChunks headEnergy Double.headTone speechSilenceTone 40) ∧
        members <:+: Double.tonalChunks headEnergy Double.headTone speechSilenceTone 40 ∧
        members.head? = some first ∧ members.getLast? = some last ∧
        Double.lit 3.95 = first.time ∧
        Double.lit 4.1000000000000005 = Double.fadd last.time
          (Double.fdiv (Double.hopSizeOf (Double.chunkSizeOf 40) : ℚ) 40) ∧
        (950 : ℚ) = Double.fdiv (Double.reduceAdd (members.map Chunk.freq)) members.length ∧
        Double.lit 0.6 =
          Double.fdiv (Double.reduceAdd (members.map Chunk.purity)) members.length ∧
        Double.lit 0.15 = Double.fadd (Double.fsub last.time first.time)
          (Double.fdiv (Double.hopSizeOf (Double.chunkSizeOf 40) : ℚ) 40) :=
  ⟨by decide!,
    beep_fields_rounded Double.sqrt 65535 "Maximum call stack size exceeded" headEnergy
      Double.headTone 200 speechSilenceTone 40 (Double.fdiv 166 40)
      Double.speechSilenceToneResult (by decide!)
      { start := Double.lit 3.95, end_ := Double.lit 4.1000000000000005, frequency := 950,
        duration := Double.lit 0.15, purity := Double.lit 0.6 }
      (List.mem_singleton.mpr rfl)⟩
/-! ## Order of the beeps and of the silences -/

theorem double_tonalGroups_chain {R : Chunk → Chunk → Prop} {cs : List Chunk}
    (h : cs.Pairwise R) :
    (Double.tonalGroups cs).Pairwise
      (fun l₁ l₂ => l₁ ≠ [] ∧ l₂ ≠ [] ∧ l₁.Pairwise R ∧ ∀ x ∈ l₁, ∀ y ∈ l₂, R x y) := by
  obtain ⟨hj, hne⟩ := double_tonalGroups_join cs
  rw [← hj, List.pairwise_flatten] at h
  refine List.Pairwise.imp_of_mem ?_ h.2
  intro a b ha hb hab
  exact ⟨hne a ha, hne b hb, h.1 a ha, hab⟩

theorem head_le_getLast {l : List Chunk} {first last : Chunk}
    (hp : l.Pairwise (fun a b => a.time < b.time)) (hf : l.head? = some first)
    (hl : l.getLast? = some last) : first.time ≤ last.time := by
  cases l with
  | nil => cases hf
  | cons a t =>
    simp only [List.head?_cons, Option.some.injEq] at hf
    subst hf
    have hmem := List.mem_of_getLast?_eq_some hl
    rw [List.mem_cons] at hmem
    rcases hmem with hm | hm
    · rw [hm]
    · exact le_of_lt ((List.pairwise_cons.mp hp).1 last hm)

/-- C20, the claim as stated, at the 48000 Hz recording of 206400 samples
whose block values are `adjacentTones`, a 950 Hz tone in the frames 158 to 163
followed at once by a 1080 Hz tone: `analyzeAudio` returns two beeps, the
first with end 4.075 + 0.025 = 4.1000000000000005 and the second with start
4.1, so the second beep starts before the end of the first.  The 40 Hz
recording `adjacentTones` gives the same result. -/
theorem beep_ends_after_next_start :
    Double.analyzeAudio Double.sqrt 65535 "Maximum call stack size exceeded" headEnergy
        Double.headTone 206400 (Double.blocks 1200 Double.adjacentTones) 48000
        (Double.fdiv 206400 48000) =
        some (Except.ok Double.adjacentTonesResult) ∧
      Double.analyzeAudio Double.sqrt 65535 "Maximum call stack size exceeded" headEnergy
        Double.headTone 200 Double.adjacentTones 40 (Double.fdiv 172 40) =
        some (Except.ok Double.adjacentTonesResult) ∧
      (Double.adjacentTonesResult.beeps.map fun b => (b.start, b.end_)) =
        [(Double.lit 3.95, Double.lit 4.1000000000000005), (Double.lit 4.1, Double.lit 4.25)] ∧
      Double.fadd (Double.lit 4.075) (Double.fdiv ((1200 : ℤ) : ℚ) 48000) =
        Double.lit 4.1000000000000005 ∧
      Double.lit 4.1 < Double.lit 4.1000000000000005 ∧
      ¬ Double.adjacentTonesResult.beeps.Pairwise (fun a b => a.end_ ≤ b.start) := by
  refine ⟨?_, by decide!, by decide!, by decide!, by decide!, ?_⟩
  · rw [analyzeAudio_blocks _ _ _ _ _ _ (by decide!)]
    decide!
  · decide!

/-- C20, amended: for a buffer of at most `2 ^ 50` samples and a sample rate
of at most `2 ^ 1022`, the beeps and the silences that `analyzeAudio` returns
are each in strictly ascending order of `start`; a beep starts after the last
chunk of every earlier beep, whose `end` is the time of that chunk +
`hopSize / sampleRate`, rounded; and a silence interval starts after
`start + dur` of every earlier one. -/
theorem beeps_silences_in_order (sqrt : ℚ → ℚ) (maxArgs : ℕ) (rangeError : String)
    (E : List ℚ → ℚ) (F : List ℚ → ℚ → FreqInfo) (fuel : ℕ) (samples : List ℚ) (sr dur : ℚ)
    (r : Result) (hsr : sr ≤ 2 ^ 1022) (hlen : samples.length ≤ 2 ^ 50)
    (h : Double.analyzeAudio sqrt maxArgs rangeError E F fuel samples sr dur =
      some (Except.ok r)) :
    r.beeps.Pairwise (fun a b => a.start < b.start ∧
        ∃ last ∈ Double.tonalChunks E F samples sr,
          a.start ≤ last.time ∧ last.time < b.start ∧
          a.end_ = Double.fadd last.time
            (Double.fdiv (Double.hopSizeOf (Double.chunkSizeOf sr) : ℚ) sr)) ∧
      r.silences.Pairwise (fun a b => a.start < b.start ∧ a.start + a.dur < b.start) := by
  obtain ⟨st, hst, hch, hdet, hsil, _, _⟩ := double_analyzeAudio_ok h
  rw [hch] at hdet
  constructor
  · have hinc := double_tonalChunks_increasing hst hsr hlen
    have hsorted : (Double.tonalChunks E F samples sr).insertionSort timeLe =
        Double.tonalChunks E F samples sr := insertionSort_of_pairwise_lt hinc
    rw [double_detectBeeps_ok hdet]
    split
    · rw [hsorted]
      have hgroups := double_tonalGroups_chain hinc
      have hgroups' : (Double.tonalGroups (Double.tonalChunks E F samples sr)).Pairwise
          (fun l₁ l₂ => (l₁ <:+: Double.tonalChunks E F samples sr) ∧ l₁ ≠ [] ∧ l₂ ≠ [] ∧
            l₁.Pairwise (fun a b => a.time < b.time) ∧
            ∀ x ∈ l₁, ∀ y ∈ l₂, x.time < y.time) := by
        refine List.Pairwise.imp_of_mem ?_ hgroups
        intro a b ha _ hab
        refine ⟨?_, hab⟩
        have := List.infix_of_mem_flatten ha
        rwa [(double_tonalGroups_join _).1] at this
      refine List.Pairwise.filterMap _ ?_ hgroups'
      intro l₁ l₂ hl b hb b' hb'
      obtain ⟨hinf, h1, h2, hp, h3⟩ := hl
      obtain ⟨first, last, hf, hla, hgs, hlt⟩ := ofChunks_bounds h1
      obtain ⟨first', _, hf', _, hgs', _⟩ := ofChunks_bounds h2
      obtain ⟨e1, e2, _⟩ := double_beepOf_some (Option.mem_def.mp hb)
      obtain ⟨e1', _⟩ := double_beepOf_some (Option.mem_def.mp hb')
      have hlast := List.mem_of_getLast?_eq_some hla
      have hfirst := List.mem_of_mem_head? hf
      have hfirst' := List.mem_of_mem_head? hf'
      refine ⟨?_, last, hinf.subset hlast, ?_, ?_, ?_⟩
      · rw [e1, e1', hgs, hgs']
        exact h3 first hfirst first' hfirst'
      · rw [e1, hgs]
        exact head_le_getLast hp hf hla
      · rw [e1', hgs']
        exact h3 last hlast first' hfirst'
      · rw [e2, hlt]
    · exact List.Pairwise.nil
  · rw [hsil]
    obtain ⟨hord, hdur⟩ := double_silences_ordered hst hsr hlen
    refine List.Pairwise.imp_of_mem ?_ hord
    intro a b ha _ hab
    have := hdur a ha
    norm_num at this
    exact ⟨by linarith, hab⟩

/-- C20, amended, at a 40 Hz recording with three beeps and two silences. -/
theorem beeps_silences_in_order_witness :
    Double.analyzeAudio Double.sqrt 65535 "Maximum call stack size exceeded" headEnergy
        Double.headTone 200 tonesAndSilences 40 (Double.fdiv 84 40) =
        some (Except.ok Double.tonesAndSilencesResult) ∧
      Double.tonesAndSilencesResult.beeps.length = 3 ∧
      Double.tonesAndSilencesResult.silences.length = 2 ∧
      (Double.tonesAndSilencesResult.beeps.Pairwise (fun a b => a.start < b.start ∧
          ∃ last ∈ Double.tonalChunks headEnergy Double.headTone tonesAndSilences 40,
            a.start ≤ last.time ∧ last.time < b.start ∧
            a.end_ = Double.fadd last.time
              (Double.fdiv (Double.hopSizeOf (Double.chunkSizeOf 40) : ℚ) 40)) ∧
        Double.tonesAndSilencesResult.silences.Pairwise
          (fun a b => a.start < b.start ∧ a.start + a.dur < b.start)) :=
  ⟨by decide!, rfl, rfl,
    beeps_silences_in_order Double.sqrt 65535 "Maximum call stack size exceeded" headEnergy
      Double.headTone 200 tonesAndSilences 40 (Double.fdiv 84 40) Double.tonesAndSilencesResult
      (by norm_num) (by decide) (by decide!)⟩
/-! ## Thresholds met exactly: half a second, a quarter of a second, a tenth -/

theorem silenceRunsSpec_eval (frs : List Frame) :
    silenceRunsSpec (frs.map fun f => (f.time, f.energy)) =
      (runFrames frs LoopState.init).silences := by
  rw [(runFrames_silences frs LoopState.init).1 rfl]
  simp [LoopState.init]

/-- C5, the code at a silence of exactly half a second: in the 48000 Hz
recording of 31200 samples whose block values are `halfSecondQuiet`, the
frames 3 to 22 are quiet and frame 23 is loud, 20 hops = 0.5 s after frame 3.
The wording of the claim, applied to the frames with their times 0.075 and
0.575, gives the interval `{start: 0.075, dur: 0.5}`; the code computes
`0.575 - 0.075 = 0.49999999999999994`, which is below 0.5, and
`analyzeAudio` returns no silence. -/
theorem half_second_silence_not_emitted :
    (Double.blocks 1200 Double.halfSecondQuiet).length = 31200 ∧
      Double.analyzeAudio Double.sqrt 65535 "Maximum call stack size exceeded" headEnergy
          Double.headTone 31200 (Double.blocks 1200 Double.halfSecondQuiet) 48000
          (Double.fdiv 31200 48000) =
        some (Except.ok Double.halfSecondQuietResult) ∧
      Double.halfSecondQuietResult.silences = [] ∧
      ((Double.analysedFrames headEnergy Double.headTone
          (Double.blocks 1200 Double.halfSecondQuiet) 48000).map
          fun f => decide (f.energy < Double.lit 0.01)) =
        List.replicate 3 false ++ List.replicate 20 true ++ [false] ∧
      ((Double.analysedFrames headEnergy Double.headTone
          (Double.blocks 1200 Double.halfSecondQuiet) 48000).map Frame.time) =
        (List.range 24).map (fun (k : ℕ) => Double.fdiv (((k : ℤ) * 1200 : ℤ) : ℚ) 48000) ∧
      Double.fdiv (((3 : ℤ) * 1200 : ℤ) : ℚ) 48000 = Double.lit 0.075 ∧
      Double.fdiv (((23 : ℤ) * 1200 : ℤ) : ℚ) 48000 = Double.lit 0.575 ∧
      ((23 * 1200 : ℚ) / 48000 - 3 * 1200 / 48000 = 0.5) ∧
      silenceRunsSpec ((List.range 24).map fun (k : ℕ) =>
          ((k : ℚ) * 1200 / 48000, if 3 ≤ k ∧ k ≤ 22 then (0 : ℚ) else 1 / 2)) =
        [{ start := 3 * 1200 / 48000, dur := 1 / 2 }] ∧
      Double.fsub (Double.lit 0.575) (Double.lit 0.075) = Double.lit 0.49999999999999994 ∧
      Double.lit 0.49999999999999994 < 0.5 := by
  refine ⟨?_, ?_, rfl, ?_, ?_, by decide!, by decide!, by norm_num, ?_, by decide!, by decide!⟩
  · rw [blocks_length]; decide
  · rw [analyzeAudio_blocks _ _ _ _ _ _ (by decide)]
    decide!
  · rw [analysedFrames_blocks]
    decide!
  · rw [analysedFrames_blocks]
    simp only [frame_times_48000]
    decide!
  · have e : ((List.range 24).map fun (k : ℕ) =>
        ((k : ℚ) * 1200 / 48000, if 3 ≤ k ∧ k ≤ 22 then (0 : ℚ) else 1 / 2)) =
        ((List.range 24).map fun (k : ℕ) =>
          ({ time := (k : ℚ) * 1200 / 48000,
             energy := if 3 ≤ k ∧ k ≤ 22 then (0 : ℚ) else 1 / 2, freq := 0,
             purity := 0 } : Frame)).map fun f => (f.time, f.energy) := by
      rw [List.map_map]
      rfl
    rw [e, silenceRunsSpec_eval]
    decide!

/-- C6, the code at two candidates a quarter of a second apart: the 950 Hz
chunks of the frames 4 and 14 of a 48000 Hz recording have the times 0.1 and
0.35, 10 hops = 0.25 s apart; the code computes
`0.35 - 0.1 = 0.24999999999999997`, which is below 0.25, and appends the
second chunk to the group of the first, so the two form one group.  In the
48000 Hz recording of 25200 samples whose block values are
`tonesQuarterSecondApart`, the tones of the frames 1 to 4 and 14 to 17, whose
chunks 4 and 14 are a quarter of a second apart, are returned as one beep
from 0.025 s to 0.45 s; with exact times (the same frames at 40 Hz, without
rounding) they are two beeps, 0.025 s to 0.125 s and 0.35 s to 0.45 s. -/
theorem quarter_second_gap_merges :
    (Double.toneChunk 1200 48000 4).time = Double.lit 0.1 ∧
      (Double.toneChunk 1200 48000 14).time = Double.lit 0.35 ∧
      ((14 * 1200 : ℚ) / 48000 - 4 * 1200 / 48000 = 0.25) ∧
      Double.timeDiff (Group.single (Double.toneChunk 1200 48000 4))
        (Double.toneChunk 1200 48000 14) = Double.lit 0.24999999999999997 ∧
      Double.lit 0.24999999999999997 < 0.25 ∧
      Double.accepts (Group.single (Double.toneChunk 1200 48000 4))
        (Double.toneChunk 1200 48000 14) = true ∧
      Double.groupStep Double.sqrt 65535 "Maximum call stack size exceeded" 1200 48000
          { group := Group.single (Double.toneChunk 1200 48000 4), beeps := [] }
          (Double.toneChunk 1200 48000 14) =
        Except.ok
          { group := Group.ofChunks
              [Double.toneChunk 1200 48000 4, Double.toneChunk 1200 48000 14],
            beeps := [] } ∧
      Double.tonalGroups [Double.toneChunk 1200 48000 4, Double.toneChunk 1200 48000 14] =
        [[Double.toneChunk 1200 48000 4, Double.toneChunk 1200 48000 14]] ∧
      (Double.blocks 1200 Double.tonesQuarterSecondApart).length = 25200 ∧
      Double.analyzeAudio Double.sqrt 65535 "Maximum call stack size exceeded" headEnergy
          Double.headTone 25200 (Double.blocks 1200 Double.tonesQuarterSecondApart) 48000
          (Double.fdiv 25200 48000) =
        some (Except.ok Double.tonesQuarterSecondApartResult) ∧
      (Double.tonalChunks headEnergy Double.headTone
          (Double.blocks 1200 Double.tonesQuarterSecondApart) 48000).map Chunk.time =
        [1, 2, 3, 4, 14, 15, 16, 17].map
          (fun (k : ℕ) => (Double.toneChunk 1200 48000 k).time) ∧
      (Double.tonesQuarterSecondApartResult.beeps.map fun b => (b.start, b.end_)) =
        [(Double.lit 0.025, Double.lit 0.45)] ∧
      (analyzeAudio headEnergy headTone 200 Double.tonesQuarterSecondApart 40 (21 / 40)).map
          (fun r => r.beeps.map fun b => (b.start, b.end_)) =
        some [(1 / 40, 1 / 8), (7 / 20, 9 / 20)] := by
  refine ⟨by decide!, by decide!, by norm_num, by decide!, by decide!, by decide!, by decide!,
    by decide!, ?_, ?_, ?_, by decide!, by decide!⟩
  · rw [blocks_length]; decide
  · rw [analyzeAudio_blocks _ _ _ _ _ _ (by decide)]
    decide!
  · unfold Double.tonalChunks
    rw [analysedFrames_blocks]
    decide!

/-- C26, the code at four chunks of a 48000 Hz recording (`chunkSize` 2400,
`hopSize` 1200): for the chunks of the frames 4 to 7, at 0.1 s to 0.175 s,
the code computes the duration `0.175 - 0.1 + 0.025 = 0.09999999999999998`,
which is below 0.10, and `evaluateGroup` discards the group although it has
four members of purity 0.6: `analyzeAudio` returns no beep for the recording
of 13200 samples with the tone in the frames 4 to 7.  The same tone in the
frames 0 to 3 has the duration 0.1 and is returned as a beep.  Among the
first twelve start frames the group is discarded at 4, 9 and 11.  At 44100 Hz
(`chunkSize` 2205, `hopSize` 1102) the group is discarded at frame 0 and at
frame 4. -/
theorem four_chunks_at_48000_discarded :
    Double.chunkSizeOf 48000 = 2400 ∧ Double.hopSizeOf (Double.chunkSizeOf 48000) = 1200 ∧
      (Double.toneGroup 1200 48000 4 4).groupFreqs.length = 4 ∧
      (Double.toneGroup 1200 48000 4 4).groupPurities = List.replicate 4 (Double.lit 0.6) ∧
      (Double.toneGroup 1200 48000 4 4).groupStart = Double.lit 0.1 ∧
      (Double.toneGroup 1200 48000 4 4).lastTime = Double.lit 0.175 ∧
      ((7 * 1200 : ℚ) / 48000 - 4 * 1200 / 48000 + 1200 / 48000 = 0.10) ∧
      Double.groupDuration 1200 48000 (Double.toneGroup 1200 48000 4 4) =
        Double.lit 0.09999999999999998 ∧
      Double.lit 0.09999999999999998 < Double.lit 0.10 ∧
      Double.evaluateGroup Double.sqrt 65535 "Maximum call stack size exceeded" 1200 48000
        (Double.toneGroup 1200 48000 4 4) = Except.ok none ∧
      Double.analyzeAudio Double.sqrt 65535 "Maximum call stack size exceeded" headEnergy
          Double.headTone 13200 (Double.blocks 1200 Double.fourHopsFromFrame4) 48000
          (Double.fdiv 13200 48000) =
        some (Except.ok Double.fourHopsFromFrame4Result) ∧
      Double.fourHopsFromFrame4Result.beeps = [] ∧
      (Double.tonalChunks headEnergy Double.headTone
          (Double.blocks 1200 Double.fourHopsFromFrame4) 48000).map Chunk.time =
        [4, 5, 6, 7].map (fun (k : ℕ) => (Double.toneChunk 1200 48000 k).time) ∧
      Double.groupDuration 1200 48000 (Double.toneGroup 1200 48000 0 4) = Double.lit 0.10 ∧
      Double.evaluateGroup Double.sqrt 65535 "Maximum call stack size exceeded" 1200 48000
          (Double.toneGroup 1200 48000 0 4) =
        Except.ok (some { start := 0, end_ := Double.lit 0.1, frequency := 950,
                          duration := Double.lit 0.1, purity := Double.lit 0.6 }) ∧
      Double.analyzeAudio Double.sqrt 65535 "Maximum call stack size exceeded" headEnergy
          Double.headTone 8400 (Double.blocks 1200 Double.fourHopsFromFrame0) 48000
          (Double.fdiv 8400 48000) =
        some (Except.ok Double.fourHopsFromFrame0Result) ∧
      ((List.range 12).filter fun (k : ℕ) =>
          decide (Double.evaluateGroup Double.sqrt 65535 "Maximum call stack size exceeded"
            1200 48000 (Double.toneGroup 1200 48000 k 4) = Except.ok none)) = [4, 9, 11] ∧
      Double.chunkSizeOf 44100 = 2205 ∧ Double.hopSizeOf (Double.chunkSizeOf 44100) = 1102 ∧
      Double.evaluateGroup Double.sqrt 65535 "Maximum call stack size exceeded" 1102 44100
        (Double.toneGroup 1102 44100 0 4) = Except.ok none ∧
      Double.evaluateGroup Double.sqrt 65535 "Maximum call stack size exceeded" 1102 44100
        (Double.toneGroup 1102 44100 4 4) = Except.ok none := by
  refine ⟨by decide!, by decide!, by decide!, by decide!, by decide!, by decide!, by norm_num,
    by decide!, by decide!, by decide!, ?_, rfl, ?_, by decide!, by decide!, ?_, by decide!,
    by decide!, by decide!, by decide!, by decide!⟩
  · rw [analyzeAudio_blocks _ _ _ _ _ _ (by decide)]
    decide!
  · unfold Double.tonalChunks
    rw [analysedFrames_blocks]
    decide!
  · rw [analyzeAudio_blocks _ _ _ _ _ _ (by decide)]
    decide!
/-! ## One entry per file -/

/-- With a sample rate of 40 or more and as much fuel as there are samples,
`analyzeAudio` comes to an end: it returns a result or throws. -/
theorem double_analyzeAudio_ends (sqrt : ℚ → ℚ) (maxArgs : ℕ) (rangeError : String)
    (E : List ℚ → ℚ) (F : List ℚ → ℚ → FreqInfo) (fuel : ℕ) (samples : List ℚ) (sr dur : ℚ)
    (hsr : 40 ≤ sr) (hfuel : samples.length ≤ fuel) :
    ∃ outcome, Double.analyzeAudio sqrt maxArgs rangeError E F fuel samples sr dur =
      some outcome := by
  obtain ⟨hchunk, hhop⟩ := double_hopSize_pos hsr
  have hf : (samples.length : ℤ) ≤ (fuel : ℤ) := by exact_mod_cast hfuel
  have hfl : (0 : ℤ) ≤ (fuel : ℤ) := by positivity
  obtain ⟨st, hst⟩ := double_frameLoop_terminates E F samples sr (Double.chunkSizeOf sr)
    (Double.hopSizeOf (Double.chunkSizeOf sr)) fuel 0 LoopState.init (by nlinarith)
  unfold Double.analyzeAudio
  simp only [hst, Option.map_some']
  exact ⟨_, rfl⟩

theorem double_analyzeAudio_ordinary {sqrt : ℚ → ℚ} {maxArgs : ℕ} {rangeError : String}
    {E : List ℚ → ℚ} {F : List ℚ → ℚ → FreqInfo} {fuel : ℕ} {samples : List ℚ} {sr dur : ℚ}
    {r : Result}
    (h : Double.analyzeAudio sqrt maxArgs rangeError E F fuel samples sr dur =
      some (Except.ok r)) :
    r.triggerType ≠ TriggerType.error := by
  obtain ⟨st, _, _, _, _, _, hr⟩ := double_analyzeAudio_ok h
  rw [hr]
  exact double_decideDrop_ordinary _ _ _ _

theorem analyzeLoop_map (sqrt : ℚ → ℚ) (maxArgs : ℕ) (rangeError : String) (E : List ℚ → ℚ)
    (F : List ℚ → ℚ → FreqInfo) (fuel : ℕ) (channelError : String) (files : List AudioFile) :
    ∀ (acc out : List ResultEntry),
      analyzeLoop sqrt maxArgs rangeError E F fuel channelError files acc = some out →
      ∃ new, out = acc ++ new ∧
        files.map (analyzeFile sqrt maxArgs rangeError E F fuel channelError) =
          new.map some := by
  induction files with
  | nil =>
    intro acc out h
    simp only [analyzeLoop, Option.some.injEq] at h
    exact ⟨[], by simp [h], rfl⟩
  | cons file rest ih =>
    intro acc out h
    simp only [analyzeLoop] at h
    cases hf : analyzeFile sqrt maxArgs rangeError E F fuel channelError file with
    | none => rw [hf] at h; cases h
    | some entry =>
      rw [hf] at h
      obtain ⟨new, hnew, hmap⟩ := ih _ _ h
      refine ⟨entry :: new, by rw [hnew]; simp, ?_⟩
      simp [hf, hmap]

theorem analyzeLoop_ends (sqrt : ℚ → ℚ) (maxArgs : ℕ) (rangeError : String) (E : List ℚ → ℚ)
    (F : List ℚ → ℚ → FreqInfo) (fuel : ℕ) (channelError : String) (files : List AudioFile)
    (hfiles : ∀ file ∈ files,
      ∃ entry, analyzeFile sqrt maxArgs rangeError E F fuel channelError file = some entry) :
    ∀ acc : List ResultEntry,
      ∃ out, analyzeLoop sqrt maxArgs rangeError E F fuel channelError files acc = some out := by
  induction files with
  | nil => intro acc; exact ⟨acc, rfl⟩
  | cons file rest ih =>
    intro acc
    obtain ⟨entry, he⟩ := hfiles file (List.mem_cons_self _ _)
    simp only [analyzeLoop, he]
    exact ih (fun f hf => hfiles f (List.mem_cons_of_mem _ hf)) _

/-- The entry pushed for one file, when the analysis of the file comes to an
end. -/
theorem analyzeFile_ends (sqrt : ℚ → ℚ) (maxArgs : ℕ) (rangeError : String) (E : List ℚ → ℚ)
    (F : List ℚ → ℚ → FreqInfo) (fuel : ℕ) (channelError : String) (file : AudioFile)
    (hfile : ∀ audioBuffer loaded, file.decoded = Except.ok audioBuffer →
      loadAudio audioBuffer = some loaded →
      40 ≤ loaded.sampleRate ∧ loaded.samples.length ≤ fuel) :
    ∃ entry, analyzeFile sqrt maxArgs rangeError E F fuel channelError file = some entry := by
  unfold analyzeFile
  cases hd : file.decoded with
  | error message => exact ⟨_, rfl⟩
  | ok audioBuffer =>
    simp only
    cases hl : loadAudio audioBuffer with
    | none => exact ⟨_, rfl⟩
    | some loaded =>
      simp only
      obtain ⟨hsr, hfuel⟩ := hfile audioBuffer loaded hd hl
      obtain ⟨outcome, ho⟩ := double_analyzeAudio_ends sqrt maxArgs rangeError E F fuel
        loaded.samples loaded.sampleRate loaded.duration hsr hfuel
      rw [ho]
      cases outcome with
      | error message => exact ⟨_, rfl⟩
      | ok analysis => exact ⟨_, rfl⟩

/-- The entry pushed for one file is the error entry of the error thrown, by
`loadAudio` or by `analyzeAudio`, and an entry with one of the four ordinary
triggers when neither throws. -/
theorem analyzeFile_error_iff (sqrt : ℚ → ℚ) (maxArgs : ℕ) (rangeError : String)
    (E : List ℚ → ℚ) (F : List ℚ → ℚ → FreqInfo) (fuel : ℕ) (channelError : String)
    (file : AudioFile) (entry : ResultEntry)
    (h : analyzeFile sqrt maxArgs rangeError E F fuel channelError file = some entry) :
    entry.fileName = file.name ∧
      (entry.triggerType = TriggerType.error ↔
        (loadError channelError file).isSome = true ∨
          (analysisError sqrt maxArgs rangeError E F fuel file).isSome = true) ∧
      (∀ message,
        (loadError channelError file = some message ∨
          analysisError sqrt maxArgs rangeError E F fuel file = some message) →
        entry = ResultEntry.failed file.name 0 TriggerType.error 0 ("Error: " ++ message) []) := by
  unfold analyzeFile at h
  unfold loadError analysisError
  cases hd : file.decoded with
  | error message =>
    simp only [hd] at h ⊢
    cases h
    refine ⟨rfl, by simp [errorEntry, ResultEntry.triggerType], ?_⟩
    intro m hm
    rcases hm with hm | hm
    · cases hm; rfl
    · cases hm
  | ok audioBuffer =>
    simp only [hd] at h ⊢
    cases hl : loadAudio audioBuffer with
    | none =>
      simp only [hl] at h ⊢
      cases h
      refine ⟨rfl, by simp [errorEntry, ResultEntry.triggerType], ?_⟩
      intro m hm
      rcases hm with hm | hm
      · cases hm; rfl
      · cases hm
    | some loaded =>
      simp only [hl] at h ⊢
      cases ho : Double.analyzeAudio sqrt maxArgs rangeError E F fuel loaded.samples
          loaded.sampleRate loaded.duration with
      | none =>
        rw [ho] at h
        cases h
      | some outcome =>
        rw [ho] at h
        cases outcome with
        | error message =>
          simp only at h
          cases h
          refine ⟨rfl, by simp [errorEntry, ResultEntry.triggerType], ?_⟩
          intro m hm
          rcases hm with hm | hm
          · cases hm
          · cases hm; rfl
        | ok analysis =>
          simp only at h
          cases h
          refine ⟨rfl, ?_, ?_⟩
          · simp only [ResultEntry.triggerType, Option.isSome_none, Bool.false_eq_true,
              or_self, iff_false]
            exact double_analyzeAudio_ordinary ho
          · intro m hm
            rcases hm with hm | hm <;> cases hm

/-- C21: when every file that can be loaded has a sample rate of 40 or more
and no more samples than the fuel, `handleAnalyze` comes to an end, and the
results list it builds has exactly one entry per file, in the order of the
files, each entry being the one the loop body produces for its own file
alone and carrying the name of that file; the entry of file `i` is the error
entry `{dropTimestamp: 0, triggerType: 'error', confidence: 0,
details: 'Error: ' + message}` if and only if loading or analysing file `i`
throws, `message` being the message of the error thrown. -/
theorem handleAnalyze_one_entry_per_file (sqrt : ℚ → ℚ) (maxArgs : ℕ) (rangeError : String)
    (E : List ℚ → ℚ) (F : List ℚ → ℚ → FreqInfo) (fuel : ℕ) (channelError : String)
    (st0 : AppState) (files : List AudioFile)
    (hfiles : ∀ file ∈ files, ∀ audioBuffer loaded, file.decoded = Except.ok audioBuffer →
      loadAudio audioBuffer = some loaded →
      40 ≤ loaded.sampleRate ∧ loaded.samples.length ≤ fuel) :
    ∃ st', handleAnalyze sqrt maxArgs rangeError E F fuel channelError
          (handleFilesChange st0 files) = some st' ∧
      st'.results.length = files.length ∧
      files.map (analyzeFile sqrt maxArgs rangeError E F fuel channelError) =
        st'.results.map some ∧
      ∀ (i : ℕ) (hi : i < files.length), ∃ entry,
        st'.results[i]? = some entry ∧
        analyzeFile sqrt maxArgs rangeError E F fuel channelError (files.get ⟨i, hi⟩) =
          some entry ∧
        entry.fileName = (files.get ⟨i, hi⟩).name ∧
        (entry.triggerType = TriggerType.error ↔
          (loadError channelError (files.get ⟨i, hi⟩)).isSome = true ∨
            (analysisError sqrt maxArgs rangeError E F fuel (files.get ⟨i, hi⟩)).isSome =
              true) ∧
        (∀ message,
          (loadError channelError (files.get ⟨i, hi⟩) = some message ∨
            analysisError sqrt maxArgs rangeError E F fuel (files.get ⟨i, hi⟩) =
              some message) →
          entry = ResultEntry.failed (files.get ⟨i, hi⟩).name 0 TriggerType.error 0
            ("Error: " ++ message) []) := by
  have hends : ∀ file ∈ files,
      ∃ entry, analyzeFile sqrt maxArgs rangeError E F fuel channelError file = some entry :=
    fun file hf => analyzeFile_ends sqrt maxArgs rangeError E F fuel channelError file
      (hfiles file hf)
  obtain ⟨out, hout⟩ := analyzeLoop_ends sqrt maxArgs rangeError E F fuel channelError files
    hends []
  obtain ⟨new, hnew, hm⟩ := analyzeLoop_map sqrt maxArgs rangeError E F fuel channelError files
    [] out hout
  simp only [List.nil_append] at hnew
  subst hnew
  have hlen : out.length = files.length := by
    have := congrArg List.length hm
    simp only [List.length_map] at this
    exact this.symm
  have hrun : handleAnalyze sqrt maxArgs rangeError E F fuel channelError
      (handleFilesChange st0 files) = some { files := files, results := out } := by
    unfold handleAnalyze handleFilesChange
    simp only
    split
    · rename_i hz
      have hnil : files = [] := List.length_eq_zero.mp hz
      subst hnil
      simp only [analyzeLoop, Option.some.injEq] at hout
      rw [← hout]
    · simp only [hout, Option.map_some']
  refine ⟨{ files := files, results := out }, hrun, hlen, hm, ?_⟩
  intro i hi
  have hget := congrArg (fun l => l[i]?) hm
  simp only [List.getElem?_map] at hget
  rw [List.getElem?_eq_getElem hi] at hget
  have hi' : i < out.length := by rw [hlen]; exact hi
  rw [List.getElem?_eq_getElem hi'] at hget
  simp only [Option.map_some', Option.some.injEq] at hget
  refine ⟨out[i], List.getElem?_eq_getElem hi', hget, ?_⟩
  exact analyzeFile_error_iff sqrt maxArgs rangeError E F fuel channelError _ _ hget

theorem batchOfFour_loads :
    ∀ file ∈ batchOfFour, ∀ audioBuffer loaded, file.decoded = Except.ok audioBuffer →
      loadAudio audioBuffer = some loaded →
      40 ≤ loaded.sampleRate ∧ loaded.samples.length ≤ 10 := by
  have h1 : loadAudio shortBuffer =
      some { samples := [0, 0, 0], sampleRate := 40, duration := 3 / 40 } := by decide!
  have h2 : loadAudio toneBuffer =
      some { samples := [1, 1, 1, 1, 1, 1, 1], sampleRate := 40, duration := 7 / 40 } := by
    decide!
  intro file hf audioBuffer loaded hd hl
  simp only [batchOfFour, List.mem_cons, List.mem_singleton, List.not_mem_nil, or_false] at hf
  rcases hf with rfl | rfl | rfl | rfl
  · simp only [Except.ok.injEq] at hd
    subst hd
    rw [h1] at hl
    cases hl
    exact ⟨le_refl _, by decide⟩
  · cases hd
  · simp only [Except.ok.injEq] at hd
    subst hd
    rw [h2] at hl
    cases hl
    exact ⟨le_refl _, by decide⟩
  · simp only [Except.ok.injEq] at hd
    subst hd
    rw [h1] at hl
    cases hl
    exact ⟨le_refl _, by decide⟩

theorem batchOfFour_run :
    handleAnalyze Double.sqrt 4 "Maximum call stack size exceeded" headEnergy Double.headTone 10
        "no channel" (handleFilesChange { files := [], results := [] } batchOfFour) =
      some { files := batchOfFour, results := batchOfFourResults } := by
  have hl1 : loadAudio shortBuffer =
      some { samples := [0, 0, 0], sampleRate := 40, duration := 3 / 40 } := by decide!
  have hl2 : loadAudio toneBuffer =
      some { samples := [1, 1, 1, 1, 1, 1, 1], sampleRate := 40, duration := 7 / 40 } := by
    decide!
  have ha1 : Double.analyzeAudio Double.sqrt 4 "Maximum call stack size exceeded" headEnergy
      Double.headTone 10 [0, 0, 0] 40 (3 / 40) = some (Except.ok shortBufferResult) := by
    decide!
  have ha2 : Double.analyzeAudio Double.sqrt 4 "Maximum call stack size exceeded" headEnergy
      Double.headTone 10 [1, 1, 1, 1, 1, 1, 1] 40 (7 / 40) =
      some (Except.error "Maximum call stack size exceeded") := by decide!
  have h1 : ∀ name : String, analyzeFile Double.sqrt 4 "Maximum call stack size exceeded"
      headEnergy Double.headTone 10 "no channel"
      { name := name, decoded := Except.ok shortBuffer } =
      some (ResultEntry.analysed name (3 / 40) [0, 0, 0] 40 shortBufferResult) := by
    intro name
    simp only [analyzeFile, hl1, ha1]
  have h3 : analyzeFile Double.sqrt 4 "Maximum call stack size exceeded" headEnergy
      Double.headTone 10 "no channel" { name := "c.wav", decoded := Except.ok toneBuffer } =
      some (errorEntry "c.wav" "Maximum call stack size exceeded") := by
    simp only [analyzeFile, hl2, ha2]
  have h2 : analyzeFile Double.sqrt 4 "Maximum call stack size exceeded" headEnergy
      Double.headTone 10 "no channel"
      { name := "b.wav", decoded := Except.error "Unable to decode audio data" } =
      some (errorEntry "b.wav" "Unable to decode audio data") := rfl
  simp [handleAnalyze, handleFilesChange, batchOfFour, analyzeLoop, h1, h2, h3,
    batchOfFourResults]

/-- C21, at a batch of four files of which the second cannot be decoded and
the third makes `analyzeAudio` throw (on an engine that accepts at most four
arguments): four entries, the second and the third being the error entries of
the two errors, the first and the fourth the fallback results of their
files. -/
theorem handleAnalyze_one_entry_per_file_witness :
    handleAnalyze Double.sqrt 4 "Maximum call stack size exceeded" headEnergy Double.headTone 10
        "no channel" (handleFilesChange { files := [], results := [] } batchOfFour) =
        some { files := batchOfFour, results := batchOfFourResults } ∧
      batchOfFourResults.length = batchOfFour.length ∧
      batchOfFourResults[1]? =
        some (ResultEntry.failed "b.wav" 0 TriggerType.error 0
          "Error: Unable to decode audio data" []) ∧
      batchOfFourResults[2]? =
        some (ResultEntry.failed "c.wav" 0 TriggerType.error 0
          "Error: Maximum call stack size exceeded" []) ∧
      ∃ st', handleAnalyze Double.sqrt 4 "Maximum call stack size exceeded" headEnergy
            Double.headTone 10 "no channel"
            (handleFilesChange { files := [], results := [] } batchOfFour) = some st' ∧
        st'.results.length = batchOfFour.length :=
  ⟨batchOfFour_run, rfl, rfl, rfl,
    (handleAnalyze_one_entry_per_file Double.sqrt 4 "Maximum call stack size exceeded"
      headEnergy Double.headTone 10 "no channel" { files := [], results := [] } batchOfFour
      batchOfFour_loads).imp fun _ h => ⟨h.1, h.2.1⟩⟩

end AudioAnalyzer
